import Mathlib

/-!
Exercise 7.1.c: AlGaAs / GaAs / AlGaAs quantum well, assembly of the Hamiltonian

A shallow embedding of `src/E_7_1_c/src/main.cpp`.

* `double` values are modelled as exact elements of a field `F` (instantiated with `ℚ` for
  evaluation and with `ℝ` for spectral statements); decimal literals are the corresponding
  rationals.
* `int` values are `Int`; the two `for` loops run over `0, 1, …, bound - 1` and do not run at
  all when the bound is not positive.
* `complex<double>` amplitudes are pairs `(re, im)`.
* The `Model` is the sequence of hopping amplitudes streamed into it by `model << …`.
-/

namespace E_7_1_c

/-- A `complex<double>` amplitude, as the pair of its real and imaginary part. -/
abbrev Amplitude (F : Type) := F × F

/-- The implicit conversion `double → complex<double>`. -/
def ofReal {F : Type} [Zero F] (x : F) : Amplitude F := (x, 0)

/-- Complex conjugation. -/
def conj {F : Type} [Neg F] (z : Amplitude F) : Amplitude F := (z.1, -z.2)

/-- The value `HoppingAmplitude(amplitude, {toIndex}, {fromIndex})`. -/
structure HoppingAmplitude (F : Type) where
  amplitude : Amplitude F
  toIndex : Int
  fromIndex : Int

/-- The Hermitian conjugate that `+ HC` adds next to a hopping amplitude. -/
def HoppingAmplitude.hermitianConjugate {F : Type} [Neg F] (h : HoppingAmplitude F) :
    HoppingAmplitude F :=
  ⟨conj h.amplitude, h.fromIndex, h.toIndex⟩

/-- The `Model`: the hopping amplitudes streamed into it, in order. -/
abbrev Model (F : Type) := List (HoppingAmplitude F)

/-- The statement `model << h`. -/
def Model.add {F : Type} (model : Model F) (h : HoppingAmplitude F) : Model F :=
  model ++ [h]

/-- The statement `model << h + HC`. -/
def Model.addWithHC {F : Type} [Neg F] (model : Model F) (h : HoppingAmplitude F) : Model F :=
  model ++ [h, h.hermitianConjugate]

/-- Modelled from the spec: the `LatticeModel` is "a mapping from ordered pairs of site indices
(row, column) to complex hopping amplitude"; the entry at `(i, j)` collects the amplitudes
streamed in with `toIndex = i` and `fromIndex = j` (the `Model` class itself is library code). -/
def entry {F : Type} [Zero F] [Add F] (model : Model F) (i j : Int) : Amplitude F :=
  ((model.filter (fun h => decide (h.toIndex = i) && decide (h.fromIndex = j))).map
    (fun h => h.amplitude)).sum

/-- The quantities that the assembly in `main` reads. -/
structure Params (F : Type) where
  hbar : F
  a : F
  width_AlGaAs : Int
  width_GaAs : Int
  m_GaAs : F
  m_AlGaAs : F
  E_GaAs : F
  E_AlGaAs : F

section Assembly

variable {F : Type} [Field F]

/-- Prefactor for the discretized second derivative, `hbar*hbar/(2*m_AlGaAs*a*a)`. -/
def t_AlGaAs (p : Params F) : F := p.hbar * p.hbar / (2 * p.m_AlGaAs * p.a * p.a)

/-- Prefactor for the discretized second derivative, `hbar*hbar/(2*m_GaAs*a*a)`. -/
def t_GaAs (p : Params F) : F := p.hbar * p.hbar / (2 * p.m_GaAs * p.a * p.a)

/-- Prefactor for `k^2`, `hbar*hbar/(2*m_AlGaAs)`. -/
def tp_AlGaAs (p : Params F) : F := p.hbar * p.hbar / (2 * p.m_AlGaAs)

/-- Prefactor for `k^2`, `hbar*hbar/(2*m_GaAs)`. -/
def tp_GaAs (p : Params F) : F := p.hbar * p.hbar / (2 * p.m_GaAs)

/-- The loop bound `2*width_AlGaAs + width_GaAs` of the diagonal loop. -/
def siteCount (p : Params F) : Int := 2 * p.width_AlGaAs + p.width_GaAs

/-- The branch of the diagonal loop that a site takes. -/
inductive SiteClass where
  | AlGaAs
  | boundary
  | GaAs
  deriving DecidableEq, Repr

/-- The three-way `if / else if / else` of the diagonal loop. -/
def siteClass (p : Params F) (n : Int) : SiteClass :=
  if n < p.width_AlGaAs ∨ n ≥ p.width_AlGaAs + p.width_GaAs then
    SiteClass.AlGaAs
  else if n = p.width_AlGaAs ∨ n = p.width_AlGaAs + p.width_GaAs - 1 then
    SiteClass.boundary
  else
    SiteClass.GaAs

/-- The `double` passed to `HoppingAmplitude` in each branch of the diagonal loop,
`kc` being `k[c]`. -/
def diagonalValue (p : Params F) (kc : F) : SiteClass → F
  | SiteClass.AlGaAs => p.E_AlGaAs + 2 * t_AlGaAs p + tp_AlGaAs p * kc ^ 2
  | SiteClass.boundary =>
      (p.E_AlGaAs + p.E_GaAs) / 2 + t_AlGaAs p + t_GaAs p
        + (tp_AlGaAs p + tp_GaAs p) * kc ^ 2 / 2
  | SiteClass.GaAs => p.E_GaAs + 2 * t_GaAs p + tp_AlGaAs p * kc ^ 2

/-- Body of the loop "Add diagonal elements". -/
def addDiagonal (p : Params F) (kc : F) (model : Model F) (n : Int) : Model F :=
  model.add ⟨ofReal (diagonalValue p kc (siteClass p n)), n, n⟩

/-- The two-way `if / else` of the off-diagonal loop: `true` in the branch marked `AlGaAs`. -/
def bondIsAlGaAs (p : Params F) (n : Int) : Bool :=
  decide (n < p.width_AlGaAs ∨ n ≥ p.width_AlGaAs + p.width_GaAs - 1)

/-- The `double` passed to `HoppingAmplitude` in the off-diagonal loop. -/
def offDiagonalValue (p : Params F) (n : Int) : F :=
  if bondIsAlGaAs p n then -t_AlGaAs p else -t_GaAs p

/-- Body of the loop "Add off-diagonal elements". -/
def addOffDiagonal (p : Params F) (model : Model F) (n : Int) : Model F :=
  model.addWithHC ⟨ofReal (offDiagonalValue p n), n + 1, n⟩

/-- The loop `for(int n = 0; n < bound; n++)` threading a state through its body. -/
def forLoop {σ : Type} (bound : Int) (body : σ → Int → σ) (init : σ) : σ :=
  (List.range bound.toNat).foldl (fun (s : σ) (n : Nat) => body s (n : Int)) init

/-- The model assembled in one iteration of the sample loop, for `kc = k[c]`. -/
def buildModel (p : Params F) (kc : F) : Model F :=
  let model : Model F := []
  let model := forLoop (siteCount p) (addDiagonal p kc) model
  forLoop (siteCount p - 1) (addOffDiagonal p) model

/-- The matrix entry `H[i][j]` of the model assembled for `kc`. -/
def H (p : Params F) (kc : F) (i j : Int) : Amplitude F := entry (buildModel p kc) i j

/-- The matrix of the model over the sites `0, …, N - 1`, `N = 2*width_AlGaAs + width_GaAs`:
the real parts of the entries (the imaginary parts are zero). -/
def Hmat (p : Params F) (kc : F) :
    Matrix (Fin (siteCount p).toNat) (Fin (siteCount p).toNat) F :=
  fun i j => (H p kc ((i : Nat) : Int) ((j : Nat) : Int)).1

/-- A vector over the sites `0, …, N - 1`, continued by zero to all integer positions. -/
def extendZero {N : Nat} (x : Fin N → F) (m : Int) : F :=
  if h : 0 ≤ m ∧ m < (N : Int) then x ⟨m.toNat, by omega⟩ else 0

/-- The offset energy of a site: the first summand of the `double` passed to
`HoppingAmplitude` in each branch of the diagonal loop. -/
def offsetEnergy (p : Params F) : SiteClass → F
  | SiteClass.AlGaAs => p.E_AlGaAs
  | SiteClass.boundary => (p.E_AlGaAs + p.E_GaAs) / 2
  | SiteClass.GaAs => p.E_GaAs

/-- The number of sites `n` in `[0, N)` that take the branch `c` of the diagonal loop. -/
def classCount (p : Params F) (c : SiteClass) : Nat :=
  ((Finset.range (siteCount p).toNat).filter (fun n : Nat => siteClass p (n : Int) = c)).card

/-- How a build ends: with the spec's `ConfigurationError`, or with the assembled model. -/
inductive BuildOutcome (F : Type) where
  | configurationError
  | assembled (model : Model F)

/-- The build as `main` performs it: no statement of `main` tests the widths or raises an
error, the two loops run on whatever the widths are. -/
def build (p : Params F) (kc : F) : BuildOutcome F :=
  BuildOutcome.assembled (buildModel p kc)

/-- The same structure with the well one site wider (`width_GaAs + 1`), everything else
held fixed. -/
def widenWell (p : Params F) : Params F :=
  { p with width_GaAs := p.width_GaAs + 1 }

/-- A vector with the entry of site `W` duplicated: positions up to `W` are kept, the later
ones are shifted by one. -/
def duplicateSite (W : Int) (Z : Int → F) (m : Int) : F :=
  if m ≤ W then Z m else Z (m - 1)

/-- A vector with the entry of site `W` repeated at the two positions after it: positions up
to `W` are kept, the later ones are shifted by two. -/
def triplicateSite (W : Int) (Z : Int → F) (m : Int) : F :=
  if m ≤ W then Z m else if m ≤ W + 2 then Z W else Z (m - 2)

end Assembly

section Library

variable {F : Type} [Field F]

/-- Modelled from the spec: `reducedPlanckConstant()`, the reduced Planck constant in the unit
system of the run (energy in eV, time in s); `UnitHandler` is library code. -/
def hbarN (F : Type) [Field F] : F := 6582119514 / 10 ^ 25

/-- Modelled from the spec: `electronMass()`, the electron rest mass in the unit system of the
run (eV s² / Å², that is 510998.9461 eV divided by the square of the speed of light in Å / s);
`UnitHandler` is library code. -/
def m_eN (F : Type) [Field F] : F := 5109989461 / 10 ^ 4 / (299792458 * 10 ^ 10) ^ 2

/-- Modelled from the spec: `Range k(lowerBound, upperBound, resolution)` holds `resolution`
"equally spaced points from" `lowerBound` "to" `upperBound` "inclusive"; this is `k[c]`
(`Range` is library code). -/
def Range (lowerBound upperBound : F) (resolution : Nat) (c : Nat) : F :=
  lowerBound + (c : F) * ((upperBound - lowerBound) / ((resolution : F) - 1))

/-- The range `Range k(0, 0.05, 100)` of `main`. -/
def k (c : Nat) : F := Range 0 (5 / 100) 100 c

/-- The array `lowestEigenValues({2, 100})`, as the writes `lowestEigenValues[{r, c}] = x`
made to it, in order. -/
abbrev ResultGrid (F : Type) := List ((Nat × Nat) × F)

/-- The statement `lowestEigenValues[{r, c}] = x`. -/
def ResultGrid.write {F : Type} (g : ResultGrid F) (r c : Nat) (x : F) : ResultGrid F :=
  g ++ [((r, c), x)]

/-- The writes made to the cell `(r, c)`, in order. -/
def ResultGrid.writesTo {F : Type} (g : ResultGrid F) (r c : Nat) : List F :=
  (g.filter (fun w => decide (w.1 = (r, c)))).map Prod.snd

/-- The value the cell `(r, c)` holds after the writes: the last one written to it. -/
def ResultGrid.read {F : Type} (g : ResultGrid F) (r c : Nat) : Option F :=
  (g.writesTo r c).getLast?

/-- The ascending sequence of the real eigenvalues of a real symmetric `N × N` matrix, with
multiplicity: `eigenValues n` is position `n` of the sequence, the positions `0, …, N - 1` are
ascending and belong to an orthonormal basis of eigenvectors `e 0, …, e (N - 1)`, `e n` for the
eigenvalue `eigenValues n`. This is what `eigenValues(n)` stands for after the solver (library
code) has run on the matrix. -/
def IsAscendingEigenvalues {N : Nat} (M : Matrix (Fin N) (Fin N) ℝ) (eigenValues : Nat → ℝ) :
    Prop :=
  (∀ m n : Nat, m ≤ n → n < N → eigenValues m ≤ eigenValues n) ∧
  ∃ e : Fin N → (Fin N → ℝ),
    (∀ i j : Fin N, Matrix.dotProduct (e i) (e j) = if i = j then 1 else 0) ∧
    ∀ i : Fin N, M.mulVec (e i) = eigenValues (i : Nat) • e i

/-- The smallest eigenvalue of a real matrix: an eigenvalue below every other eigenvalue. -/
def IsSmallestEigenvalue {N : Nat} (M : Matrix (Fin N) (Fin N) ℝ) (l : ℝ) : Prop :=
  (∃ v : Fin N → ℝ, v ≠ 0 ∧ M.mulVec v = l • v) ∧
  ∀ (μ : ℝ) (v : Fin N → ℝ), v ≠ 0 → M.mulVec v = μ • v → l ≤ μ

end Library

section ComparisonVectors

variable {F : Type} [Field F]

/-- Comparison vector for the lower bound on the run's spectrum: constant outside the well,
raised by a parabola inside. -/
def liftedProfile (tG : F) (m : Int) : F :=
  if 100 ≤ m ∧ m ≤ 122 then 23 * tG + 3 / 16 * (((m : F) - 100) * (122 - (m : F)))
  else 23 * tG

/-- Trial vector for the upper bound on the run's spectrum: a parabola over each barrier, with
weights `α` and `β`, zero over the well. -/
def barrierProfile (α β : F) (m : Int) : F :=
  if m < 100 then α * (((m : F) + 1) * (100 - (m : F)))
  else if 123 ≤ m then β * (((m : F) - 122) * (223 - (m : F)))
  else 0

/-- Comparison vector for the structure with barriers of 100 sites and a single well site: a
parabola over each barrier, the value 7000 at the well site. -/
def centerProfile (m : Int) : F :=
  if m ≤ 99 then ((m : F) + 1) * (177 - (m : F))
  else if m = 100 then 7000
  else (201 - (m : F)) * ((m : F) - 23)

/-- Comparison and trial vector for rods of a few sites: `e` at the two end sites of a rod of
`N` sites, `c` at the sites between them, zero outside the rod. -/
def edgeProfile (N : Int) (e c : F) (m : Int) : F :=
  if m < 0 ∨ N ≤ m then 0 else if m = 0 ∨ m = N - 1 then e else c

end ComparisonVectors

section Run

variable {F : Type} [LinearOrderedField F] [FloorRing F]

/-- The conversion `double → int` of `int width_GaAs = 69/a`: truncation towards zero. -/
def truncToInt (x : F) : Int := if 0 ≤ x then ⌊x⌋ else ⌈x⌉

/-- The parameters, masses and energies set up at the start of `main`; `hbar` and `m_e` are
the values returned by `UnitHandler::getHbarN()` and `UnitHandler::getM_eN()`. -/
def mainParams (hbar m_e : F) : Params F :=
  let a : F := 3
  let width_AlGaAs : Int := 100
  let width_GaAs : Int := truncToInt (69 / a)
  let m_GaAs : F := 7 / 100 * m_e
  let m_AlAs : F := 15 / 100 * m_e
  let m_AlGaAs : F := 3 / 10 * m_AlAs + 7 / 10 * m_GaAs
  let E_GaAs : F := 0
  let E_AlAs : F := 125 / 100
  let E_AlGaAs : F := 3 / 10 * E_AlAs + 7 / 10 * E_GaAs
  { hbar := hbar, a := a, width_AlGaAs := width_AlGaAs, width_GaAs := width_GaAs,
    m_GaAs := m_GaAs, m_AlGaAs := m_AlGaAs, E_GaAs := E_GaAs, E_AlGaAs := E_AlGaAs }

/-- The parameters of `main` with the lattice spacing `a` as a parameter; the well site count
is derived from it as in `main`, `int width_GaAs = 69/a`. -/
def mainParamsAt (a hbar m_e : F) : Params F :=
  { mainParams hbar m_e with
    a := a
    width_GaAs := truncToInt (69 / a) }

/-- The assembly instantiated as a single-material rod: the run's parameters with the barrier
mass and offset set to those of the well. -/
def uniformParams (hbar m_e : F) : Params F :=
  { mainParams hbar m_e with
    m_AlGaAs := (mainParams hbar m_e).m_GaAs
    E_AlGaAs := (mainParams hbar m_e).E_GaAs }

/-- The structure of `main` with the barrier width and the well site count as parameters:
lattice spacing, masses and energies are those of `main`. -/
def heterostructure (hbar m_e : F) (W_A W_G : Int) : Params F :=
  { mainParams hbar m_e with
    width_AlGaAs := W_A
    width_GaAs := W_G }

/-- Body of the sample loop `for(unsigned int c = 0; c < 100; c++)`: assemble the model for
`k[c]`, run the solver (library code, the parameter `solve`: `solve model n` is
`eigenValues(n)`) and store the two lowest eigenvalues in column `c`. -/
def sampleBody (solve : Model F → Nat → F) (hbar m_e : F) (lowestEigenValues : ResultGrid F)
    (c : Nat) : ResultGrid F :=
  let model := buildModel (mainParams hbar m_e) (k c)
  let eigenValues := solve model
  let lowestEigenValues := lowestEigenValues.write 0 c (eigenValues 0)
  lowestEigenValues.write 1 c (eigenValues 1)

/-- The sample loop of `main`: the result grid after the sweep. -/
def sweep (solve : Model F → Nat → F) (hbar m_e : F) : ResultGrid F :=
  (List.range 100).foldl (sampleBody solve hbar m_e) []

end Run

section EntryLemmas

variable {F : Type} [Field F]

theorem entry_nil (i j : Int) : entry ([] : Model F) i j = 0 := by
  simp [entry]

theorem entry_append (l₁ l₂ : Model F) (i j : Int) :
    entry (l₁ ++ l₂) i j = entry l₁ i j + entry l₂ i j := by
  simp [entry, List.filter_append, List.map_append, List.sum_append]

theorem entry_singleton (h : HoppingAmplitude F) (i j : Int) :
    entry [h] i j = if h.toIndex = i ∧ h.fromIndex = j then h.amplitude else 0 := by
  by_cases h1 : h.toIndex = i <;> by_cases h2 : h.fromIndex = j <;>
    simp [entry, List.filter_cons, h1, h2]

theorem entry_foldl (g : Nat → Model F) (i j : Int) (N : Nat) (init : Model F) :
    entry ((List.range N).foldl (fun s n => s ++ g n) init) i j
      = entry init i j + ∑ n in Finset.range N, entry (g n) i j := by
  induction N with
  | zero => simp
  | succ N ih =>
    rw [List.range_succ, List.foldl_append, Finset.sum_range_succ]
    simp only [List.foldl_cons, List.foldl_nil]
    rw [entry_append, ih, add_assoc]

/-- A sum over the loop counter in which at most the iteration `m` contributes. -/
theorem sum_range_single (N : Nat) (c : Int → Prop) [DecidablePred c] (v : Int → Amplitude F)
    (m : Int) (hc : ∀ n : Int, c n → n = m) :
    (∑ n in Finset.range N, if c (n : Int) then v (n : Int) else 0)
      = if c m ∧ 0 ≤ m ∧ m < (N : Int) then v m else 0 := by
  induction N with
  | zero =>
    have : ¬ (c m ∧ 0 ≤ m ∧ m < ((0 : Nat) : Int)) := by
      rintro ⟨_, h1, h2⟩
      simp at h2
      omega
    rw [if_neg this, Finset.sum_range_zero]
  | succ N ih =>
    rw [Finset.sum_range_succ, ih]
    by_cases hN : c (N : Int)
    · have hm : (N : Int) = m := hc _ hN
      have h1 : ¬ (c m ∧ 0 ≤ m ∧ m < (N : Int)) := by
        rintro ⟨_, _, h2⟩; omega
      have h2 : c m ∧ 0 ≤ m ∧ m < ((N + 1 : Nat) : Int) := by
        refine ⟨hm ▸ hN, by omega, by push_cast; omega⟩
      rw [if_neg h1, if_pos hN, if_pos h2, zero_add, hm]
    · rw [if_neg hN, add_zero]
      by_cases h1 : c m ∧ 0 ≤ m ∧ m < (N : Int)
      · have h2 : c m ∧ 0 ≤ m ∧ m < ((N + 1 : Nat) : Int) :=
          ⟨h1.1, h1.2.1, by push_cast; omega⟩
        rw [if_pos h1, if_pos h2]
      · have h2 : ¬ (c m ∧ 0 ≤ m ∧ m < ((N + 1 : Nat) : Int)) := by
          rintro ⟨h3, h4, h5⟩
          push_cast at h5
          by_cases h6 : m = (N : Int)
          · exact hN (h6 ▸ h3)
          · exact h1 ⟨h3, h4, by omega⟩
        rw [if_neg h1, if_neg h2]


theorem entry_forLoop (g : Int → Model F) (bound : Int) (init : Model F) (i j : Int) :
    entry (forLoop bound (fun s n => s ++ g n) init) i j
      = entry init i j + ∑ n in Finset.range bound.toNat, entry (g (n : Int)) i j := by
  unfold forLoop
  exact entry_foldl (fun n => g (n : Int)) i j bound.toNat init

/-- Every entry of the assembled matrix, read off the two loops. -/
theorem H_eq (p : Params F) (kc : F) (i j : Int) :
    H p kc i j
      = (if i = j ∧ 0 ≤ i ∧ i < siteCount p then
          ofReal (diagonalValue p kc (siteClass p i)) else 0)
        + ((if i = j + 1 ∧ 0 ≤ j ∧ j < siteCount p - 1 then
            ofReal (offDiagonalValue p j) else 0)
          + (if j = i + 1 ∧ 0 ≤ i ∧ i < siteCount p - 1 then
            conj (ofReal (offDiagonalValue p i)) else 0)) := by
  have hd := sum_range_single (siteCount p).toNat (fun n => n = i ∧ n = j)
      (fun n => ofReal (diagonalValue p kc (siteClass p n))) i (fun n h => h.1)
  have ho := sum_range_single (siteCount p - 1).toNat (fun n => n + 1 = i ∧ n = j)
      (fun n => ofReal (offDiagonalValue p n)) j (fun n h => h.2)
  have hh := sum_range_single (siteCount p - 1).toNat (fun n => n = i ∧ n + 1 = j)
      (fun n => conj (ofReal (offDiagonalValue p n))) i (fun n h => h.1)
  have e1 : ∀ m : Int, 0 ≤ m → (m < ((siteCount p).toNat : Int) ↔ m < siteCount p) := by
    intro m hm; omega
  have e2 : ∀ m : Int, 0 ≤ m →
      (m < ((siteCount p - 1).toNat : Int) ↔ m < siteCount p - 1) := by
    intro m hm; omega
  change entry (forLoop (siteCount p - 1)
      (fun s n => s ++ [(⟨ofReal (offDiagonalValue p n), n + 1, n⟩ : HoppingAmplitude F),
        HoppingAmplitude.hermitianConjugate ⟨ofReal (offDiagonalValue p n), n + 1, n⟩])
      (forLoop (siteCount p)
        (fun s n => s ++ [⟨ofReal (diagonalValue p kc (siteClass p n)), n, n⟩]) [])) i j = _
  rw [entry_forLoop, entry_forLoop, entry_nil, zero_add]
  have split : ∀ n : Int,
      entry [(⟨ofReal (offDiagonalValue p n), n + 1, n⟩ : HoppingAmplitude F),
        HoppingAmplitude.hermitianConjugate ⟨ofReal (offDiagonalValue p n), n + 1, n⟩] i j
        = (if n + 1 = i ∧ n = j then ofReal (offDiagonalValue p n) else 0)
          + (if n = i ∧ n + 1 = j then conj (ofReal (offDiagonalValue p n)) else 0) := by
    intro n
    rw [show ([(⟨ofReal (offDiagonalValue p n), n + 1, n⟩ : HoppingAmplitude F),
        HoppingAmplitude.hermitianConjugate ⟨ofReal (offDiagonalValue p n), n + 1, n⟩])
        = [⟨ofReal (offDiagonalValue p n), n + 1, n⟩]
          ++ [HoppingAmplitude.hermitianConjugate ⟨ofReal (offDiagonalValue p n), n + 1, n⟩]
        from rfl, entry_append, entry_singleton, entry_singleton]
    rfl
  simp only [split, entry_singleton, Finset.sum_add_distrib]
  rw [hd, ho, hh]
  congr 1
  · by_cases h : i = j ∧ 0 ≤ i ∧ i < siteCount p
    · rw [if_pos h, if_pos ⟨⟨rfl, h.1⟩, h.2.1, (e1 i h.2.1).2 h.2.2⟩]
    · rw [if_neg h, if_neg]
      rintro ⟨⟨_, h1⟩, h2, h3⟩
      exact h ⟨h1, h2, (e1 i h2).1 h3⟩
  · congr 1
    · by_cases h : i = j + 1 ∧ 0 ≤ j ∧ j < siteCount p - 1
      · rw [if_pos h, if_pos ⟨⟨h.1.symm, rfl⟩, h.2.1, (e2 j h.2.1).2 h.2.2⟩]
      · rw [if_neg h, if_neg]
        rintro ⟨⟨h1, _⟩, h2, h3⟩
        exact h ⟨h1.symm, h2, (e2 j h2).1 h3⟩
    · by_cases h : j = i + 1 ∧ 0 ≤ i ∧ i < siteCount p - 1
      · rw [if_pos h, if_pos ⟨⟨rfl, h.1.symm⟩, h.2.1, (e2 i h.2.1).2 h.2.2⟩]
      · rw [if_neg h, if_neg]
        rintro ⟨⟨_, h1⟩, h2, h3⟩
        exact h ⟨h1.symm, h2, (e2 i h2).1 h3⟩

end EntryLemmas

section RunLemmas
variable {F : Type} [LinearOrderedField F] [FloorRing F]

theorem truncToInt_69_div_3 : truncToInt ((69 : F) / 3) = 23 := by
  have h : ((69 : F) / 3) = ((23 : Int) : F) := by norm_num
  unfold truncToInt
  rw [h, if_pos (by norm_num), Int.floor_intCast]

theorem mainParams_width_GaAs (hbar m_e : F) : (mainParams hbar m_e).width_GaAs = 23 :=
  truncToInt_69_div_3

theorem mainParams_width_AlGaAs (hbar m_e : F) : (mainParams hbar m_e).width_AlGaAs = 100 :=
  rfl

theorem mainParams_siteCount (hbar m_e : F) : siteCount (mainParams hbar m_e) = 223 := by
  unfold siteCount
  rw [mainParams_width_GaAs, mainParams_width_AlGaAs]
  rfl

theorem mainParams_t_AlGaAs (hbar m_e : F) :
    t_AlGaAs (mainParams hbar m_e) = hbar ^ 2 / m_e * (500 / 846) := by
  have h : (3 / 10 * (15 / 100 * m_e) + 7 / 10 * (7 / 100 * m_e) : F) = 94 / 1000 * m_e := by
    ring
  simp only [t_AlGaAs, mainParams, h]
  by_cases hm : m_e = 0
  · simp [hm]
  · field_simp
    ring

theorem mainParams_t_GaAs (hbar m_e : F) :
    t_GaAs (mainParams hbar m_e) = hbar ^ 2 / m_e * (50 / 63) := by
  unfold t_GaAs mainParams
  by_cases hm : m_e = 0
  · simp [hm]
  · field_simp
    ring

theorem mainParams_tp_AlGaAs (hbar m_e : F) :
    tp_AlGaAs (mainParams hbar m_e) = hbar ^ 2 / m_e * (500 / 94) := by
  have h : (3 / 10 * (15 / 100 * m_e) + 7 / 10 * (7 / 100 * m_e) : F) = 94 / 1000 * m_e := by
    ring
  simp only [tp_AlGaAs, mainParams, h]
  by_cases hm : m_e = 0
  · simp [hm]
  · field_simp
    ring

theorem mainParams_tp_GaAs (hbar m_e : F) :
    tp_GaAs (mainParams hbar m_e) = hbar ^ 2 / m_e * (50 / 7) := by
  unfold tp_GaAs mainParams
  by_cases hm : m_e = 0
  · simp [hm]
  · field_simp
    ring

theorem mainParams_E_AlGaAs (hbar m_e : F) : (mainParams hbar m_e).E_AlGaAs = 3 / 8 := by
  simp only [mainParams]
  norm_num

theorem mainParams_E_GaAs (hbar m_e : F) : (mainParams hbar m_e).E_GaAs = 0 := rfl

end RunLemmas

section EntryFacts
variable {F : Type} [Field F]

theorem conj_ofReal (x : F) : conj (ofReal x) = ofReal x := by
  simp [conj, ofReal]

theorem ofReal_injective {x y : F} (h : ofReal x = ofReal y) : x = y := by
  simpa [ofReal] using congrArg Prod.fst h

theorem H_diag (p : Params F) (kc : F) (n : Int) (h0 : 0 ≤ n) (h1 : n < siteCount p) :
    H p kc n n = ofReal (diagonalValue p kc (siteClass p n)) := by
  rw [H_eq, if_pos ⟨rfl, h0, h1⟩, if_neg (by omega), if_neg (by omega), add_zero, add_zero]

theorem H_lower (p : Params F) (kc : F) (n : Int) (h0 : 0 ≤ n) (h1 : n < siteCount p - 1) :
    H p kc (n + 1) n = ofReal (offDiagonalValue p n) := by
  rw [H_eq, if_neg (by omega), if_pos ⟨rfl, h0, h1⟩, if_neg (by omega), add_zero, zero_add]

theorem H_upper (p : Params F) (kc : F) (n : Int) (h0 : 0 ≤ n) (h1 : n < siteCount p - 1) :
    H p kc n (n + 1) = ofReal (offDiagonalValue p n) := by
  rw [H_eq, if_neg (by omega), if_neg (by omega), if_pos ⟨rfl, h0, h1⟩, zero_add, zero_add,
    conj_ofReal]

theorem H_far (p : Params F) (kc : F) (i j : Int) (h1 : i ≠ j) (h2 : i ≠ j + 1)
    (h3 : j ≠ i + 1) : H p kc i j = 0 := by
  rw [H_eq, if_neg (fun h => h1 h.1), if_neg (fun h => h2 h.1), if_neg (fun h => h3 h.1)]
  simp

theorem H_outside (p : Params F) (kc : F) (i j : Int)
    (h : i < 0 ∨ siteCount p ≤ i ∨ j < 0 ∨ siteCount p ≤ j) : H p kc i j = 0 := by
  rw [H_eq, if_neg (by omega), if_neg (by omega), if_neg (by omega)]
  simp

/-- The matrix is symmetric, entry by entry. -/
theorem H_symm (p : Params F) (kc : F) (i j : Int) : H p kc i j = H p kc j i := by
  rw [H_eq, H_eq p kc j i]
  by_cases h : i = j
  · subst h; rfl
  · have h' : ¬ j = i := fun e => h e.symm
    simp only [conj_ofReal, h, h', false_and, if_false, zero_add]
    rw [add_comm]

/-- Every entry has imaginary part zero. -/
theorem H_im (p : Params F) (kc : F) (i j : Int) : (H p kc i j).2 = 0 := by
  rw [H_eq]
  split_ifs <;> simp [ofReal, conj]

end EntryFacts

section Evaluation

/-! The assembly evaluated on small inputs: barriers of one site around a well of one site, and
the site classification of the run. -/

example : (buildModel (heterostructure (1 : ℚ) 1 1 1) 0).map (fun h => (h.toIndex, h.fromIndex))
    = [(0, 0), (1, 1), (2, 2), (1, 0), (0, 1), (2, 1), (1, 2)] := by decide

example : siteClass (heterostructure (1 : ℚ) 1 100 23) 99 = SiteClass.AlGaAs := by decide

example : siteClass (heterostructure (1 : ℚ) 1 100 23) 100 = SiteClass.boundary := by decide

example : siteClass (heterostructure (1 : ℚ) 1 100 23) 101 = SiteClass.GaAs := by decide

example : siteClass (heterostructure (1 : ℚ) 1 100 23) 122 = SiteClass.boundary := by decide

example : siteClass (heterostructure (1 : ℚ) 1 100 23) 123 = SiteClass.AlGaAs := by decide

example : bondIsAlGaAs (heterostructure (1 : ℚ) 1 100 23) 99 = true := by decide

example : bondIsAlGaAs (heterostructure (1 : ℚ) 1 100 23) 100 = false := by decide

example : bondIsAlGaAs (heterostructure (1 : ℚ) 1 100 23) 121 = false := by decide

example : bondIsAlGaAs (heterostructure (1 : ℚ) 1 100 23) 122 = true := by decide

example : H (heterostructure (1 : ℚ) 1 1 1) 0 1 1 = ((3 / 16 + 500 / 846 + 50 / 63 : ℚ), 0) := by
  rw [H_diag _ _ _ (by decide) (by decide)]
  norm_num [diagonalValue, siteClass, heterostructure, mainParams, t_AlGaAs, t_GaAs, ofReal]

example : H (heterostructure (1 : ℚ) 1 1 1) 0 1 0 = ((-(500 / 846) : ℚ), 0) := by
  rw [show (1 : Int) = 0 + 1 by rfl, H_lower _ _ _ (by decide) (by decide)]
  norm_num [offDiagonalValue, bondIsAlGaAs, heterostructure, mainParams, t_AlGaAs, ofReal]

end Evaluation

section Claims
variable {F : Type} [Field F]

theorem mainParams_tp_ne {F : Type} [LinearOrderedField F] [FloorRing F] (hbar m_e : F)
    (hh : hbar ≠ 0) (hm : m_e ≠ 0) :
    tp_AlGaAs (mainParams hbar m_e) ≠ tp_GaAs (mainParams hbar m_e) := by
  rw [mainParams_tp_AlGaAs, mainParams_tp_GaAs]
  intro h
  have h2 : hbar ^ 2 / m_e ≠ 0 := div_ne_zero (pow_ne_zero 2 hh) hm
  have h3 : hbar ^ 2 / m_e * (500 / 94 - 50 / 7) = 0 := by rw [mul_sub, h, sub_self]
  rcases mul_eq_zero.1 h3 with h4 | h4
  · exact h2 h4
  · norm_num at h4

theorem mainParams_t_ne {F : Type} [LinearOrderedField F] [FloorRing F] (hbar m_e : F)
    (hh : hbar ≠ 0) (hm : m_e ≠ 0) :
    t_AlGaAs (mainParams hbar m_e) ≠ t_GaAs (mainParams hbar m_e) := by
  rw [mainParams_t_AlGaAs, mainParams_t_GaAs]
  intro h
  have h2 : hbar ^ 2 / m_e ≠ 0 := div_ne_zero (pow_ne_zero 2 hh) hm
  have h3 : hbar ^ 2 / m_e * (500 / 846 - 50 / 63) = 0 := by rw [mul_sub, h, sub_self]
  rcases mul_eq_zero.1 h3 with h4 | h4
  · exact h2 h4
  · norm_num at h4

theorem hbarN_ne_zero (F : Type) [Field F] [CharZero F] : hbarN F ≠ 0 := by
  unfold hbarN
  norm_num

theorem m_eN_ne_zero (F : Type) [Field F] [CharZero F] : m_eN F ≠ 0 := by
  unfold m_eN
  norm_num

theorem k_one_ne_zero (F : Type) [Field F] [CharZero F] : (k 1 : F) ≠ 0 := by
  unfold k Range
  norm_num

/-- C1: at every barrier site the diagonal entry is `E_AlGaAs + 2·t_AlGaAs + tp_AlGaAs·k²`, as
claimed; at every interior well site (`W_A < n < W_A + W_G - 1`) the code inserts
`E_GaAs + 2·t_GaAs + tp_AlGaAs·k²`, with the AlGaAs `k²`-prefactor, which differs from the
claimed `E_GaAs + 2·t_GaAs + tp_GaAs·k²` as soon as the two prefactors differ and `k ≠ 0`. -/
theorem C1_interior_well_site_carries_tp_AlGaAs (p : Params F) (kc : F) (n : Int)
    (h0 : 0 ≤ n) (h1 : n < siteCount p) :
    (n < p.width_AlGaAs ∨ n ≥ p.width_AlGaAs + p.width_GaAs →
      H p kc n n = ofReal (p.E_AlGaAs + 2 * t_AlGaAs p + tp_AlGaAs p * kc ^ 2)) ∧
    (p.width_AlGaAs < n ∧ n < p.width_AlGaAs + p.width_GaAs - 1 →
      H p kc n n = ofReal (p.E_GaAs + 2 * t_GaAs p + tp_AlGaAs p * kc ^ 2) ∧
      (tp_AlGaAs p ≠ tp_GaAs p → kc ≠ 0 →
        H p kc n n ≠ ofReal (p.E_GaAs + 2 * t_GaAs p + tp_GaAs p * kc ^ 2))) := by
  refine ⟨fun h => ?_, fun h => ?_⟩
  · rw [H_diag p kc n h0 h1, siteClass, if_pos h]
    rfl
  · have hc : siteClass p n = SiteClass.GaAs := by
      rw [siteClass, if_neg (by omega), if_neg (by omega)]
    have hv : H p kc n n = ofReal (p.E_GaAs + 2 * t_GaAs p + tp_AlGaAs p * kc ^ 2) := by
      rw [H_diag p kc n h0 h1, hc]
      rfl
    refine ⟨hv, fun htp hk he => ?_⟩
    rw [hv] at he
    have h2 : tp_AlGaAs p * kc ^ 2 = tp_GaAs p * kc ^ 2 := by
      have := ofReal_injective he
      exact add_left_cancel this
    exact htp (mul_right_cancel₀ (pow_ne_zero 2 hk) h2)

/-- C1, at the run's configuration, sample `c = 1`, site `n = 101`. -/
theorem C1_interior_well_site_carries_tp_AlGaAs_witness :
    H (mainParams (hbarN ℚ) (m_eN ℚ)) (k 1) 101 101
        = ofReal ((mainParams (hbarN ℚ) (m_eN ℚ)).E_GaAs
            + 2 * t_GaAs (mainParams (hbarN ℚ) (m_eN ℚ))
            + tp_AlGaAs (mainParams (hbarN ℚ) (m_eN ℚ)) * (k 1) ^ 2) ∧
      H (mainParams (hbarN ℚ) (m_eN ℚ)) (k 1) 101 101
        ≠ ofReal ((mainParams (hbarN ℚ) (m_eN ℚ)).E_GaAs
            + 2 * t_GaAs (mainParams (hbarN ℚ) (m_eN ℚ))
            + tp_GaAs (mainParams (hbarN ℚ) (m_eN ℚ)) * (k 1) ^ 2) := by
  have hw : (mainParams (hbarN ℚ) (m_eN ℚ)).width_AlGaAs < 101 ∧
      (101 : Int) < (mainParams (hbarN ℚ) (m_eN ℚ)).width_AlGaAs
        + (mainParams (hbarN ℚ) (m_eN ℚ)).width_GaAs - 1 := by
    rw [mainParams_width_GaAs, mainParams_width_AlGaAs]
    decide
  have h := (C1_interior_well_site_carries_tp_AlGaAs (mainParams (hbarN ℚ) (m_eN ℚ)) (k 1) 101
    (by decide) (by rw [mainParams_siteCount]; decide)).2 hw
  exact ⟨h.1, h.2 (mainParams_tp_ne _ _ (hbarN_ne_zero ℚ) (m_eN_ne_zero ℚ)) (k_one_ne_zero ℚ)⟩

/-- C2: for `W_A ≥ 0` and `W_G ≥ 1` the diagonal entries at the two boundary sites `n = W_A` and
`n = W_A + W_G - 1` equal `Ebar + 2·tbar + tpbar·k²`, the bars being the arithmetic means of the
AlGaAs and GaAs values. -/
theorem C2_boundary_sites_use_arithmetic_means [CharZero F] (p : Params F) (kc : F)
    (hA : 0 ≤ p.width_AlGaAs) (hG : 1 ≤ p.width_GaAs) :
    H p kc p.width_AlGaAs p.width_AlGaAs
        = ofReal ((p.E_AlGaAs + p.E_GaAs) / 2 + 2 * ((t_AlGaAs p + t_GaAs p) / 2)
            + (tp_AlGaAs p + tp_GaAs p) / 2 * kc ^ 2) ∧
      H p kc (p.width_AlGaAs + p.width_GaAs - 1) (p.width_AlGaAs + p.width_GaAs - 1)
        = ofReal ((p.E_AlGaAs + p.E_GaAs) / 2 + 2 * ((t_AlGaAs p + t_GaAs p) / 2)
            + (tp_AlGaAs p + tp_GaAs p) / 2 * kc ^ 2) := by
  have hv : diagonalValue p kc SiteClass.boundary
      = (p.E_AlGaAs + p.E_GaAs) / 2 + 2 * ((t_AlGaAs p + t_GaAs p) / 2)
          + (tp_AlGaAs p + tp_GaAs p) / 2 * kc ^ 2 := by
    simp only [diagonalValue]
    ring
  constructor
  · rw [H_diag p kc _ hA (by unfold siteCount; omega), siteClass, if_neg (by omega),
      if_pos (Or.inl rfl), hv]
  · rw [H_diag p kc _ (by omega) (by unfold siteCount; omega), siteClass, if_neg (by omega),
      if_pos (Or.inr rfl), hv]

/-- C2 at the run's widths. -/
theorem C2_boundary_sites_use_arithmetic_means_witness :
    H (mainParams (hbarN ℚ) (m_eN ℚ)) 0 100 100
        = ofReal ((3 / 8 + 0) / 2
            + 2 * ((t_AlGaAs (mainParams (hbarN ℚ) (m_eN ℚ))
                + t_GaAs (mainParams (hbarN ℚ) (m_eN ℚ))) / 2)
            + (tp_AlGaAs (mainParams (hbarN ℚ) (m_eN ℚ))
                + tp_GaAs (mainParams (hbarN ℚ) (m_eN ℚ))) / 2 * 0 ^ 2) ∧
      H (mainParams (hbarN ℚ) (m_eN ℚ)) 0 122 122
        = ofReal ((3 / 8 + 0) / 2
            + 2 * ((t_AlGaAs (mainParams (hbarN ℚ) (m_eN ℚ))
                + t_GaAs (mainParams (hbarN ℚ) (m_eN ℚ))) / 2)
            + (tp_AlGaAs (mainParams (hbarN ℚ) (m_eN ℚ))
                + tp_GaAs (mainParams (hbarN ℚ) (m_eN ℚ))) / 2 * 0 ^ 2) := by
  have h := C2_boundary_sites_use_arithmetic_means (mainParams (hbarN ℚ) (m_eN ℚ)) 0
    (by rw [mainParams_width_AlGaAs]; decide) (by rw [mainParams_width_GaAs]; decide)
  rw [mainParams_width_GaAs, mainParams_width_AlGaAs, mainParams_E_AlGaAs,
    mainParams_E_GaAs] at h
  exact h


/-- C3: for every bond `n` in `[0, N-1)` the two entries `H[n+1][n]` and `H[n][n+1]` coincide
and equal `-t_GaAs` when `W_A ≤ n < W_A + W_G - 1` and `-t_AlGaAs` otherwise; when the two
prefactors differ (as they do for the masses of the run) the entry is never the averaged value
`-(t_AlGaAs + t_GaAs)/2`. -/
theorem C3_offdiagonal_entries_unaveraged [CharZero F] (p : Params F) (kc : F) (n : Int)
    (h0 : 0 ≤ n) (h1 : n < siteCount p - 1) :
    H p kc (n + 1) n = H p kc n (n + 1) ∧
    H p kc (n + 1) n
      = ofReal (if p.width_AlGaAs ≤ n ∧ n < p.width_AlGaAs + p.width_GaAs - 1
          then -t_GaAs p else -t_AlGaAs p) ∧
    (t_AlGaAs p ≠ t_GaAs p →
      H p kc (n + 1) n ≠ ofReal (-((t_AlGaAs p + t_GaAs p) / 2))) := by
  have hv : H p kc (n + 1) n
      = ofReal (if p.width_AlGaAs ≤ n ∧ n < p.width_AlGaAs + p.width_GaAs - 1
          then -t_GaAs p else -t_AlGaAs p) := by
    rw [H_lower p kc n h0 h1, offDiagonalValue, bondIsAlGaAs]
    by_cases hc : p.width_AlGaAs ≤ n ∧ n < p.width_AlGaAs + p.width_GaAs - 1
    · rw [if_pos hc, if_neg]
      simp only [decide_eq_true_eq]
      omega
    · rw [if_neg hc, if_pos]
      simp only [decide_eq_true_eq]
      omega
  refine ⟨by rw [H_lower p kc n h0 h1, H_upper p kc n h0 h1], hv, fun hne he => ?_⟩
  rw [hv] at he
  have h2 := ofReal_injective he
  have two : (2 : F) ≠ 0 := two_ne_zero
  split_ifs at h2
  · apply hne
    field_simp at h2
    linear_combination h2
  · apply hne
    field_simp at h2
    linear_combination -h2

/-- C3 at the run's configuration, bond `n = 100` (inside the well). -/
theorem C3_offdiagonal_entries_unaveraged_witness :
    H (mainParams (hbarN ℚ) (m_eN ℚ)) 0 (100 + 1) 100
        = H (mainParams (hbarN ℚ) (m_eN ℚ)) 0 100 (100 + 1) ∧
      H (mainParams (hbarN ℚ) (m_eN ℚ)) 0 (100 + 1) 100
        = ofReal (-t_GaAs (mainParams (hbarN ℚ) (m_eN ℚ))) ∧
      H (mainParams (hbarN ℚ) (m_eN ℚ)) 0 (100 + 1) 100
        ≠ ofReal (-((t_AlGaAs (mainParams (hbarN ℚ) (m_eN ℚ))
            + t_GaAs (mainParams (hbarN ℚ) (m_eN ℚ))) / 2)) := by
  have h := C3_offdiagonal_entries_unaveraged (mainParams (hbarN ℚ) (m_eN ℚ)) 0 100
    (by decide) (by rw [mainParams_siteCount]; decide)
  refine ⟨h.1, ?_, h.2.2 (mainParams_t_ne _ _ (hbarN_ne_zero ℚ) (m_eN_ne_zero ℚ))⟩
  have h2 := h.2.1
  rw [mainParams_width_GaAs, mainParams_width_AlGaAs, if_pos (by decide)] at h2
  exact h2

/-- C4: the assembled matrix is exactly symmetric and real, `H[i][j] = conj(H[j][i]) = H[j][i]`
with zero imaginary part, for all widths, every `k` and all indices `i`, `j`. -/
theorem C4_matrix_symmetric_and_real (p : Params F) (kc : F) (i j : Int) :
    H p kc i j = conj (H p kc j i) ∧ H p kc i j = H p kc j i ∧ (H p kc i j).2 = 0 := by
  refine ⟨?_, H_symm p kc i j, H_im p kc i j⟩
  rw [H_symm p kc i j]
  have h := H_im p kc j i
  apply Prod.ext
  · rfl
  · simp [conj, h]

theorem map_foldl_append {α β γ : Type} (f : α → β) (g : γ → List α) (l : List γ)
    (init : List α) :
    (l.foldl (fun s n => s ++ g n) init).map f
      = l.foldl (fun s n => s ++ (g n).map f) (init.map f) := by
  induction l generalizing init with
  | nil => rfl
  | cons x xs ih =>
    simp only [List.foldl_cons]
    rw [ih, List.map_append]

/-- The index pairs `(toIndex, fromIndex)` streamed into the model, in order. -/
theorem buildModel_indices (p : Params F) (kc : F) :
    (buildModel p kc).map (fun h => (h.toIndex, h.fromIndex))
      = (List.range (siteCount p - 1).toNat).foldl
          (fun s (n : Nat) => s ++ [((n : Int) + 1, (n : Int)), ((n : Int), (n : Int) + 1)])
          ((List.range (siteCount p).toNat).foldl
            (fun s (n : Nat) => s ++ [((n : Int), (n : Int))]) []) := by
  change ((List.range (siteCount p - 1).toNat).foldl
      (fun s (n : Nat) => s ++ [(⟨ofReal (offDiagonalValue p n), (n : Int) + 1, n⟩ :
          HoppingAmplitude F),
        HoppingAmplitude.hermitianConjugate ⟨ofReal (offDiagonalValue p n), (n : Int) + 1, n⟩])
      ((List.range (siteCount p).toNat).foldl
        (fun s (n : Nat) => s ++ [⟨ofReal (diagonalValue p kc (siteClass p n)), n, n⟩])
        [])).map _ = _
  rw [map_foldl_append, map_foldl_append]
  rfl

/-- C5: for two wavevector samples `k`, `k'` the two models hold the same index pairs in the
same order (same dimension, same site classification), every off-diagonal entry is identical,
and at every site `n` the difference of the diagonal entries is `c·(k² - k'²)` for a
coefficient `c` that depends on the site only. -/
theorem C5_samples_differ_only_on_diagonal (p : Params F) :
    (∀ kc kc' : F, (buildModel p kc).map (fun h => (h.toIndex, h.fromIndex))
        = (buildModel p kc').map (fun h => (h.toIndex, h.fromIndex))) ∧
    (∀ (kc kc' : F) (i j : Int), i ≠ j → H p kc i j = H p kc' i j) ∧
    (∀ n : Int, ∃ c : F, ∀ kc kc' : F,
        H p kc n n - H p kc' n n = ofReal (c * (kc ^ 2 - kc' ^ 2))) := by
  refine ⟨fun kc kc' => ?_, fun kc kc' i j hij => ?_, fun n => ?_⟩
  · rw [buildModel_indices, buildModel_indices]
  · rw [H_eq, H_eq p kc' i j]
    simp only [hij, false_and, if_false]
  · by_cases hn : 0 ≤ n ∧ n < siteCount p
    · cases hc : siteClass p n
      · refine ⟨tp_AlGaAs p, fun kc kc' => ?_⟩
        rw [H_diag p kc n hn.1 hn.2, H_diag p kc' n hn.1 hn.2, hc]
        simp only [diagonalValue, ofReal, Prod.mk_sub_mk, sub_self]
        congr 1
        ring
      · refine ⟨(tp_AlGaAs p + tp_GaAs p) / 2, fun kc kc' => ?_⟩
        rw [H_diag p kc n hn.1 hn.2, H_diag p kc' n hn.1 hn.2, hc]
        simp only [diagonalValue, ofReal, Prod.mk_sub_mk, sub_self]
        congr 1
        ring
      · refine ⟨tp_AlGaAs p, fun kc kc' => ?_⟩
        rw [H_diag p kc n hn.1 hn.2, H_diag p kc' n hn.1 hn.2, hc]
        simp only [diagonalValue, ofReal, Prod.mk_sub_mk, sub_self]
        congr 1
        ring
    · refine ⟨0, fun kc kc' => ?_⟩
      rw [H_outside p kc n n (by omega), H_outside p kc' n n (by omega)]
      simp [ofReal]

/-- C6: with the run's constants the well site count is `23`, the site count is `223`, the
diagonal loop streams the sites `0, …, 222` and the off-diagonal loop the bonds `0, …, 221`
(each with its Hermitian conjugate), for every sample. -/
theorem C6_run_has_223_sites {F : Type} [LinearOrderedField F] [FloorRing F]
    (hbar m_e kc : F) :
    (mainParams hbar m_e).width_GaAs = 23 ∧
    siteCount (mainParams hbar m_e) = 2 * 100 + 23 ∧
    siteCount (mainParams hbar m_e) = 223 ∧
    (buildModel (mainParams hbar m_e) kc).map (fun h => (h.toIndex, h.fromIndex))
      = (List.range 222).foldl
          (fun s (n : Nat) => s ++ [((n : Int) + 1, (n : Int)), ((n : Int), (n : Int) + 1)])
          ((List.range 223).foldl (fun s (n : Nat) => s ++ [((n : Int), (n : Int))]) []) := by
  refine ⟨mainParams_width_GaAs hbar m_e, mainParams_siteCount hbar m_e,
    mainParams_siteCount hbar m_e, ?_⟩
  rw [buildModel_indices, mainParams_siteCount]
  rfl

end Claims


section MatrixFacts
variable {F : Type} [Field F]

theorem extendZero_coe {N : Nat} (x : Fin N → F) (n : Fin N) :
    extendZero x ((n : Nat) : Int) = x n := by
  unfold extendZero
  rw [dif_pos ⟨by omega, by have := n.2; omega⟩]
  congr 1

theorem extendZero_of_neg {N : Nat} (x : Fin N → F) (m : Int) (h : m < 0) :
    extendZero x m = 0 := by
  unfold extendZero
  rw [dif_neg (by omega)]

theorem extendZero_of_ge {N : Nat} (x : Fin N → F) (m : Int) (h : (N : Int) ≤ m) :
    extendZero x m = 0 := by
  unfold extendZero
  rw [dif_neg (by omega)]

/-- The real part of an entry, read off the two loops. -/
theorem H_fst (p : Params F) (kc : F) (i j : Int) :
    (H p kc i j).1
      = (if i = j ∧ 0 ≤ i ∧ i < siteCount p then diagonalValue p kc (siteClass p i) else 0)
        + ((if i = j + 1 ∧ 0 ≤ j ∧ j < siteCount p - 1 then offDiagonalValue p j else 0)
          + (if j = i + 1 ∧ 0 ≤ i ∧ i < siteCount p - 1 then offDiagonalValue p i else 0)) := by
  rw [H_eq]
  simp only [conj_ofReal, Prod.fst_add]
  congr 1
  · split_ifs <;> rfl
  · congr 1 <;> split_ifs <;> rfl

/-- The product of the matrix with a vector: three terms per row. -/
theorem Hmat_mulVec (p : Params F) (kc : F) (x : Fin (siteCount p).toNat → F)
    (n : Fin (siteCount p).toNat) :
    (Hmat p kc).mulVec x n
      = diagonalValue p kc (siteClass p ((n : Nat) : Int)) * x n
        + (offDiagonalValue p (((n : Nat) : Int) - 1) * extendZero x (((n : Nat) : Int) - 1)
          + offDiagonalValue p ((n : Nat) : Int) * extendZero x (((n : Nat) : Int) + 1)) := by
  have hn := n.2
  simp only [Matrix.mulVec, Matrix.dotProduct, Hmat, H_fst, add_mul, Finset.sum_add_distrib]
  congr 1
  · rw [Finset.sum_eq_single n]
    · rw [if_pos ⟨rfl, by omega, by omega⟩]
    · intro m _ hm
      rw [if_neg, zero_mul]
      rintro ⟨h1, _⟩
      exact hm (Fin.ext (by omega))
    · intro h
      exact absurd (Finset.mem_univ n) h
  · congr 1
    · by_cases h0 : (n : Nat) = 0
      · rw [extendZero_of_neg x _ (by omega), mul_zero]
        apply Finset.sum_eq_zero
        intro m _
        rw [if_neg (by omega), zero_mul]
      · have hm : (n : Nat) - 1 < (siteCount p).toNat := by omega
        rw [Finset.sum_eq_single (⟨(n : Nat) - 1, hm⟩ : Fin (siteCount p).toNat)]
        · have e : (((n : Nat) - 1 : Nat) : Int) = ((n : Nat) : Int) - 1 := by omega
          rw [if_pos ⟨by simp only; omega, by simp only; omega, by simp only; omega⟩]
          simp only [e]
          rw [← e, extendZero_coe x ⟨(n : Nat) - 1, hm⟩]
        · intro m _ hmne
          rw [if_neg, zero_mul]
          rintro ⟨h1, _⟩
          exact hmne (Fin.ext (by simp only; omega))
        · intro h
          exact absurd (Finset.mem_univ _) h
    · by_cases h0 : (n : Nat) + 1 < (siteCount p).toNat
      · rw [Finset.sum_eq_single (⟨(n : Nat) + 1, h0⟩ : Fin (siteCount p).toNat)]
        · have e : (((n : Nat) + 1 : Nat) : Int) = ((n : Nat) : Int) + 1 := by omega
          rw [if_pos ⟨by simp only; omega, by omega, by omega⟩]
          rw [← e, extendZero_coe x ⟨(n : Nat) + 1, h0⟩]
        · intro m _ hmne
          rw [if_neg, zero_mul]
          rintro ⟨h1, _⟩
          exact hmne (Fin.ext (by simp only; omega))
        · intro h
          exact absurd (Finset.mem_univ _) h
      · rw [extendZero_of_ge x _ (by omega), mul_zero]
        apply Finset.sum_eq_zero
        intro m _
        have := m.2
        rw [if_neg (by omega), zero_mul]

end MatrixFacts

section UniformRod

theorem uniform_t (p : Params ℝ) (hm : p.m_GaAs = p.m_AlGaAs) : t_GaAs p = t_AlGaAs p := by
  unfold t_GaAs t_AlGaAs
  rw [hm]

theorem uniform_diagonalValue (p : Params ℝ) (hm : p.m_GaAs = p.m_AlGaAs)
    (hE : p.E_GaAs = p.E_AlGaAs) (c : SiteClass) :
    diagonalValue p 0 c = p.E_AlGaAs + 2 * t_AlGaAs p := by
  cases c <;> simp only [diagonalValue, uniform_t p hm, hE] <;> ring

theorem uniform_offDiagonalValue (p : Params ℝ) (hm : p.m_GaAs = p.m_AlGaAs) (n : Int) :
    offDiagonalValue p n = -t_AlGaAs p := by
  unfold offDiagonalValue
  split_ifs
  · rfl
  · rw [uniform_t p hm]

/-- Row `n` of the product when every diagonal entry is `E + 2t` and every hopping amplitude
is `-t`. -/
theorem toeplitz_mulVec (p : Params ℝ) (kc E t : ℝ)
    (hd : ∀ n : Int, diagonalValue p kc (siteClass p n) = E + 2 * t)
    (ho : ∀ n : Int, offDiagonalValue p n = -t) (x : Fin (siteCount p).toNat → ℝ)
    (n : Fin (siteCount p).toNat) :
    (Hmat p kc).mulVec x n
      = (E + 2 * t) * x n
        - t * (extendZero x (((n : Nat) : Int) - 1) + extendZero x (((n : Nat) : Int) + 1)) := by
  rw [Hmat_mulVec, hd, ho, ho]
  ring

/-- Row `n` of the product for the uniform rod at `k = 0`. -/
theorem uniform_mulVec (p : Params ℝ) (hm : p.m_GaAs = p.m_AlGaAs)
    (hE : p.E_GaAs = p.E_AlGaAs) (x : Fin (siteCount p).toNat → ℝ)
    (n : Fin (siteCount p).toNat) :
    (Hmat p 0).mulVec x n
      = (p.E_AlGaAs + 2 * t_AlGaAs p) * x n
        - t_AlGaAs p * (extendZero x (((n : Nat) : Int) - 1)
            + extendZero x (((n : Nat) : Int) + 1)) :=
  toeplitz_mulVec p 0 p.E_AlGaAs (t_AlGaAs p) (fun _ => uniform_diagonalValue p hm hE _)
    (uniform_offDiagonalValue p hm) x n

/-- The sine vector continued by zero is the sine at every position from `-1` to `N`. -/
theorem extendZero_sin (N : Nat) (j : Nat) (m : Int) (h0 : -1 ≤ m) (h1 : m ≤ (N : Int)) :
    extendZero (fun n : Fin N => Real.sin (Real.pi * j * (((n : Nat) : ℝ) + 1) / ((N : ℝ) + 1))) m
      = Real.sin (Real.pi * j * ((m : ℝ) + 1) / ((N : ℝ) + 1)) := by
  have hN : ((N : ℝ) + 1) ≠ 0 := by positivity
  unfold extendZero
  by_cases h : 0 ≤ m ∧ m < (N : Int)
  · rw [dif_pos h]
    have : (((m.toNat : Nat) : ℝ)) = (m : ℝ) := by
      have : ((m.toNat : Nat) : Int) = m := Int.toNat_of_nonneg h.1
      exact_mod_cast this
    simp only [this]
  · rw [dif_neg h]
    rcases (show m = -1 ∨ m = (N : Int) by omega) with h2 | h2
    · subst h2
      simp
    · subst h2
      have : Real.pi * (j : ℝ) * ((((N : Int)) : ℝ) + 1) / ((N : ℝ) + 1) = (j : ℝ) * Real.pi := by
        push_cast
        field_simp
        ring
      rw [this, Real.sin_nat_mul_pi]

/-- Each sine vector is an eigenvector when every diagonal entry is `E + 2t` and every
hopping amplitude is `-t`. -/
theorem toeplitz_sin_eigen (p : Params ℝ) (kc E t : ℝ)
    (hd : ∀ n : Int, diagonalValue p kc (siteClass p n) = E + 2 * t)
    (ho : ∀ n : Int, offDiagonalValue p n = -t) (j : Nat) :
    (Hmat p kc).mulVec (fun n : Fin (siteCount p).toNat =>
        Real.sin (Real.pi * j * (((n : Nat) : ℝ) + 1) / (((siteCount p).toNat : ℝ) + 1)))
      = (E + 2 * t - 2 * t * Real.cos (Real.pi * j / (((siteCount p).toNat : ℝ) + 1)))
        • (fun n : Fin (siteCount p).toNat =>
          Real.sin (Real.pi * j * (((n : Nat) : ℝ) + 1) / (((siteCount p).toNat : ℝ) + 1))) := by
  funext n
  have hn := n.2
  rw [toeplitz_mulVec p kc E t hd ho, extendZero_sin _ _ _ (by omega) (by omega),
    extendZero_sin _ _ _ (by omega) (by omega)]
  simp only [Pi.smul_apply, smul_eq_mul]
  push_cast
  set θ : ℝ := Real.pi * j / (((siteCount p).toNat : ℝ) + 1) with hθ
  have e1 : Real.pi * (j : ℝ) * (((n : Nat) : ℝ) - 1 + 1) / (((siteCount p).toNat : ℝ) + 1)
      = θ * ((n : Nat) + 1) - θ := by
    rw [hθ]; ring
  have e2 : Real.pi * (j : ℝ) * (((n : Nat) : ℝ) + 1 + 1) / (((siteCount p).toNat : ℝ) + 1)
      = θ * ((n : Nat) + 1) + θ := by
    rw [hθ]; ring
  have e3 : Real.pi * (j : ℝ) * (((n : Nat) : ℝ) + 1) / (((siteCount p).toNat : ℝ) + 1)
      = θ * ((n : Nat) + 1) := by
    rw [hθ]; ring
  rw [e1, e2, e3, Real.sin_sub, Real.sin_add]
  ring

/-- Each sine vector is an eigenvector of the uniform rod. -/
theorem uniform_sin_eigen (p : Params ℝ) (hm : p.m_GaAs = p.m_AlGaAs)
    (hE : p.E_GaAs = p.E_AlGaAs) (j : Nat) :
    (Hmat p 0).mulVec (fun n : Fin (siteCount p).toNat =>
        Real.sin (Real.pi * j * (((n : Nat) : ℝ) + 1) / (((siteCount p).toNat : ℝ) + 1)))
      = (p.E_AlGaAs + 2 * t_AlGaAs p
          - 2 * t_AlGaAs p * Real.cos (Real.pi * j / (((siteCount p).toNat : ℝ) + 1)))
        • (fun n : Fin (siteCount p).toNat =>
          Real.sin (Real.pi * j * (((n : Nat) : ℝ) + 1) / (((siteCount p).toNat : ℝ) + 1))) :=
  toeplitz_sin_eigen p 0 p.E_AlGaAs (t_AlGaAs p) (fun _ => uniform_diagonalValue p hm hE _)
    (uniform_offDiagonalValue p hm) j


theorem angle_mem (N j : Nat) (h1 : 1 ≤ j) (h2 : j ≤ N) :
    0 < Real.pi * j / ((N : ℝ) + 1) ∧ Real.pi * j / ((N : ℝ) + 1) < Real.pi := by
  have hN : (0 : ℝ) < (N : ℝ) + 1 := by positivity
  have hj : (0 : ℝ) < j := by exact_mod_cast h1
  have hjN : (j : ℝ) < (N : ℝ) + 1 := by
    have : (j : ℝ) ≤ N := by exact_mod_cast h2
    linarith
  constructor
  · exact div_pos (mul_pos Real.pi_pos hj) hN
  · rw [div_lt_iff₀ hN]
    exact mul_lt_mul_of_pos_left hjN Real.pi_pos

theorem sin_vector_ne_zero (N j : Nat) (h1 : 1 ≤ j) (h2 : j ≤ N) :
    (fun n : Fin N => Real.sin (Real.pi * j * (((n : Nat) : ℝ) + 1) / ((N : ℝ) + 1))) ≠ 0 := by
  intro h
  have hN : 0 < N := by omega
  have h0 := congrFun h ⟨0, hN⟩
  simp only [Pi.zero_apply, Nat.cast_zero, zero_add, mul_one] at h0
  have := angle_mem N j h1 h2
  exact absurd h0 (ne_of_gt (Real.sin_pos_of_pos_of_lt_pi this.1 this.2))

theorem cos_angle_injective (N j j' : Nat) (h1 : 1 ≤ j) (h2 : j ≤ N) (h1' : 1 ≤ j')
    (h2' : j' ≤ N)
    (h : Real.cos (Real.pi * j / ((N : ℝ) + 1)) = Real.cos (Real.pi * j' / ((N : ℝ) + 1))) :
    j = j' := by
  have a := angle_mem N j h1 h2
  have a' := angle_mem N j' h1' h2'
  have hN : (0 : ℝ) < (N : ℝ) + 1 := by positivity
  have e := Real.injOn_cos ⟨a.1.le, a.2.le⟩ ⟨a'.1.le, a'.2.le⟩ h
  rw [div_left_inj' hN.ne'] at e
  have := mul_left_cancel₀ Real.pi_pos.ne' e
  exact_mod_cast this

/-- Spectrum of the uniform rod: nothing but the `N` cosine values. -/
theorem uniform_eigenvalue_is_cosine (p : Params ℝ) (hm : p.m_GaAs = p.m_AlGaAs)
    (hE : p.E_GaAs = p.E_AlGaAs) (hN : 1 ≤ siteCount p) (μ : ℝ)
    (v : Fin (siteCount p).toNat → ℝ) (hv : v ≠ 0) (hμ : (Hmat p 0).mulVec v = μ • v) :
    ∃ j : Nat, 1 ≤ j ∧ j ≤ (siteCount p).toNat ∧
      μ = p.E_AlGaAs + 2 * t_AlGaAs p
          - 2 * t_AlGaAs p * Real.cos (Real.pi * j / (((siteCount p).toNat : ℝ) + 1)) := by
  by_contra hcon
  push_neg at hcon
  have hN' : 1 ≤ (siteCount p).toNat := by omega
  by_cases ht : t_AlGaAs p = 0
  · -- the matrix is `E` times the identity
    apply hcon 1 le_rfl hN'
    obtain ⟨n, hn⟩ : ∃ n, v n ≠ 0 := by
      by_contra h
      push_neg at h
      exact hv (funext h)
    have h1 := congrFun hμ n
    rw [uniform_mulVec p hm hE, ht] at h1
    simp only [Pi.smul_apply, smul_eq_mul] at h1
    rw [ht]
    have h2 : (μ - p.E_AlGaAs) * v n = 0 := by linear_combination -h1
    have h3 := (mul_eq_zero.1 h2).resolve_right hn
    linarith
  · -- `N + 1` eigenvectors for distinct eigenvalues in dimension `N`
    let lam : Nat → ℝ := fun j => p.E_AlGaAs + 2 * t_AlGaAs p
          - 2 * t_AlGaAs p * Real.cos (Real.pi * j / (((siteCount p).toNat : ℝ) + 1))
    let μs : Option (Fin (siteCount p).toNat) → ℝ := fun o =>
      match o with
      | none => μ
      | some j => lam ((j : Nat) + 1)
    let vs : Option (Fin (siteCount p).toNat) → (Fin (siteCount p).toNat → ℝ) := fun o =>
      match o with
      | none => v
      | some j => fun n : Fin (siteCount p).toNat =>
          Real.sin (Real.pi * (((j : Nat) + 1 : Nat) : ℝ) * (((n : Nat) : ℝ) + 1)
            / (((siteCount p).toNat : ℝ) + 1))
    have hinj : Function.Injective μs := by
      intro a b hab
      cases a with
      | none =>
        cases b with
        | none => rfl
        | some j => exact absurd hab (hcon ((j : Nat) + 1) (by omega) (by have := j.2; omega))
      | some i =>
        cases b with
        | none =>
          exact absurd hab.symm (hcon ((i : Nat) + 1) (by omega) (by have := i.2; omega))
        | some j =>
          have h1 : Real.cos (Real.pi * (((i : Nat) + 1 : Nat) : ℝ)
                / (((siteCount p).toNat : ℝ) + 1))
              = Real.cos (Real.pi * (((j : Nat) + 1 : Nat) : ℝ)
                / (((siteCount p).toNat : ℝ) + 1)) := by
            have h2 : lam ((i : Nat) + 1) = lam ((j : Nat) + 1) := hab
            simp only [lam] at h2
            have h3 : 2 * t_AlGaAs p ≠ 0 := mul_ne_zero two_ne_zero ht
            have h4 := sub_right_injective h2
            exact mul_left_cancel₀ h3 h4
          have h5 := cos_angle_injective _ _ _ (by omega) (by have := i.2; omega) (by omega)
            (by have := j.2; omega) h1
          have : i = j := Fin.ext (by omega)
          rw [this]
    have heig : ∀ o, Module.End.HasEigenvector (Matrix.toLin' (Hmat p 0)) (μs o) (vs o) := by
      intro o
      cases o with
      | none =>
        exact ⟨Module.End.mem_eigenspace_iff.2 (by rw [Matrix.toLin'_apply]; exact hμ), hv⟩
      | some j =>
        refine ⟨Module.End.mem_eigenspace_iff.2 ?_,
          sin_vector_ne_zero _ _ (by omega) (by have := j.2; omega)⟩
        rw [Matrix.toLin'_apply]
        exact uniform_sin_eigen p hm hE ((j : Nat) + 1)
    have hli := Module.End.eigenvectors_linearIndependent' (Matrix.toLin' (Hmat p 0)) μs hinj
      vs heig
    have hcard := hli.fintype_card_le_finrank
    simp at hcard


/-- C7: for a uniform single-material rod (`m_GaAs = m_AlGaAs`, `E_GaAs = E_AlGaAs = E`, hence
`t_GaAs = t_AlGaAs = t`) with `N ≥ 1` sites, at `k = 0`: for each `j = 1..N` the vector
`v_n = sin(π·j·(n+1)/(N+1))` is a non-zero eigenvector of the assembled matrix with eigenvalue
`E + 2t - 2t·cos(π·j/(N+1))`, and the real eigenvalues of the matrix are exactly these values. -/
theorem C7_uniform_rod_spectrum (p : Params ℝ) (hm : p.m_GaAs = p.m_AlGaAs)
    (hE : p.E_GaAs = p.E_AlGaAs) (hN : 1 ≤ siteCount p) :
    (∀ j : Nat, 1 ≤ j → j ≤ (siteCount p).toNat →
      (fun n : Fin (siteCount p).toNat =>
          Real.sin (Real.pi * j * (((n : Nat) : ℝ) + 1) / (((siteCount p).toNat : ℝ) + 1))) ≠ 0 ∧
        (Hmat p 0).mulVec (fun n : Fin (siteCount p).toNat =>
            Real.sin (Real.pi * j * (((n : Nat) : ℝ) + 1) / (((siteCount p).toNat : ℝ) + 1)))
          = (p.E_AlGaAs + 2 * t_AlGaAs p
              - 2 * t_AlGaAs p * Real.cos (Real.pi * j / (((siteCount p).toNat : ℝ) + 1)))
            • (fun n : Fin (siteCount p).toNat =>
              Real.sin (Real.pi * j * (((n : Nat) : ℝ) + 1)
                / (((siteCount p).toNat : ℝ) + 1)))) ∧
    (∀ μ : ℝ,
      (∃ v : Fin (siteCount p).toNat → ℝ, v ≠ 0 ∧ (Hmat p 0).mulVec v = μ • v) ↔
        ∃ j : Nat, 1 ≤ j ∧ j ≤ (siteCount p).toNat ∧
          μ = p.E_AlGaAs + 2 * t_AlGaAs p
              - 2 * t_AlGaAs p * Real.cos (Real.pi * j / (((siteCount p).toNat : ℝ) + 1))) := by
  refine ⟨fun j h1 h2 => ⟨sin_vector_ne_zero _ j h1 h2, uniform_sin_eigen p hm hE j⟩,
    fun μ => ⟨?_, ?_⟩⟩
  · rintro ⟨v, hv, hμ⟩
    exact uniform_eigenvalue_is_cosine p hm hE hN μ v hv hμ
  · rintro ⟨j, h1, h2, rfl⟩
    exact ⟨_, sin_vector_ne_zero _ j h1 h2, uniform_sin_eigen p hm hE j⟩

/-- C7 for the GaAs rod with the run's widths (`N = 223`) and constants. -/
theorem C7_uniform_rod_spectrum_witness :
    (uniformParams (hbarN ℝ) (m_eN ℝ)).m_GaAs = (uniformParams (hbarN ℝ) (m_eN ℝ)).m_AlGaAs ∧
    (uniformParams (hbarN ℝ) (m_eN ℝ)).E_GaAs = (uniformParams (hbarN ℝ) (m_eN ℝ)).E_AlGaAs ∧
    1 ≤ siteCount (uniformParams (hbarN ℝ) (m_eN ℝ)) ∧
    ∀ μ : ℝ,
      (∃ v : Fin (siteCount (uniformParams (hbarN ℝ) (m_eN ℝ))).toNat → ℝ,
          v ≠ 0 ∧ (Hmat (uniformParams (hbarN ℝ) (m_eN ℝ)) 0).mulVec v = μ • v) ↔
        ∃ j : Nat, 1 ≤ j ∧ j ≤ (siteCount (uniformParams (hbarN ℝ) (m_eN ℝ))).toNat ∧
          μ = (uniformParams (hbarN ℝ) (m_eN ℝ)).E_AlGaAs
              + 2 * t_AlGaAs (uniformParams (hbarN ℝ) (m_eN ℝ))
              - 2 * t_AlGaAs (uniformParams (hbarN ℝ) (m_eN ℝ))
                * Real.cos (Real.pi * j
                  / (((siteCount (uniformParams (hbarN ℝ) (m_eN ℝ))).toNat : ℝ) + 1)) := by
  have hN : 1 ≤ siteCount (uniformParams (hbarN ℝ) (m_eN ℝ)) := by
    have : siteCount (uniformParams (hbarN ℝ) (m_eN ℝ))
        = siteCount (mainParams (hbarN ℝ) (m_eN ℝ)) := rfl
    rw [this, mainParams_siteCount]
    decide
  exact ⟨rfl, rfl, hN, (C7_uniform_rod_spectrum _ rfl rfl hN).2⟩

end UniformRod

section Spectral

variable {N : Nat}

/-- An orthonormal family of `N` vectors, written as the rows of a matrix `U`, satisfies
`Uᵀ U = 1`. -/
theorem orthonormal_rows (e : Fin N → (Fin N → ℝ))
    (he : ∀ i j : Fin N, Matrix.dotProduct (e i) (e j) = if i = j then 1 else 0) :
    (Matrix.of e).transpose * Matrix.of e = 1 := by
  have h1 : Matrix.of e * (Matrix.of e).transpose = 1 := by
    ext i j
    rw [Matrix.mul_apply, Matrix.one_apply]
    exact he i j
  exact (Matrix.mul_eq_one_comm).1 h1

theorem of_mulVec_apply (e : Fin N → (Fin N → ℝ)) (x : Fin N → ℝ) (i : Fin N) :
    (Matrix.of e).mulVec x i = Matrix.dotProduct (e i) x := rfl

/-- Squared length in the coordinates of an orthonormal basis. -/
theorem dotProduct_self_eq_sum (e : Fin N → (Fin N → ℝ))
    (he : ∀ i j : Fin N, Matrix.dotProduct (e i) (e j) = if i = j then 1 else 0)
    (x : Fin N → ℝ) :
    Matrix.dotProduct x x = ∑ i, (Matrix.dotProduct (e i) x) ^ 2 := by
  have hU := orthonormal_rows e he
  calc Matrix.dotProduct x x
      = Matrix.dotProduct x (((Matrix.of e).transpose * Matrix.of e).mulVec x) := by
        rw [hU, Matrix.one_mulVec]
    _ = Matrix.dotProduct ((Matrix.of e).mulVec x) ((Matrix.of e).mulVec x) := by
        rw [← Matrix.mulVec_mulVec, Matrix.dotProduct_mulVec, Matrix.vecMul_transpose]
    _ = ∑ i, (Matrix.dotProduct (e i) x) ^ 2 := by
        simp only [Matrix.dotProduct, of_mulVec_apply, sq]

/-- The quadratic form in the coordinates of an orthonormal basis of eigenvectors. -/
theorem quadratic_form_eq_sum (M : Matrix (Fin N) (Fin N) ℝ) (ev : Nat → ℝ)
    (e : Fin N → (Fin N → ℝ))
    (he : ∀ i j : Fin N, Matrix.dotProduct (e i) (e j) = if i = j then 1 else 0)
    (hM : ∀ i : Fin N, M.mulVec (e i) = ev (i : Nat) • e i) (x : Fin N → ℝ) :
    Matrix.dotProduct x (M.mulVec x)
      = ∑ i : Fin N, ev (i : Nat) * (Matrix.dotProduct (e i) x) ^ 2 := by
  have hU := orthonormal_rows e he
  have hMU : M * (Matrix.of e).transpose
      = (Matrix.of e).transpose * Matrix.diagonal (fun i : Fin N => ev (i : Nat)) := by
    ext k i
    rw [Matrix.mul_diagonal]
    have := congrFun (hM i) k
    simp only [Pi.smul_apply, smul_eq_mul] at this
    rw [Matrix.transpose_apply, Matrix.of_apply, mul_comm, ← this]
    rfl
  calc Matrix.dotProduct x (M.mulVec x)
      = Matrix.dotProduct x ((M * ((Matrix.of e).transpose * Matrix.of e)).mulVec x) := by
        rw [hU, mul_one]
    _ = Matrix.dotProduct x (((Matrix.of e).transpose
          * Matrix.diagonal (fun i : Fin N => ev (i : Nat)) * Matrix.of e).mulVec x) := by
        rw [← mul_assoc, hMU]
    _ = Matrix.dotProduct ((Matrix.of e).mulVec x)
          ((Matrix.diagonal (fun i : Fin N => ev (i : Nat))).mulVec
            ((Matrix.of e).mulVec x)) := by
        rw [mul_assoc, ← Matrix.mulVec_mulVec, ← Matrix.mulVec_mulVec, Matrix.dotProduct_mulVec,
          Matrix.vecMul_transpose]
    _ = ∑ i : Fin N, ev (i : Nat) * (Matrix.dotProduct (e i) x) ^ 2 := by
        simp only [Matrix.dotProduct, Matrix.mulVec_diagonal]
        apply Finset.sum_congr rfl
        intro i _
        rw [of_mulVec_apply]
        simp only [Matrix.dotProduct]
        ring

/-- Position `0` of the ascending eigenvalues bounds the quadratic form from below. -/
theorem lowest_le_quadratic_form (M : Matrix (Fin N) (Fin N) ℝ) (ev : Nat → ℝ)
    (h : IsAscendingEigenvalues M ev) (x : Fin N → ℝ) :
    ev 0 * Matrix.dotProduct x x ≤ Matrix.dotProduct x (M.mulVec x) := by
  obtain ⟨hmono, e, he, hM⟩ := h
  rw [quadratic_form_eq_sum M ev e he hM, dotProduct_self_eq_sum e he, Finset.mul_sum]
  apply Finset.sum_le_sum
  intro i _
  exact mul_le_mul_of_nonneg_right (hmono 0 i (Nat.zero_le _) i.2) (sq_nonneg _)

/-- Every eigenvector basis vector is non-zero. -/
theorem eigenvector_ne_zero (e : Fin N → (Fin N → ℝ))
    (he : ∀ i j : Fin N, Matrix.dotProduct (e i) (e j) = if i = j then 1 else 0) (i : Fin N) :
    e i ≠ 0 := by
  intro h
  have := he i i
  rw [h, Matrix.zero_dotProduct, if_pos rfl] at this
  exact zero_ne_one this


/-- A real symmetric matrix has an ascending sequence of eigenvalues. -/
theorem exists_ascending_eigenvalues (M : Matrix (Fin N) (Fin N) ℝ)
    (hM : ∀ i j, M i j = M j i) : ∃ ev : Nat → ℝ, IsAscendingEigenvalues M ev := by
  have hA : M.IsHermitian := by
    ext i j
    simp only [Matrix.conjTranspose_apply, star_trivial]
    exact hM j i
  let σ := Tuple.sort hA.eigenvalues
  have hσ : Monotone (hA.eigenvalues ∘ σ) := Tuple.monotone_sort hA.eigenvalues
  refine ⟨fun n => if h : n < N then hA.eigenvalues (σ ⟨n, h⟩) else 0, ?_,
    fun i => (hA.eigenvectorBasis (σ i) : Fin N → ℝ), ?_, ?_⟩
  · intro m n hmn hn
    have hm : m < N := lt_of_le_of_lt hmn hn
    simp only [dif_pos hm, dif_pos hn]
    exact hσ (show (⟨m, hm⟩ : Fin N) ≤ ⟨n, hn⟩ from hmn)
  · intro i j
    have h := hA.eigenvectorBasis.orthonormal
    rw [orthonormal_iff_ite] at h
    have h2 := h (σ i) (σ j)
    rw [EuclideanSpace.inner_eq_star_dotProduct] at h2
    simp only [star_trivial] at h2
    have h3 : Matrix.dotProduct (hA.eigenvectorBasis (σ i) : Fin N → ℝ)
        (hA.eigenvectorBasis (σ j) : Fin N → ℝ) = if σ i = σ j then 1 else 0 := h2
    simp only [h3]
    by_cases hij : i = j
    · simp [hij]
    · have : σ i ≠ σ j := fun h' => hij (σ.injective h')
      simp [hij, this]
  · intro i
    simp only [dif_pos i.2]
    exact hA.mulVec_eigenvectorBasis (σ i)

theorem Hmat_symm {F : Type} [Field F] (p : Params F) (kc : F)
    (i j : Fin (siteCount p).toNat) : Hmat p kc i j = Hmat p kc j i := by
  unfold Hmat
  rw [H_symm]

end Spectral

section Comparison

variable {N : Nat}

/-- Comparison with a positive vector `y`, for a matrix whose off-diagonal entries are not
positive: every eigenvalue `lam` satisfies `(M y) n ≤ lam * y n` at some row `n`. -/
theorem exists_row_le_of_eigenvector (M : Matrix (Fin N) (Fin N) ℝ)
    (hoff : ∀ i j, i ≠ j → M i j ≤ 0) (y : Fin N → ℝ) (hy : ∀ n, 0 < y n)
    (lam : ℝ) (v : Fin N → ℝ) (hv : v ≠ 0) (heig : M.mulVec v = lam • v) :
    ∃ n, M.mulVec y n ≤ lam * y n := by
  obtain ⟨i0, hi0⟩ : ∃ n, v n ≠ 0 := by
    by_contra h
    push_neg at h
    exact hv (funext h)
  obtain ⟨n, -, hn⟩ := Finset.exists_max_image Finset.univ (fun m => |v m| / y m)
    ⟨i0, Finset.mem_univ i0⟩
  refine ⟨n, ?_⟩
  set ρ : ℝ := |v n| / y n with hρ
  have hρpos : 0 < ρ := by
    have h1 : 0 < |v i0| / y i0 := div_pos (abs_pos.2 hi0) (hy i0)
    exact lt_of_lt_of_le h1 (hn i0 (Finset.mem_univ i0))
  obtain ⟨s, hs1, hs2⟩ : ∃ s : ℝ, |s| = 1 ∧ s * v n = |v n| := by
    by_cases h : 0 ≤ v n
    · exact ⟨1, by simp, by rw [one_mul, abs_of_nonneg h]⟩
    · exact ⟨-1, by simp, by rw [abs_of_neg (not_le.1 h)]; ring⟩
  have hle : ∀ m, s * v m ≤ ρ * y m := by
    intro m
    have h1 : s * v m ≤ |v m| := by
      calc s * v m ≤ |s * v m| := le_abs_self _
        _ = |v m| := by rw [abs_mul, hs1, one_mul]
    have h2 : |v m| / y m ≤ ρ := hn m (Finset.mem_univ m)
    have h3 : |v m| ≤ ρ * y m := (div_le_iff₀ (hy m)).1 h2
    exact h1.trans h3
  have heq : s * v n = ρ * y n := by
    rw [hs2, hρ, div_mul_cancel₀ _ (hy n).ne']
  have hrow : ∑ m, M n m * (s * v m) = lam * (ρ * y n) := by
    have h1 := congrFun heig n
    simp only [Matrix.mulVec, Matrix.dotProduct, Pi.smul_apply, smul_eq_mul] at h1
    rw [← heq]
    calc ∑ m, M n m * (s * v m) = s * ∑ m, M n m * v m := by
          rw [Finset.mul_sum]
          apply Finset.sum_congr rfl
          intro m _
          ring
      _ = lam * (s * v n) := by rw [h1]; ring
  have hge : ∑ m, M n m * (ρ * y m) ≤ ∑ m, M n m * (s * v m) := by
    apply Finset.sum_le_sum
    intro m _
    by_cases hmn : m = n
    · rw [hmn, heq]
    · exact mul_le_mul_of_nonpos_left (hle m) (hoff n m (fun h => hmn h.symm))
  have hfin : ρ * M.mulVec y n ≤ ρ * (lam * y n) := by
    calc ρ * M.mulVec y n = ∑ m, M n m * (ρ * y m) := by
          simp only [Matrix.mulVec, Matrix.dotProduct]
          rw [Finset.mul_sum]
          apply Finset.sum_congr rfl
          intro m _
          ring
      _ ≤ ∑ m, M n m * (s * v m) := hge
      _ = ρ * (lam * y n) := by rw [hrow]; ring
  exact le_of_mul_le_mul_left hfin hρpos

theorem Hmat_offdiag_nonpos (p : Params ℝ) (kc : ℝ)
    (hoff : ∀ n : Int, offDiagonalValue p n ≤ 0) (i j : Fin (siteCount p).toNat)
    (hij : i ≠ j) : Hmat p kc i j ≤ 0 := by
  have hne : ((i : Nat) : Int) ≠ ((j : Nat) : Int) := by
    intro h
    exact hij (Fin.ext (by omega))
  unfold Hmat
  rw [H_fst, if_neg (fun h => hne h.1), zero_add]
  have h1 := hoff ((j : Nat) : Int)
  have h2 := hoff ((i : Nat) : Int)
  split_ifs <;> linarith

/-- Row `n` of an eigenvector equation, in terms of the vector continued by zero. -/
theorem eigen_row (p : Params ℝ) (kc lam : ℝ) (v : Fin (siteCount p).toNat → ℝ)
    (heig : (Hmat p kc).mulVec v = lam • v) (n : Int) (h0 : 0 ≤ n) (h1 : n < siteCount p) :
    diagonalValue p kc (siteClass p n) * extendZero v n
        + (offDiagonalValue p (n - 1) * extendZero v (n - 1)
          + offDiagonalValue p n * extendZero v (n + 1))
      = lam * extendZero v n := by
  have hn : n.toNat < (siteCount p).toNat := by omega
  have h := congrFun heig ⟨n.toNat, hn⟩
  rw [Hmat_mulVec] at h
  simp only [Pi.smul_apply, smul_eq_mul] at h
  have e : ((n.toNat : Nat) : Int) = n := Int.toNat_of_nonneg h0
  have e2 : extendZero v n = v ⟨n.toNat, hn⟩ := by
    rw [← extendZero_coe v ⟨n.toNat, hn⟩]
    simp only [e]
  simp only [e] at h
  rw [e2]
  exact h

/-- An eigenvector of the assembled matrix that vanishes at site `0` vanishes everywhere,
when no hopping amplitude is zero. -/
theorem eigenvector_eq_zero_of_first (p : Params ℝ) (kc lam : ℝ)
    (hoff : ∀ n : Int, offDiagonalValue p n ≠ 0) (v : Fin (siteCount p).toNat → ℝ)
    (heig : (Hmat p kc).mulVec v = lam • v) (h0 : extendZero v 0 = 0) : v = 0 := by
  have key : ∀ m : Nat, extendZero v (m : Int) = 0 ∧ extendZero v ((m : Int) + 1) = 0 := by
    intro m
    induction m with
    | zero =>
      refine ⟨h0, ?_⟩
      by_cases hN : (0 : Int) < siteCount p
      · have h := eigen_row p kc lam v heig 0 le_rfl hN
        rw [h0, extendZero_of_neg v (0 - 1) (by omega)] at h
        simp only [mul_zero, zero_add, Nat.cast_zero] at h ⊢
        exact (mul_eq_zero.1 h).resolve_left (hoff 0)
      · exact extendZero_of_ge v _ (by omega)
    | succ m ih =>
      refine ⟨by exact_mod_cast ih.2, ?_⟩
      by_cases hN : ((m : Int) + 1) < siteCount p
      · have h := eigen_row p kc lam v heig ((m : Int) + 1) (by omega) hN
        rw [ih.2, show (m : Int) + 1 - 1 = (m : Int) by ring, ih.1] at h
        simp only [mul_zero, zero_add] at h
        push_cast
        exact (mul_eq_zero.1 h).resolve_left (hoff _)
      · exact extendZero_of_ge v _ (by push_cast; omega)
  funext n
  rw [← extendZero_coe v n]
  exact (key n).1

end Comparison

section RunSpectrum

/-- A function of the integer position, restricted to the sites. -/
theorem extendZero_fun (N : Nat) (f : Int → ℝ) (m : Int) (h0 : 0 ≤ m) (h1 : m < (N : Int)) :
    extendZero (fun n : Fin N => f ((n : Nat) : Int)) m = f m := by
  unfold extendZero
  rw [dif_pos ⟨h0, h1⟩]
  simp only [Int.toNat_of_nonneg h0]

theorem extendZero_fun_le (N : Nat) (f : Int → ℝ) (hf : ∀ m, 0 ≤ f m) (m : Int) :
    extendZero (fun n : Fin N => f ((n : Nat) : Int)) m ≤ f m := by
  by_cases h : 0 ≤ m ∧ m < (N : Int)
  · rw [extendZero_fun N f m h.1 h.2]
  · unfold extendZero
    rw [dif_neg h]
    exact hf m

theorem main_t_AlGaAs_pos (hbar m_e : ℝ) (hh : hbar ≠ 0) (hm : 0 < m_e) :
    0 < t_AlGaAs (mainParams hbar m_e) := by
  rw [mainParams_t_AlGaAs]
  have : 0 < hbar ^ 2 := by positivity
  positivity

theorem main_t_GaAs_pos (hbar m_e : ℝ) (hh : hbar ≠ 0) (hm : 0 < m_e) :
    0 < t_GaAs (mainParams hbar m_e) := by
  rw [mainParams_t_GaAs]
  have : 0 < hbar ^ 2 := by positivity
  positivity

theorem main_siteClass (hbar m_e : ℝ) (m : Int) :
    siteClass (mainParams hbar m_e) m
      = if m < 100 ∨ m ≥ 123 then SiteClass.AlGaAs
        else if m = 100 ∨ m = 122 then SiteClass.boundary else SiteClass.GaAs := by
  unfold siteClass
  rw [mainParams_width_GaAs, mainParams_width_AlGaAs]
  rfl

theorem main_offDiagonalValue (hbar m_e : ℝ) (m : Int) :
    offDiagonalValue (mainParams hbar m_e) m
      = if m < 100 ∨ m ≥ 122 then -t_AlGaAs (mainParams hbar m_e)
        else -t_GaAs (mainParams hbar m_e) := by
  unfold offDiagonalValue bondIsAlGaAs
  rw [mainParams_width_GaAs, mainParams_width_AlGaAs]
  simp only [decide_eq_true_eq]
  rfl

theorem main_offDiagonalValue_neg (hbar m_e : ℝ) (hh : hbar ≠ 0) (hm : 0 < m_e) (m : Int) :
    offDiagonalValue (mainParams hbar m_e) m < 0 := by
  have hA := main_t_AlGaAs_pos hbar m_e hh hm
  have hG := main_t_GaAs_pos hbar m_e hh hm
  rw [main_offDiagonalValue]
  split_ifs <;> linarith

theorem main_diagonalValue_zero (hbar m_e : ℝ) (c : SiteClass) :
    diagonalValue (mainParams hbar m_e) 0 c
      = match c with
        | SiteClass.AlGaAs => 3 / 8 + 2 * t_AlGaAs (mainParams hbar m_e)
        | SiteClass.boundary =>
            3 / 16 + t_AlGaAs (mainParams hbar m_e) + t_GaAs (mainParams hbar m_e)
        | SiteClass.GaAs => 2 * t_GaAs (mainParams hbar m_e) := by
  cases c <;> simp only [diagonalValue, mainParams_E_AlGaAs, mainParams_E_GaAs] <;> ring

theorem liftedProfile_pos (tG : ℝ) (hG : 0 < tG) (m : Int) : 0 < liftedProfile tG m := by
  unfold liftedProfile
  split_ifs with h
  · have h1 : (100 : ℝ) ≤ (m : ℝ) := by exact_mod_cast h.1
    have h2 : (m : ℝ) ≤ 122 := by exact_mod_cast h.2
    have : 0 ≤ ((m : ℝ) - 100) * (122 - (m : ℝ)) :=
      mul_nonneg (by linarith) (by linarith)
    linarith
  · linarith

theorem liftedProfile_out (tG : ℝ) (m : Int) (h : m ≤ 100 ∨ 122 ≤ m) :
    liftedProfile tG m = 23 * tG := by
  unfold liftedProfile
  split_ifs with h2
  · rcases (show m = 100 ∨ m = 122 by omega) with h3 | h3 <;> subst h3 <;> norm_num
  · rfl

theorem liftedProfile_in (tG : ℝ) (m : Int) (h : 100 ≤ m ∧ m ≤ 122) :
    liftedProfile tG m = 23 * tG + 3 / 16 * (((m : ℝ) - 100) * (122 - (m : ℝ))) := by
  unfold liftedProfile
  rw [if_pos h]

theorem main_siteClass_AlGaAs (hbar m_e : ℝ) (m : Int) (h : m < 100 ∨ 123 ≤ m) :
    siteClass (mainParams hbar m_e) m = SiteClass.AlGaAs := by
  rw [main_siteClass, if_pos (by omega)]

theorem main_siteClass_boundary (hbar m_e : ℝ) (m : Int) (h : m = 100 ∨ m = 122) :
    siteClass (mainParams hbar m_e) m = SiteClass.boundary := by
  rw [main_siteClass, if_neg (by omega), if_pos h]

theorem main_siteClass_GaAs (hbar m_e : ℝ) (m : Int) (h : 101 ≤ m ∧ m ≤ 121) :
    siteClass (mainParams hbar m_e) m = SiteClass.GaAs := by
  rw [main_siteClass, if_neg (by omega), if_neg (by omega)]

theorem main_offDiagonalValue_AlGaAs (hbar m_e : ℝ) (m : Int) (h : m < 100 ∨ 122 ≤ m) :
    offDiagonalValue (mainParams hbar m_e) m = -t_AlGaAs (mainParams hbar m_e) := by
  rw [main_offDiagonalValue, if_pos (by omega)]

theorem main_offDiagonalValue_GaAs (hbar m_e : ℝ) (m : Int) (h : 100 ≤ m ∧ m ≤ 121) :
    offDiagonalValue (mainParams hbar m_e) m = -t_GaAs (mainParams hbar m_e) := by
  rw [main_offDiagonalValue, if_neg (by omega)]

/-- Every eigenvalue of the run's matrix at `k = 0` is positive. -/
theorem main_eigenvalue_pos (hbar m_e : ℝ) (hh : hbar ≠ 0) (hm : 0 < m_e) (lam : ℝ)
    (v : Fin (siteCount (mainParams hbar m_e)).toNat → ℝ) (hv : v ≠ 0)
    (heig : (Hmat (mainParams hbar m_e) 0).mulVec v = lam • v) : 0 < lam := by
  have hA := main_t_AlGaAs_pos hbar m_e hh hm
  have hG := main_t_GaAs_pos hbar m_e hh hm
  set tA := t_AlGaAs (mainParams hbar m_e) with htA
  set tG := t_GaAs (mainParams hbar m_e) with htG
  have hoff : ∀ n : Int, offDiagonalValue (mainParams hbar m_e) n ≤ 0 :=
    fun n => (main_offDiagonalValue_neg hbar m_e hh hm n).le
  obtain ⟨n, hn⟩ := exists_row_le_of_eigenvector (Hmat (mainParams hbar m_e) 0)
    (Hmat_offdiag_nonpos _ 0 hoff)
    (fun n => liftedProfile tG ((n : Nat) : Int)) (fun n => liftedProfile_pos tG hG _)
    lam v hv heig
  have hypos := liftedProfile_pos tG hG ((n : Nat) : Int)
  suffices h : 0 < (Hmat (mainParams hbar m_e) 0).mulVec
      (fun n => liftedProfile tG ((n : Nat) : Int)) n by
    have h2 := lt_of_lt_of_le h hn
    by_contra hcon
    have : lam * liftedProfile tG ((n : Nat) : Int) ≤ 0 :=
      mul_nonpos_of_nonpos_of_nonneg (not_lt.1 hcon) hypos.le
    linarith
  rw [Hmat_mulVec]
  have hnN : ((n : Nat) : Int) < 223 := by
    have := n.2
    have h223 := mainParams_siteCount hbar m_e
    omega
  have hn0 : (0 : Int) ≤ ((n : Nat) : Int) := by omega
  generalize ((n : Nat) : Int) = m at hnN hn0 hypos ⊢
  have hfn : extendZero (fun n : Fin (siteCount (mainParams hbar m_e)).toNat =>
      liftedProfile tG ((n : Nat) : Int)) (m - 1) ≤ liftedProfile tG (m - 1) :=
    extendZero_fun_le _ _ (fun k => (liftedProfile_pos tG hG k).le) _
  have hfp : extendZero (fun n : Fin (siteCount (mainParams hbar m_e)).toNat =>
      liftedProfile tG ((n : Nat) : Int)) (m + 1) ≤ liftedProfile tG (m + 1) :=
    extendZero_fun_le _ _ (fun k => (liftedProfile_pos tG hG k).le) _
  have hlow : diagonalValue (mainParams hbar m_e) 0 (siteClass (mainParams hbar m_e) m)
        * liftedProfile tG m
      + (offDiagonalValue (mainParams hbar m_e) (m - 1) * liftedProfile tG (m - 1)
        + offDiagonalValue (mainParams hbar m_e) m * liftedProfile tG (m + 1))
      ≤ diagonalValue (mainParams hbar m_e) 0 (siteClass (mainParams hbar m_e) m)
        * liftedProfile tG m
      + (offDiagonalValue (mainParams hbar m_e) (m - 1)
          * extendZero (fun n : Fin (siteCount (mainParams hbar m_e)).toNat =>
              liftedProfile tG ((n : Nat) : Int)) (m - 1)
        + offDiagonalValue (mainParams hbar m_e) m
          * extendZero (fun n : Fin (siteCount (mainParams hbar m_e)).toNat =>
              liftedProfile tG ((n : Nat) : Int)) (m + 1)) := by
    have a1 := mul_le_mul_of_nonpos_left hfn (hoff (m - 1))
    have a2 := mul_le_mul_of_nonpos_left hfp (hoff m)
    linarith
  refine lt_of_lt_of_le ?_ hlow
  simp only [main_diagonalValue_zero]
  rw [← htA, ← htG]
  have hm1 : (((m - 1 : Int)) : ℝ) = (m : ℝ) - 1 := by push_cast; ring
  have hp1 : (((m + 1 : Int)) : ℝ) = (m : ℝ) + 1 := by push_cast; ring
  rcases (show m < 100 ∨ m = 100 ∨ (101 ≤ m ∧ m ≤ 121) ∨ m = 122 ∨ 123 ≤ m by omega)
    with h | h | h | h | h
  · rw [main_siteClass_AlGaAs hbar m_e m (Or.inl h),
      main_offDiagonalValue_AlGaAs hbar m_e (m - 1) (by omega),
      main_offDiagonalValue_AlGaAs hbar m_e m (by omega),
      liftedProfile_out tG m (by omega), liftedProfile_out tG (m - 1) (by omega),
      liftedProfile_out tG (m + 1) (by omega), ← htA]
    simp only
    nlinarith
  · subst h
    rw [main_siteClass_boundary hbar m_e 100 (Or.inl rfl),
      main_offDiagonalValue_AlGaAs hbar m_e (100 - 1) (by omega),
      main_offDiagonalValue_GaAs hbar m_e 100 (by omega),
      liftedProfile_out tG 100 (by omega), liftedProfile_out tG (100 - 1) (by omega),
      liftedProfile_in tG (100 + 1) (by omega), ← htA, ← htG]
    simp only
    push_cast
    nlinarith
  · rw [main_siteClass_GaAs hbar m_e m (by omega),
      main_offDiagonalValue_GaAs hbar m_e (m - 1) (by omega),
      main_offDiagonalValue_GaAs hbar m_e m (by omega),
      liftedProfile_in tG m (by omega), liftedProfile_in tG (m - 1) (by omega),
      liftedProfile_in tG (m + 1) (by omega), ← htG, hm1, hp1]
    simp only
    nlinarith
  · subst h
    rw [main_siteClass_boundary hbar m_e 122 (Or.inr rfl),
      main_offDiagonalValue_GaAs hbar m_e (122 - 1) (by omega),
      main_offDiagonalValue_AlGaAs hbar m_e 122 (by omega),
      liftedProfile_out tG 122 (by omega), liftedProfile_in tG (122 - 1) (by omega),
      liftedProfile_out tG (122 + 1) (by omega), ← htA, ← htG]
    simp only
    push_cast
    nlinarith
  · rw [main_siteClass_AlGaAs hbar m_e m (Or.inr h),
      main_offDiagonalValue_AlGaAs hbar m_e (m - 1) (by omega),
      main_offDiagonalValue_AlGaAs hbar m_e m (by omega),
      liftedProfile_out tG m (by omega), liftedProfile_out tG (m - 1) (by omega),
      liftedProfile_out tG (m + 1) (by omega), ← htA]
    simp only
    nlinarith


variable {N : Nat}

/-- Position `1` of the ascending eigenvalues bounds the quadratic form from below on the
vectors orthogonal to the eigenvector of position `0`. -/
theorem second_le_quadratic_form (M : Matrix (Fin N) (Fin N) ℝ) (ev : Nat → ℝ)
    (hmono : ∀ m n : Nat, m ≤ n → n < N → ev m ≤ ev n)
    (e : Fin N → (Fin N → ℝ))
    (he : ∀ i j : Fin N, Matrix.dotProduct (e i) (e j) = if i = j then 1 else 0)
    (hM : ∀ i : Fin N, M.mulVec (e i) = ev (i : Nat) • e i)
    (x : Fin N → ℝ) (hx : ∀ i : Fin N, (i : Nat) = 0 → Matrix.dotProduct (e i) x = 0) :
    ev 1 * Matrix.dotProduct x x ≤ Matrix.dotProduct x (M.mulVec x) := by
  rw [quadratic_form_eq_sum M ev e he hM, dotProduct_self_eq_sum e he, Finset.mul_sum]
  apply Finset.sum_le_sum
  intro i _
  by_cases hi : (i : Nat) = 0
  · rw [hx i hi]
    simp
  · exact mul_le_mul_of_nonneg_right (hmono 1 i (by omega) i.2) (sq_nonneg _)

theorem barrierProfile_left (α β : ℝ) (m : Int) (h : m ≤ 100) :
    barrierProfile α β m = α * (((m : ℝ) + 1) * (100 - (m : ℝ))) := by
  unfold barrierProfile
  split_ifs with h1 h2
  · rfl
  · omega
  · have : m = 100 := by omega
    subst this
    norm_num

theorem barrierProfile_right (α β : ℝ) (m : Int) (h : 122 ≤ m) :
    barrierProfile α β m = β * (((m : ℝ) - 122) * (223 - (m : ℝ))) := by
  unfold barrierProfile
  split_ifs with h1 h2
  · omega
  · rfl
  · have : m = 122 := by omega
    subst this
    norm_num

theorem barrierProfile_mid (α β : ℝ) (m : Int) (h : 100 ≤ m ∧ m ≤ 122) :
    barrierProfile α β m = 0 := by
  unfold barrierProfile
  rw [if_neg (by omega)]
  split_ifs with h2
  · omega
  · rfl

theorem extendZero_barrierProfile (hN : (N : Int) = 223) (α β : ℝ) (m : Int) (h0 : -1 ≤ m)
    (h1 : m ≤ 223) :
    extendZero (fun n : Fin N => barrierProfile α β ((n : Nat) : Int)) m
      = barrierProfile α β m := by
  by_cases h : 0 ≤ m ∧ m < (N : Int)
  · exact extendZero_fun N _ m h.1 h.2
  · unfold extendZero
    rw [dif_neg h]
    rcases (show m = -1 ∨ m = 223 by omega) with h2 | h2
    · subst h2
      rw [barrierProfile_left α β (-1) (by omega)]
      norm_num
    · subst h2
      rw [barrierProfile_right α β 223 (by omega)]
      norm_num

/-- Row by row, the trial vector has quadratic form at most `3/8 + t_AlGaAs/50` times its
squared length. -/
theorem barrierProfile_row (hbar m_e : ℝ) (hh : hbar ≠ 0) (hm : 0 < m_e) (α β : ℝ)
    (n : Fin (siteCount (mainParams hbar m_e)).toNat) :
    barrierProfile α β ((n : Nat) : Int)
        * (Hmat (mainParams hbar m_e) 0).mulVec
            (fun n => barrierProfile α β ((n : Nat) : Int)) n
      ≤ (3 / 8 + t_AlGaAs (mainParams hbar m_e) / 50)
          * (barrierProfile α β ((n : Nat) : Int) * barrierProfile α β ((n : Nat) : Int)) := by
  have hA := main_t_AlGaAs_pos hbar m_e hh hm
  have hN : (((siteCount (mainParams hbar m_e)).toNat : Nat) : Int) = 223 := by
    rw [mainParams_siteCount]
    rfl
  rw [Hmat_mulVec]
  have hnN : ((n : Nat) : Int) < 223 := by
    have := n.2
    omega
  have hn0 : (0 : Int) ≤ ((n : Nat) : Int) := by omega
  rw [extendZero_barrierProfile hN α β _ (by omega) (by omega),
    extendZero_barrierProfile hN α β _ (by omega) (by omega)]
  generalize ((n : Nat) : Int) = m at hnN hn0 ⊢
  simp only [main_diagonalValue_zero]
  set tA := t_AlGaAs (mainParams hbar m_e) with htA
  have hm1 : (((m - 1 : Int)) : ℝ) = (m : ℝ) - 1 := by push_cast; ring
  have hp1 : (((m + 1 : Int)) : ℝ) = (m : ℝ) + 1 := by push_cast; ring
  have hm0 : (0 : ℝ) ≤ (m : ℝ) := by exact_mod_cast hn0
  have hm222 : (m : ℝ) ≤ 222 := by
    have : m ≤ 222 := by omega
    exact_mod_cast this
  rcases (show m < 100 ∨ (100 ≤ m ∧ m ≤ 122) ∨ 123 ≤ m by omega) with h | h | h
  · have hm99 : (m : ℝ) ≤ 99 := by
      have : m ≤ 99 := by omega
      exact_mod_cast this
    rw [main_siteClass_AlGaAs hbar m_e m (Or.inl h),
      main_offDiagonalValue_AlGaAs hbar m_e (m - 1) (by omega),
      main_offDiagonalValue_AlGaAs hbar m_e m (by omega),
      barrierProfile_left α β m (by omega), barrierProfile_left α β (m - 1) (by omega),
      barrierProfile_left α β (m + 1) (by omega), ← htA, hm1, hp1]
    simp only
    have hu : 100 ≤ ((m : ℝ) + 1) * (100 - (m : ℝ)) := by nlinarith
    have key : (3 / 8 + tA / 50)
          * (α * (((m : ℝ) + 1) * (100 - (m : ℝ))) * (α * (((m : ℝ) + 1) * (100 - (m : ℝ)))))
        - α * (((m : ℝ) + 1) * (100 - (m : ℝ)))
          * ((3 / 8 + 2 * tA) * (α * (((m : ℝ) + 1) * (100 - (m : ℝ))))
            + (-tA * (α * (((m : ℝ) - 1 + 1) * (100 - ((m : ℝ) - 1))))
              + -tA * (α * (((m : ℝ) + 1 + 1) * (100 - ((m : ℝ) + 1))))))
        = α ^ 2 * tA * (((m : ℝ) + 1) * (100 - (m : ℝ)))
            * ((((m : ℝ) + 1) * (100 - (m : ℝ))) / 50 - 2) := by
      ring
    have hnn : 0 ≤ α ^ 2 * tA * (((m : ℝ) + 1) * (100 - (m : ℝ)))
            * ((((m : ℝ) + 1) * (100 - (m : ℝ))) / 50 - 2) := by
      apply mul_nonneg
      · apply mul_nonneg
        · exact mul_nonneg (sq_nonneg _) hA.le
        · linarith
      · linarith
    linarith
  · rw [barrierProfile_mid α β m h]
    simp
  · have hm123 : (123 : ℝ) ≤ (m : ℝ) := by exact_mod_cast h
    rw [main_siteClass_AlGaAs hbar m_e m (Or.inr h),
      main_offDiagonalValue_AlGaAs hbar m_e (m - 1) (by omega),
      main_offDiagonalValue_AlGaAs hbar m_e m (by omega),
      barrierProfile_right α β m (by omega), barrierProfile_right α β (m - 1) (by omega),
      barrierProfile_right α β (m + 1) (by omega), ← htA, hm1, hp1]
    simp only
    have hu : 100 ≤ ((m : ℝ) - 122) * (223 - (m : ℝ)) := by nlinarith
    have key : (3 / 8 + tA / 50)
          * (β * (((m : ℝ) - 122) * (223 - (m : ℝ))) * (β * (((m : ℝ) - 122) * (223 - (m : ℝ)))))
        - β * (((m : ℝ) - 122) * (223 - (m : ℝ)))
          * ((3 / 8 + 2 * tA) * (β * (((m : ℝ) - 122) * (223 - (m : ℝ))))
            + (-tA * (β * (((m : ℝ) - 1 - 122) * (223 - ((m : ℝ) - 1))))
              + -tA * (β * (((m : ℝ) + 1 - 122) * (223 - ((m : ℝ) + 1))))))
        = β ^ 2 * tA * (((m : ℝ) - 122) * (223 - (m : ℝ)))
            * ((((m : ℝ) - 122) * (223 - (m : ℝ))) / 50 - 2) := by
      ring
    have hnn : 0 ≤ β ^ 2 * tA * (((m : ℝ) - 122) * (223 - (m : ℝ)))
            * ((((m : ℝ) - 122) * (223 - (m : ℝ))) / 50 - 2) := by
      apply mul_nonneg
      · apply mul_nonneg
        · exact mul_nonneg (sq_nonneg _) hA.le
        · linarith
      · linarith
    linarith


theorem barrierProfile_linear (α β : ℝ) (m : Int) :
    barrierProfile α β m = α * barrierProfile 1 0 m + β * barrierProfile 0 1 m := by
  unfold barrierProfile
  split_ifs <;> ring

/-- Position `1` of the ascending eigenvalues of the run's matrix at `k = 0` is below
`3/8 + t_AlGaAs/50`. -/
theorem main_second_le (hbar m_e : ℝ) (hh : hbar ≠ 0) (hm : 0 < m_e) (ev : Nat → ℝ)
    (hs : IsAscendingEigenvalues (Hmat (mainParams hbar m_e) 0) ev) :
    ev 1 ≤ 3 / 8 + t_AlGaAs (mainParams hbar m_e) / 50 := by
  obtain ⟨hmono, e, he, hM⟩ := hs
  have hN : (siteCount (mainParams hbar m_e)).toNat = 223 := by
    rw [mainParams_siteCount]
    rfl
  have h0N : 0 < (siteCount (mainParams hbar m_e)).toNat := by omega
  have h222N : 222 < (siteCount (mainParams hbar m_e)).toNat := by omega
  -- weights making the trial vector orthogonal to the eigenvector of position 0
  set A := Matrix.dotProduct (e ⟨0, h0N⟩)
    (fun n : Fin (siteCount (mainParams hbar m_e)).toNat =>
      barrierProfile (1 : ℝ) 0 ((n : Nat) : Int)) with hAdef
  set B := Matrix.dotProduct (e ⟨0, h0N⟩)
    (fun n : Fin (siteCount (mainParams hbar m_e)).toNat =>
      barrierProfile (0 : ℝ) 1 ((n : Nat) : Int)) with hBdef
  obtain ⟨α, β, hne, horth⟩ : ∃ α β : ℝ, (α ≠ 0 ∨ β ≠ 0) ∧ α * A + β * B = 0 := by
    by_cases hB : B = 0
    · exact ⟨0, 1, Or.inr one_ne_zero, by rw [hB]; ring⟩
    · exact ⟨B, -A, Or.inl hB, by ring⟩
  set w : Fin (siteCount (mainParams hbar m_e)).toNat → ℝ :=
    fun n => barrierProfile α β ((n : Nat) : Int) with hw
  have hwlin : w = α • (fun n : Fin (siteCount (mainParams hbar m_e)).toNat =>
        barrierProfile (1 : ℝ) 0 ((n : Nat) : Int))
      + β • (fun n : Fin (siteCount (mainParams hbar m_e)).toNat =>
        barrierProfile (0 : ℝ) 1 ((n : Nat) : Int)) := by
    funext n
    simp only [hw, Pi.add_apply, Pi.smul_apply, smul_eq_mul]
    exact barrierProfile_linear α β _
  have hworth : ∀ i : Fin (siteCount (mainParams hbar m_e)).toNat, (i : Nat) = 0 →
      Matrix.dotProduct (e i) w = 0 := by
    intro i hi
    have : i = ⟨0, h0N⟩ := Fin.ext hi
    rw [this, hwlin, Matrix.dotProduct_add, Matrix.dotProduct_smul, Matrix.dotProduct_smul]
    simp only [smul_eq_mul]
    exact horth
  have hwne : w ≠ 0 := by
    intro h
    rcases hne with h1 | h1
    · have h2 := congrFun h ⟨0, h0N⟩
      simp only [hw, Pi.zero_apply] at h2
      rw [barrierProfile_left α β _ (by simp)] at h2
      norm_num at h2
      exact h1 h2
    · have h2 := congrFun h ⟨222, h222N⟩
      simp only [hw, Pi.zero_apply] at h2
      rw [barrierProfile_right α β _ (by simp)] at h2
      norm_num at h2
      exact h1 h2
  have hpos : 0 < Matrix.dotProduct w w := by
    have h1 : 0 ≤ Matrix.dotProduct w w := by
      unfold Matrix.dotProduct
      exact Finset.sum_nonneg (fun i _ => mul_self_nonneg _)
    have h2 : Matrix.dotProduct w w ≠ 0 := fun h => hwne (Matrix.dotProduct_self_eq_zero.1 h)
    exact lt_of_le_of_ne h1 (Ne.symm h2)
  have hlow := second_le_quadratic_form (Hmat (mainParams hbar m_e) 0) ev hmono e he hM w
    hworth
  have hup : Matrix.dotProduct w ((Hmat (mainParams hbar m_e) 0).mulVec w)
      ≤ (3 / 8 + t_AlGaAs (mainParams hbar m_e) / 50) * Matrix.dotProduct w w := by
    unfold Matrix.dotProduct
    rw [Finset.mul_sum]
    apply Finset.sum_le_sum
    intro n _
    exact barrierProfile_row hbar m_e hh hm α β n
  exact le_of_mul_le_mul_right (hlow.trans hup) hpos

/-- Positions `0` and `1` of the ascending eigenvalues of the run's matrix differ. -/
theorem main_first_lt_second (hbar m_e : ℝ) (hh : hbar ≠ 0) (hm : 0 < m_e) (kc : ℝ)
    (ev : Nat → ℝ) (hs : IsAscendingEigenvalues (Hmat (mainParams hbar m_e) kc) ev) :
    ev 0 < ev 1 := by
  obtain ⟨hmono, e, he, hM⟩ := hs
  have hN : (siteCount (mainParams hbar m_e)).toNat = 223 := by
    rw [mainParams_siteCount]
    rfl
  have h0N : 0 < (siteCount (mainParams hbar m_e)).toNat := by omega
  have h1N : 1 < (siteCount (mainParams hbar m_e)).toNat := by omega
  refine lt_of_le_of_ne (hmono 0 1 (by omega) h1N) (fun heq => ?_)
  have hoff : ∀ n : Int, offDiagonalValue (mainParams hbar m_e) n ≠ 0 :=
    fun n => (main_offDiagonalValue_neg hbar m_e hh hm n).ne
  set e0 := e ⟨0, h0N⟩ with he0
  set e1 := e ⟨1, h1N⟩ with he1
  have hM0 : (Hmat (mainParams hbar m_e) kc).mulVec e0 = ev 0 • e0 := hM ⟨0, h0N⟩
  have hM1 : (Hmat (mainParams hbar m_e) kc).mulVec e1 = ev 0 • e1 := by
    rw [heq]
    exact hM ⟨1, h1N⟩
  set a := e1 ⟨0, h0N⟩ with ha
  set b := e0 ⟨0, h0N⟩ with hb
  have hw : (Hmat (mainParams hbar m_e) kc).mulVec (a • e0 - b • e1)
      = ev 0 • (a • e0 - b • e1) := by
    rw [Matrix.mulVec_sub, Matrix.mulVec_smul, Matrix.mulVec_smul, hM0, hM1, smul_sub,
      smul_comm a, smul_comm b]
  have hw0 : extendZero (a • e0 - b • e1) 0 = 0 := by
    have := extendZero_coe (a • e0 - b • e1) ⟨0, h0N⟩
    simp only [Nat.cast_zero] at this
    rw [this]
    simp only [Pi.sub_apply, Pi.smul_apply, smul_eq_mul, ← ha, ← hb]
    ring
  have hzero := eigenvector_eq_zero_of_first (mainParams hbar m_e) kc (ev 0) hoff _ hw hw0
  have hdot : Matrix.dotProduct e0 (a • e0 - b • e1) = a := by
    rw [Matrix.dotProduct_sub, Matrix.dotProduct_smul, Matrix.dotProduct_smul, he0, he1,
      he ⟨0, h0N⟩ ⟨0, h0N⟩, he ⟨0, h0N⟩ ⟨1, h1N⟩]
    simp
  rw [hzero, Matrix.dotProduct_zero] at hdot
  have he1zero : extendZero e1 0 = 0 := by
    have := extendZero_coe e1 ⟨0, h0N⟩
    simp only [Nat.cast_zero] at this
    rw [this, ← ha, ← hdot]
  exact eigenvector_ne_zero e he ⟨1, h1N⟩
    (eigenvector_eq_zero_of_first (mainParams hbar m_e) kc (ev 0) hoff e1 hM1 he1zero)


theorem hbarN_pos : 0 < hbarN ℝ := by
  unfold hbarN
  positivity

theorem m_eN_pos : 0 < m_eN ℝ := by
  unfold m_eN
  positivity

theorem hbarN_sq_lt : hbarN ℝ ^ 2 < 74 * m_eN ℝ := by
  unfold hbarN m_eN
  norm_num

/-- C8: for the run's configuration (223 sites) at `k = 0`, with `hbar > 0`, `m_e > 0` and
`hbar² / m_e < 74` (the physical constants give about 7.62 eV Å²), positions `0` and `1` of the
ascending eigenvalues satisfy `0 < λ₀ < λ₁ < 1.25`. -/
theorem C8_two_lowest_eigenvalues_of_run (hbar m_e : ℝ) (hh : 0 < hbar) (hm : 0 < m_e)
    (hr : hbar ^ 2 < 74 * m_e) (eigenValues : Nat → ℝ)
    (hs : IsAscendingEigenvalues (Hmat (mainParams hbar m_e) 0) eigenValues) :
    (siteCount (mainParams hbar m_e)).toNat = 223 ∧
    0 < eigenValues 0 ∧ eigenValues 0 < eigenValues 1 ∧ eigenValues 1 < 125 / 100 := by
  have hN : (siteCount (mainParams hbar m_e)).toNat = 223 := by
    rw [mainParams_siteCount]
    rfl
  have h0N : 0 < (siteCount (mainParams hbar m_e)).toNat := by omega
  refine ⟨hN, ?_, main_first_lt_second hbar m_e hh.ne' hm 0 eigenValues hs, ?_⟩
  · obtain ⟨_, e, he, hM⟩ := hs
    exact main_eigenvalue_pos hbar m_e hh.ne' hm (eigenValues 0) (e ⟨0, h0N⟩)
      (eigenvector_ne_zero e he _) (hM ⟨0, h0N⟩)
  · have h1 := main_second_le hbar m_e hh.ne' hm eigenValues hs
    have h2 : t_AlGaAs (mainParams hbar m_e) < 175 / 4 := by
      rw [mainParams_t_AlGaAs]
      have : hbar ^ 2 / m_e < 74 := by
        rw [div_lt_iff₀ hm]
        exact hr
      linarith
    linarith

/-- C8 at the physical constants. -/
theorem C8_two_lowest_eigenvalues_of_run_witness :
    ∃ eigenValues : Nat → ℝ,
      IsAscendingEigenvalues (Hmat (mainParams (hbarN ℝ) (m_eN ℝ)) 0) eigenValues ∧
      0 < eigenValues 0 ∧ eigenValues 0 < eigenValues 1 ∧ eigenValues 1 < 125 / 100 := by
  obtain ⟨ev, hev⟩ := exists_ascending_eigenvalues (Hmat (mainParams (hbarN ℝ) (m_eN ℝ)) 0)
    (Hmat_symm _ _)
  exact ⟨ev, hev,
    (C8_two_lowest_eigenvalues_of_run (hbarN ℝ) (m_eN ℝ) hbarN_pos m_eN_pos hbarN_sq_lt
      ev hev).2⟩

end RunSpectrum

section Sweep

theorem k_eq {F : Type} [LinearOrderedField F] (c : Nat) :
    (k c : F) = 5 / 100 * (c : F) / 99 := by
  unfold k Range
  norm_num
  ring

variable {F : Type} [LinearOrderedField F] [FloorRing F]

/-- The writes to a cell after the first `n` iterations of the sample loop. -/
theorem writesTo_foldl (solve : Model F → Nat → F) (hbar m_e : F) (n r c : Nat) :
    ((List.range n).foldl (sampleBody solve hbar m_e) []).writesTo r c
      = if c < n ∧ r < 2 then [solve (buildModel (mainParams hbar m_e) (k c)) r] else [] := by
  induction n with
  | zero => simp [ResultGrid.writesTo]
  | succ n ih =>
    rw [List.range_succ, List.foldl_append]
    simp only [List.foldl_cons, List.foldl_nil]
    have hstep : ∀ g : ResultGrid F, (sampleBody solve hbar m_e g n).writesTo r c
        = g.writesTo r c
          ++ (if c = n ∧ r < 2 then [solve (buildModel (mainParams hbar m_e) (k c)) r]
              else []) := by
      intro g
      simp only [sampleBody, ResultGrid.write, ResultGrid.writesTo, List.append_assoc,
        List.filter_append, List.map_append]
      congr 1
      by_cases hc : c = n
      · subst hc
        rcases (show r = 0 ∨ r = 1 ∨ 2 ≤ r by omega) with h | h | h
        · subst h
          simp [List.filter_cons]
        · subst h
          simp [List.filter_cons]
        · have h0 : ¬ (0 = r) := by omega
          have h1 : ¬ (1 = r) := by omega
          have h2 : ¬ r < 2 := by omega
          simp [List.filter_cons, h0, h1, h2]
      · have hc' : ¬ (n = c) := fun h => hc h.symm
        simp [List.filter_cons, hc, hc']
    rw [hstep, ih]
    by_cases h1 : c < n ∧ r < 2
    · rw [if_pos h1, if_neg (by omega), if_pos (by omega), List.append_nil]
    · rw [if_neg h1]
      by_cases h2 : c = n ∧ r < 2
      · rw [if_pos h2, if_pos (by omega), List.nil_append]
      · rw [if_neg h2, if_neg (by omega), List.append_nil]


variable {N : Nat}

/-- Position `0` of the ascending eigenvalues is the smallest eigenvalue. -/
theorem ascending_zero_isSmallest (M : Matrix (Fin N) (Fin N) ℝ) (ev : Nat → ℝ)
    (hs : IsAscendingEigenvalues M ev) (hN : 0 < N) : IsSmallestEigenvalue M (ev 0) := by
  refine ⟨?_, fun μ v hv hμ => ?_⟩
  · obtain ⟨_, e, he, hM⟩ := hs
    exact ⟨e ⟨0, hN⟩, eigenvector_ne_zero e he _, hM ⟨0, hN⟩⟩
  · have h1 := lowest_le_quadratic_form M ev hs v
    rw [hμ, Matrix.dotProduct_smul, smul_eq_mul] at h1
    have hpos : 0 < Matrix.dotProduct v v := by
      have h2 : 0 ≤ Matrix.dotProduct v v := by
        unfold Matrix.dotProduct
        exact Finset.sum_nonneg (fun i _ => mul_self_nonneg _)
      exact lt_of_le_of_ne h2 (fun h => hv (Matrix.dotProduct_self_eq_zero.1 h.symm))
    exact le_of_mul_le_mul_right h1 hpos

/-- Position `1` of the ascending eigenvalues of a symmetric matrix is an eigenvalue, and no
eigenvalue other than position `0` lies below it. -/
theorem ascending_one_isSecond (M : Matrix (Fin N) (Fin N) ℝ) (hsymm : ∀ i j, M i j = M j i)
    (ev : Nat → ℝ) (hs : IsAscendingEigenvalues M ev) (hN : 1 < N) :
    ev 0 ≤ ev 1 ∧ (∃ v : Fin N → ℝ, v ≠ 0 ∧ M.mulVec v = ev 1 • v) ∧
      ∀ (μ : ℝ) (v : Fin N → ℝ), v ≠ 0 → M.mulVec v = μ • v → μ ≠ ev 0 → ev 1 ≤ μ := by
  obtain ⟨hmono, e, he, hM⟩ := hs
  refine ⟨hmono 0 1 (by omega) hN, ⟨e ⟨1, hN⟩, eigenvector_ne_zero e he _, hM ⟨1, hN⟩⟩,
    fun μ v hv hμ hne => ?_⟩
  have hT : M.transpose = M := by
    ext i j
    exact hsymm j i
  have horth : ∀ i : Fin N, (i : Nat) = 0 → Matrix.dotProduct (e i) v = 0 := by
    intro i hi
    have h1 : Matrix.dotProduct (e i) (M.mulVec v) = μ * Matrix.dotProduct (e i) v := by
      rw [hμ, Matrix.dotProduct_smul, smul_eq_mul]
    have h2 : Matrix.dotProduct (e i) (M.mulVec v) = ev 0 * Matrix.dotProduct (e i) v := by
      rw [Matrix.dotProduct_mulVec, ← Matrix.mulVec_transpose, hT, hM i, hi,
        Matrix.smul_dotProduct, smul_eq_mul]
    have h3 : (μ - ev 0) * Matrix.dotProduct (e i) v = 0 := by
      rw [sub_mul, ← h1, ← h2, sub_self]
    exact (mul_eq_zero.1 h3).resolve_left (sub_ne_zero.2 hne)
  have h1 := second_le_quadratic_form M ev hmono e he hM v horth
  rw [hμ, Matrix.dotProduct_smul, smul_eq_mul] at h1
  have hpos : 0 < Matrix.dotProduct v v := by
    have h2 : 0 ≤ Matrix.dotProduct v v := by
      unfold Matrix.dotProduct
      exact Finset.sum_nonneg (fun i _ => mul_self_nonneg _)
    exact lt_of_le_of_ne h2 (fun h => hv (Matrix.dotProduct_self_eq_zero.1 h.symm))
  exact le_of_mul_le_mul_right h1 hpos

/-- C10: the sweep writes every cell `(r, c)`, `r < 2`, `c < 100`, exactly once and no other
cell; for every sample `c < 100` the wavevector is `k_c = 0.05·c/99`, and the cells `(0, c)` and
`(1, c)` hold positions `0` and `1` of the solver's output for the model assembled for `k_c`
alone, which (the solver returning the ascending eigenvalues) are the smallest and the
second-smallest eigenvalue of that matrix. -/
theorem C10_sweep_fills_result_grid (solve : Model ℝ → Nat → ℝ) (hbar m_e : ℝ)
    (hsolve : ∀ kc : ℝ, IsAscendingEigenvalues (Hmat (mainParams hbar m_e) kc)
      (solve (buildModel (mainParams hbar m_e) kc))) :
    (∀ r c : Nat, (sweep solve hbar m_e).writesTo r c
      = if c < 100 ∧ r < 2 then [solve (buildModel (mainParams hbar m_e) (k c)) r] else []) ∧
    ∀ c : Nat, c < 100 →
      (k c : ℝ) = 5 / 100 * (c : ℝ) / 99 ∧
      (sweep solve hbar m_e).read 0 c = some (solve (buildModel (mainParams hbar m_e) (k c)) 0) ∧
      (sweep solve hbar m_e).read 1 c = some (solve (buildModel (mainParams hbar m_e) (k c)) 1) ∧
      IsSmallestEigenvalue (Hmat (mainParams hbar m_e) (k c))
        (solve (buildModel (mainParams hbar m_e) (k c)) 0) ∧
      solve (buildModel (mainParams hbar m_e) (k c)) 0
        ≤ solve (buildModel (mainParams hbar m_e) (k c)) 1 ∧
      (∃ v : Fin (siteCount (mainParams hbar m_e)).toNat → ℝ, v ≠ 0 ∧
        (Hmat (mainParams hbar m_e) (k c)).mulVec v
          = solve (buildModel (mainParams hbar m_e) (k c)) 1 • v) ∧
      ∀ (μ : ℝ) (v : Fin (siteCount (mainParams hbar m_e)).toNat → ℝ), v ≠ 0 →
        (Hmat (mainParams hbar m_e) (k c)).mulVec v = μ • v →
        μ ≠ solve (buildModel (mainParams hbar m_e) (k c)) 0 →
        solve (buildModel (mainParams hbar m_e) (k c)) 1 ≤ μ := by
  have hN : (siteCount (mainParams hbar m_e)).toNat = 223 := by
    rw [mainParams_siteCount]
    rfl
  have hw : ∀ r c : Nat, (sweep solve hbar m_e).writesTo r c
      = if c < 100 ∧ r < 2 then [solve (buildModel (mainParams hbar m_e) (k c)) r] else [] :=
    fun r c => writesTo_foldl solve hbar m_e 100 r c
  refine ⟨hw, fun c hc => ⟨k_eq c, ?_, ?_, ?_, ?_⟩⟩
  · rw [ResultGrid.read, hw, if_pos ⟨hc, by omega⟩]
    rfl
  · rw [ResultGrid.read, hw, if_pos ⟨hc, by omega⟩]
    rfl
  · exact ascending_zero_isSmallest _ _ (hsolve (k c)) (by omega)
  · exact ascending_one_isSecond _ (Hmat_symm _ _) _ (hsolve (k c)) (by omega)

/-- C10 for a solver returning ascending eigenvalues, at the physical constants: the last
column. -/
theorem C10_sweep_fills_result_grid_witness :
    ∃ solve : Model ℝ → Nat → ℝ,
      (∀ kc : ℝ, IsAscendingEigenvalues (Hmat (mainParams (hbarN ℝ) (m_eN ℝ)) kc)
        (solve (buildModel (mainParams (hbarN ℝ) (m_eN ℝ)) kc))) ∧
      (k 99 : ℝ) = 5 / 100 * ((99 : Nat) : ℝ) / 99 ∧
      (sweep solve (hbarN ℝ) (m_eN ℝ)).read 0 99
        = some (solve (buildModel (mainParams (hbarN ℝ) (m_eN ℝ)) (k 99)) 0) ∧
      (sweep solve (hbarN ℝ) (m_eN ℝ)).read 1 99
        = some (solve (buildModel (mainParams (hbarN ℝ) (m_eN ℝ)) (k 99)) 1) := by
  classical
  let MM : Model ℝ → Matrix (Fin (siteCount (mainParams (hbarN ℝ) (m_eN ℝ))).toNat)
      (Fin (siteCount (mainParams (hbarN ℝ) (m_eN ℝ))).toNat) ℝ :=
    fun model i j => (entry model ((i : Nat) : Int) ((j : Nat) : Int)).1
  let solve : Model ℝ → Nat → ℝ := fun model =>
    if h : ∀ i j, MM model i j = MM model j i then
      Classical.choose (exists_ascending_eigenvalues (MM model) h)
    else fun _ => 0
  have hsolve : ∀ kc : ℝ, IsAscendingEigenvalues (Hmat (mainParams (hbarN ℝ) (m_eN ℝ)) kc)
      (solve (buildModel (mainParams (hbarN ℝ) (m_eN ℝ)) kc)) := by
    intro kc
    have hs : ∀ i j, MM (buildModel (mainParams (hbarN ℝ) (m_eN ℝ)) kc) i j
        = MM (buildModel (mainParams (hbarN ℝ) (m_eN ℝ)) kc) j i :=
      Hmat_symm (mainParams (hbarN ℝ) (m_eN ℝ)) kc
    simp only [solve, dif_pos hs]
    exact Classical.choose_spec (exists_ascending_eigenvalues _ hs)
  have h := (C10_sweep_fills_result_grid solve (hbarN ℝ) (m_eN ℝ) hsolve).2 99 (by omega)
  exact ⟨solve, hsolve, h.1, h.2.1, h.2.2.1⟩

end Sweep

section GroundState

variable {N : Nat}

/-- A vector whose quadratic form does not exceed position `0` of the ascending eigenvalues
times its squared length is an eigenvector for that eigenvalue. -/
theorem eigenvector_of_minimiser (M : Matrix (Fin N) (Fin N) ℝ) (ev : Nat → ℝ)
    (hs : IsAscendingEigenvalues M ev) (z : Fin N → ℝ)
    (hz : Matrix.dotProduct z (M.mulVec z) ≤ ev 0 * Matrix.dotProduct z z) :
    M.mulVec z = ev 0 • z := by
  obtain ⟨hmono, e, he, hM⟩ := hs
  have hU := orthonormal_rows e he
  have hMU : M * (Matrix.of e).transpose
      = (Matrix.of e).transpose * Matrix.diagonal (fun i : Fin N => ev (i : Nat)) := by
    ext k i
    rw [Matrix.mul_diagonal]
    have := congrFun (hM i) k
    simp only [Pi.smul_apply, smul_eq_mul] at this
    rw [Matrix.transpose_apply, Matrix.of_apply, mul_comm, ← this]
    rfl
  rw [quadratic_form_eq_sum M ev e he hM, dotProduct_self_eq_sum e he, Finset.mul_sum] at hz
  have hterm : ∀ i : Fin N, 0 ≤ (ev (i : Nat) - ev 0) * (Matrix.dotProduct (e i) z) ^ 2 :=
    fun i => mul_nonneg (sub_nonneg.2 (hmono 0 i (Nat.zero_le _) i.2)) (sq_nonneg _)
  have hsum : ∑ i : Fin N, (ev (i : Nat) - ev 0) * (Matrix.dotProduct (e i) z) ^ 2 = 0 := by
    apply le_antisymm _ (Finset.sum_nonneg (fun i _ => hterm i))
    have : ∑ i : Fin N, (ev (i : Nat) - ev 0) * (Matrix.dotProduct (e i) z) ^ 2
        = ∑ i : Fin N, ev (i : Nat) * (Matrix.dotProduct (e i) z) ^ 2
          - ∑ i : Fin N, ev 0 * (Matrix.dotProduct (e i) z) ^ 2 := by
      rw [← Finset.sum_sub_distrib]
      apply Finset.sum_congr rfl
      intro i _
      ring
    rw [this]
    linarith
  have hzero : ∀ i : Fin N, ev (i : Nat) * Matrix.dotProduct (e i) z
      = ev 0 * Matrix.dotProduct (e i) z := by
    intro i
    have h1 := (Finset.sum_eq_zero_iff_of_nonneg (fun i _ => hterm i)).1 hsum i
      (Finset.mem_univ i)
    rcases mul_eq_zero.1 h1 with h2 | h2
    · rw [sub_eq_zero.1 h2]
    · rw [pow_eq_zero_iff (two_ne_zero)] at h2
      rw [h2, mul_zero, mul_zero]
  have hD : (Matrix.diagonal (fun i : Fin N => ev (i : Nat))).mulVec ((Matrix.of e).mulVec z)
      = ev 0 • (Matrix.of e).mulVec z := by
    funext i
    rw [Matrix.mulVec_diagonal, of_mulVec_apply]
    simp only [Pi.smul_apply, smul_eq_mul, of_mulVec_apply]
    exact hzero i
  calc M.mulVec z = (M * ((Matrix.of e).transpose * Matrix.of e)).mulVec z := by
        rw [hU, mul_one]
    _ = (Matrix.of e).transpose.mulVec
          ((Matrix.diagonal (fun i : Fin N => ev (i : Nat))).mulVec
            ((Matrix.of e).mulVec z)) := by
        rw [← mul_assoc, hMU, mul_assoc, ← Matrix.mulVec_mulVec, ← Matrix.mulVec_mulVec]
    _ = ev 0 • ((Matrix.of e).transpose * Matrix.of e).mulVec z := by
        rw [hD, Matrix.mulVec_smul, Matrix.mulVec_mulVec]
    _ = ev 0 • z := by rw [hU, Matrix.one_mulVec]

/-- Passing to absolute values does not increase the quadratic form of a matrix whose
off-diagonal entries are not positive. -/
theorem quadratic_form_abs_le (M : Matrix (Fin N) (Fin N) ℝ)
    (hoff : ∀ i j, i ≠ j → M i j ≤ 0) (x : Fin N → ℝ) :
    Matrix.dotProduct (fun n => |x n|) (M.mulVec (fun n => |x n|))
      ≤ Matrix.dotProduct x (M.mulVec x) := by
  simp only [Matrix.dotProduct, Matrix.mulVec, Finset.mul_sum]
  apply Finset.sum_le_sum
  intro n _
  apply Finset.sum_le_sum
  intro m _
  by_cases hnm : n = m
  · subst hnm
    have : |x n| * (M n n * |x n|) = x n * (M n n * x n) := by
      have h := abs_mul_abs_self (x n)
      calc |x n| * (M n n * |x n|) = M n n * (|x n| * |x n|) := by ring
        _ = M n n * (x n * x n) := by rw [h]
        _ = x n * (M n n * x n) := by ring
    rw [this]
  · have h1 : x n * x m ≤ |x n| * |x m| := by
      rw [← abs_mul]
      exact le_abs_self _
    have h2 := mul_le_mul_of_nonpos_left h1 (hoff n m hnm)
    calc |x n| * (M n m * |x m|) = M n m * (|x n| * |x m|) := by ring
      _ ≤ M n m * (x n * x m) := h2
      _ = x n * (M n m * x m) := by ring

/-- The smallest eigenvalue of the assembled matrix has an eigenvector with positive entries,
when every hopping amplitude is negative. -/
theorem exists_positive_ground_state (p : Params ℝ) (kc : ℝ)
    (hoff : ∀ n : Int, offDiagonalValue p n < 0) (ev : Nat → ℝ)
    (hs : IsAscendingEigenvalues (Hmat p kc) ev) (hN : 0 < (siteCount p).toNat) :
    ∃ z : Fin (siteCount p).toNat → ℝ, (∀ n, 0 < z n) ∧ (Hmat p kc).mulVec z = ev 0 • z := by
  obtain ⟨x, hx, hMx⟩ := (ascending_zero_isSmallest _ ev hs hN).1
  have habs : Matrix.dotProduct (fun n => |x n|) (fun n => |x n|) = Matrix.dotProduct x x := by
    simp only [Matrix.dotProduct]
    apply Finset.sum_congr rfl
    intro n _
    exact abs_mul_abs_self (x n)
  have hmin : Matrix.dotProduct (fun n => |x n|) ((Hmat p kc).mulVec (fun n => |x n|))
      ≤ ev 0 * Matrix.dotProduct (fun n => |x n|) (fun n => |x n|) := by
    refine (quadratic_form_abs_le _ (Hmat_offdiag_nonpos p kc (fun n => (hoff n).le)) x).trans ?_
    rw [habs, hMx, Matrix.dotProduct_smul, smul_eq_mul]
  have hz := eigenvector_of_minimiser _ ev hs _ hmin
  refine ⟨fun n => |x n|, fun n => ?_, hz⟩
  by_contra hcon
  have hzn : |x n| = 0 := le_antisymm (not_lt.1 hcon) (abs_nonneg _)
  have hZ : ∀ m : Int, 0 ≤ extendZero (fun n => |x n|) m := by
    intro m
    unfold extendZero
    split_ifs
    · exact abs_nonneg _
    · exact le_rfl
  -- zeros propagate downwards
  have key : ∀ j : Nat, extendZero (fun n => |x n|) (((n : Nat) : Int) - j) = 0 := by
    intro j
    induction j with
    | zero =>
      simp only [Nat.cast_zero, sub_zero]
      rw [extendZero_coe (fun n => |x n|) n]
      exact hzn
    | succ j ih =>
      by_cases hr : 0 ≤ ((n : Nat) : Int) - j
      · have hlt : ((n : Nat) : Int) - j < siteCount p := by
          have := n.2
          omega
        have h := eigen_row p kc (ev 0) _ hz _ hr hlt
        rw [ih, mul_zero, mul_zero, zero_add] at h
        have h1 := mul_nonpos_of_nonpos_of_nonneg (hoff (((n : Nat) : Int) - j - 1)).le
          (hZ (((n : Nat) : Int) - j - 1))
        have h2 := mul_nonpos_of_nonpos_of_nonneg (hoff (((n : Nat) : Int) - j)).le
          (hZ (((n : Nat) : Int) - j + 1))
        have h3 : offDiagonalValue p (((n : Nat) : Int) - j - 1)
            * extendZero (fun n => |x n|) (((n : Nat) : Int) - j - 1) = 0 := by linarith
        have h4 := (mul_eq_zero.1 h3).resolve_left (hoff _).ne
        have e : ((n : Nat) : Int) - ((j + 1 : Nat) : Int) = ((n : Nat) : Int) - j - 1 := by
          push_cast
          ring
        rw [e]
        exact h4
      · exact extendZero_of_neg _ _ (by push_cast; omega)
  have h0 : extendZero (fun n => |x n|) 0 = 0 := by
    have := key (n : Nat)
    simpa using this
  have hzero := eigenvector_eq_zero_of_first p kc (ev 0) (fun m => (hoff m).ne) _ hz h0
  apply hx
  funext m
  have := congrFun hzero m
  simpa using this


theorem offDiagonalValue_neg (p : Params ℝ) (htA : 0 < t_AlGaAs p)
    (htAG : t_AlGaAs p ≤ t_GaAs p) (n : Int) : offDiagonalValue p n < 0 := by
  unfold offDiagonalValue
  split_ifs <;> linarith

/-- The diagonal entry of a row is at least the sum of the two hopping magnitudes next to
it. -/
theorem rowSum_nonneg (p : Params ℝ) (kc : ℝ) (hEG : 0 ≤ p.E_GaAs) (hEA : 0 ≤ p.E_AlGaAs)
    (htAG : t_AlGaAs p ≤ t_GaAs p) (htpA : 0 ≤ tp_AlGaAs p)
    (htpG : 0 ≤ tp_GaAs p) (n : Int) :
    0 ≤ diagonalValue p kc (siteClass p n) + (offDiagonalValue p (n - 1)
      + offDiagonalValue p n) := by
  have hk : 0 ≤ kc ^ 2 := sq_nonneg kc
  have h1 : 0 ≤ tp_AlGaAs p * kc ^ 2 := mul_nonneg htpA hk
  have h2 : 0 ≤ tp_GaAs p * kc ^ 2 := mul_nonneg htpG hk
  unfold siteClass offDiagonalValue bondIsAlGaAs
  simp only [decide_eq_true_eq]
  split_ifs <;> simp only [diagonalValue] <;> first | omega | nlinarith

/-- The smallest eigenvalue of the assembled matrix is positive, for non-negative offsets and
`0 < t_AlGaAs ≤ t_GaAs`. -/
theorem smallest_eigenvalue_pos (p : Params ℝ) (kc : ℝ) (hEG : 0 ≤ p.E_GaAs)
    (hEA : 0 ≤ p.E_AlGaAs) (htA : 0 < t_AlGaAs p) (htAG : t_AlGaAs p ≤ t_GaAs p)
    (htpA : 0 ≤ tp_AlGaAs p) (htpG : 0 ≤ tp_GaAs p) (ev : Nat → ℝ)
    (hs : IsAscendingEigenvalues (Hmat p kc) ev) (hN : 0 < (siteCount p).toNat) :
    0 < ev 0 := by
  have hoff := offDiagonalValue_neg p htA htAG
  obtain ⟨z, hzpos, hz⟩ := exists_positive_ground_state p kc hoff ev hs hN
  have hT : (Hmat p kc).transpose = Hmat p kc := by
    ext i j
    exact Hmat_symm p kc j i
  -- the rows of `M 1`
  have hone : ∀ n : Fin (siteCount p).toNat,
      0 ≤ (Hmat p kc).mulVec (fun _ => (1 : ℝ)) n := by
    intro n
    rw [Hmat_mulVec]
    have hr := rowSum_nonneg p kc hEG hEA htAG htpA htpG ((n : Nat) : Int)
    have h1 : extendZero (fun _ : Fin (siteCount p).toNat => (1 : ℝ)) (((n : Nat) : Int) - 1)
        ≤ 1 := by
      unfold extendZero
      split_ifs <;> norm_num
    have h2 : extendZero (fun _ : Fin (siteCount p).toNat => (1 : ℝ)) (((n : Nat) : Int) + 1)
        ≤ 1 := by
      unfold extendZero
      split_ifs <;> norm_num
    have a1 := mul_le_mul_of_nonpos_left h1 (hoff (((n : Nat) : Int) - 1)).le
    have a2 := mul_le_mul_of_nonpos_left h2 (hoff ((n : Nat) : Int)).le
    linarith
  have hfirst : 0 < (Hmat p kc).mulVec (fun _ => (1 : ℝ)) ⟨0, hN⟩ := by
    rw [Hmat_mulVec]
    have hr := rowSum_nonneg p kc hEG hEA htAG htpA htpG 0
    have h1 : extendZero (fun _ : Fin (siteCount p).toNat => (1 : ℝ)) ((0 : Int) - 1) = 0 :=
      extendZero_of_neg _ _ (by omega)
    have h2 : extendZero (fun _ : Fin (siteCount p).toNat => (1 : ℝ)) ((0 : Int) + 1) ≤ 1 := by
      unfold extendZero
      split_ifs <;> norm_num
    have a2 := mul_le_mul_of_nonpos_left h2 (hoff 0).le
    have a3 := hoff ((0 : Int) - 1)
    simp only [Nat.cast_zero]
    rw [h1]
    linarith
  have hsum : Matrix.dotProduct ((Hmat p kc).mulVec (fun _ => (1 : ℝ))) z
      = ev 0 * Matrix.dotProduct (fun _ => (1 : ℝ)) z := by
    calc Matrix.dotProduct ((Hmat p kc).mulVec (fun _ => (1 : ℝ))) z
        = Matrix.dotProduct (fun _ => (1 : ℝ)) ((Hmat p kc).mulVec z) := by
          rw [Matrix.dotProduct_mulVec, ← Matrix.mulVec_transpose, hT]
      _ = ev 0 * Matrix.dotProduct (fun _ => (1 : ℝ)) z := by
          rw [hz, Matrix.dotProduct_smul, smul_eq_mul]
  have hl : 0 < Matrix.dotProduct ((Hmat p kc).mulVec (fun _ => (1 : ℝ))) z := by
    unfold Matrix.dotProduct
    have hnn : ∀ n ∈ Finset.univ, 0 ≤ (Hmat p kc).mulVec (fun _ => (1 : ℝ)) n * z n :=
      fun n _ => mul_nonneg (hone n) (hzpos n).le
    exact lt_of_lt_of_le (mul_pos hfirst (hzpos ⟨0, hN⟩))
      (Finset.single_le_sum hnn (Finset.mem_univ (⟨0, hN⟩ : Fin (siteCount p).toNat)))
  have hr : 0 < Matrix.dotProduct (fun _ => (1 : ℝ)) z := by
    unfold Matrix.dotProduct
    have hnn : ∀ n ∈ Finset.univ, 0 ≤ (1 : ℝ) * z n := fun n _ => by
      have := hzpos n
      linarith
    have h0 : 0 < (1 : ℝ) * z ⟨0, hN⟩ := by
      have := hzpos ⟨0, hN⟩
      linarith
    exact lt_of_lt_of_le h0
      (Finset.single_le_sum hnn (Finset.mem_univ (⟨0, hN⟩ : Fin (siteCount p).toNat)))
  rw [hsum] at hl
  by_contra hcon
  have := mul_nonpos_of_nonpos_of_nonneg (not_lt.1 hcon) hr.le
  linarith

end GroundState

section Widen

theorem widen_siteClass_le (p : Params ℝ) (hw : 1 ≤ p.width_GaAs) (n : Int)
    (hn : n ≤ p.width_AlGaAs) : siteClass (widenWell p) n = siteClass p n := by
  unfold siteClass widenWell
  simp only
  split_ifs <;> first | rfl | omega

theorem widen_siteClass_ge (p : Params ℝ) (n : Int)
    (hn : p.width_AlGaAs + 2 ≤ n) : siteClass (widenWell p) n = siteClass p (n - 1) := by
  unfold siteClass widenWell
  simp only
  split_ifs <;> first | rfl | omega

theorem widen_siteClass_new (p : Params ℝ) (hw : 2 ≤ p.width_GaAs) :
    siteClass (widenWell p) (p.width_AlGaAs + 1) = SiteClass.GaAs := by
  unfold siteClass widenWell
  simp only
  split_ifs <;> first | rfl | omega

theorem widen_siteClass_new_one (p : Params ℝ) (hw : p.width_GaAs = 1) :
    siteClass (widenWell p) (p.width_AlGaAs + 1) = SiteClass.boundary := by
  unfold siteClass widenWell
  simp only
  split_ifs <;> first | rfl | omega

theorem widen_offDiagonalValue_lt (p : Params ℝ) (n : Int) (hn : n < p.width_AlGaAs) :
    offDiagonalValue (widenWell p) n = offDiagonalValue p n := by
  unfold offDiagonalValue bondIsAlGaAs widenWell
  simp only [decide_eq_true_eq]
  split_ifs <;> first | rfl | omega

theorem widen_offDiagonalValue_ge (p : Params ℝ) (n : Int)
    (hn : p.width_AlGaAs + 1 ≤ n) :
    offDiagonalValue (widenWell p) n = offDiagonalValue p (n - 1) := by
  unfold offDiagonalValue bondIsAlGaAs widenWell
  simp only [decide_eq_true_eq]
  split_ifs <;> first | rfl | omega

theorem widen_offDiagonalValue_at (p : Params ℝ) (hw : 1 ≤ p.width_GaAs) :
    offDiagonalValue (widenWell p) p.width_AlGaAs = -t_GaAs p := by
  unfold offDiagonalValue bondIsAlGaAs widenWell
  simp only [decide_eq_true_eq]
  split_ifs <;> first | rfl | omega

theorem widen_diagonalValue (p : Params ℝ) (kc : ℝ) (c : SiteClass) :
    diagonalValue (widenWell p) kc c = diagonalValue p kc c := by
  cases c <;> rfl

theorem widen_siteCount (p : Params ℝ) : siteCount (widenWell p) = siteCount p + 1 := by
  unfold siteCount widenWell
  simp only
  ring

/-- The duplicated vector, continued by zero, is the duplicate of the continued vector. -/
theorem extendZero_duplicateSite (p : Params ℝ) (hW : 0 ≤ p.width_AlGaAs)
    (hw : 0 ≤ p.width_GaAs) (z : Fin (siteCount p).toNat → ℝ) (m : Int) :
    extendZero (fun n : Fin (siteCount (widenWell p)).toNat =>
        duplicateSite p.width_AlGaAs (extendZero z) ((n : Nat) : Int)) m
      = duplicateSite p.width_AlGaAs (extendZero z) m := by
  have hc := widen_siteCount p
  have hN : siteCount p = 2 * p.width_AlGaAs + p.width_GaAs := rfl
  by_cases h : 0 ≤ m ∧ m < (((siteCount (widenWell p)).toNat : Nat) : Int)
  · exact extendZero_fun _ _ m h.1 h.2
  · have h0 : extendZero (fun n : Fin (siteCount (widenWell p)).toNat =>
        duplicateSite p.width_AlGaAs (extendZero z) ((n : Nat) : Int)) m = 0 := by
      rw [extendZero, dif_neg h]
    rw [h0]
    unfold duplicateSite
    split_ifs with h1
    · rw [extendZero_of_neg z m (by omega)]
    · rw [extendZero_of_ge z (m - 1) (by omega)]


theorem duplicateSite_le (W : Int) (Z : Int → ℝ) (m : Int) (h : m ≤ W) :
    duplicateSite W Z m = Z m := by
  unfold duplicateSite
  rw [if_pos h]

theorem duplicateSite_gt (W : Int) (Z : Int → ℝ) (m : Int) (h : W < m) :
    duplicateSite W Z m = Z (m - 1) := by
  unfold duplicateSite
  rw [if_neg (by omega)]

/-- Row `m` of the widened matrix applied to the duplicated eigenvector. -/
theorem widen_row (p : Params ℝ) (kc : ℝ) (hW : 0 ≤ p.width_AlGaAs) (hw : 1 ≤ p.width_GaAs)
    (z : Fin (siteCount p).toNat → ℝ)
    (n : Fin (siteCount (widenWell p)).toNat) :
    (Hmat (widenWell p) kc).mulVec (fun n : Fin (siteCount (widenWell p)).toNat =>
        duplicateSite p.width_AlGaAs (extendZero z) ((n : Nat) : Int)) n
      = diagonalValue p kc (siteClass (widenWell p) ((n : Nat) : Int))
          * duplicateSite p.width_AlGaAs (extendZero z) ((n : Nat) : Int)
        + (offDiagonalValue (widenWell p) (((n : Nat) : Int) - 1)
            * duplicateSite p.width_AlGaAs (extendZero z) (((n : Nat) : Int) - 1)
          + offDiagonalValue (widenWell p) ((n : Nat) : Int)
            * duplicateSite p.width_AlGaAs (extendZero z) (((n : Nat) : Int) + 1)) := by
  rw [Hmat_mulVec, extendZero_duplicateSite p hW (by omega),
    extendZero_duplicateSite p hW (by omega), widen_diagonalValue]

/-- Away from the duplicated site the duplicated eigenvector satisfies the eigenvector
equation of the widened matrix. -/
theorem widen_row_away (p : Params ℝ) (kc lam : ℝ) (hW : 0 ≤ p.width_AlGaAs)
    (hw : 1 ≤ p.width_GaAs) (z : Fin (siteCount p).toNat → ℝ)
    (heig : (Hmat p kc).mulVec z = lam • z)
    (n : Fin (siteCount (widenWell p)).toNat)
    (hn : ((n : Nat) : Int) < p.width_AlGaAs ∨ p.width_AlGaAs + 2 ≤ ((n : Nat) : Int)) :
    (Hmat (widenWell p) kc).mulVec (fun n : Fin (siteCount (widenWell p)).toNat =>
        duplicateSite p.width_AlGaAs (extendZero z) ((n : Nat) : Int)) n
      = lam * duplicateSite p.width_AlGaAs (extendZero z) ((n : Nat) : Int) := by
  rw [widen_row p kc hW hw]
  have hc := widen_siteCount p
  have hN : siteCount p = 2 * p.width_AlGaAs + p.width_GaAs := rfl
  have hnN := n.2
  have hn0 : (0 : Int) ≤ ((n : Nat) : Int) := by omega
  have hnlt : ((n : Nat) : Int) < siteCount p + 1 := by omega
  generalize ((n : Nat) : Int) = m at hn hn0 hnlt ⊢
  rcases hn with h | h
  · rw [widen_siteClass_le p hw m (by omega), widen_offDiagonalValue_lt p (m - 1) (by omega),
      widen_offDiagonalValue_lt p m h, duplicateSite_le _ _ m (by omega),
      duplicateSite_le _ _ (m - 1) (by omega), duplicateSite_le _ _ (m + 1) (by omega)]
    exact eigen_row p kc lam z heig m hn0 (by omega)
  · rw [widen_siteClass_ge p m h, widen_offDiagonalValue_ge p (m - 1) (by omega),
      widen_offDiagonalValue_ge p m (by omega), duplicateSite_gt _ _ m (by omega),
      duplicateSite_gt _ _ (m - 1) (by omega), duplicateSite_gt _ _ (m + 1) (by omega)]
    have h2 := eigen_row p kc lam z heig (m - 1) (by omega) (by omega)
    rw [show m - 1 + 1 = m by ring] at h2
    rw [show m + 1 - 1 = m by ring]
    exact h2

/-- The two rows at the duplicated site: their residuals add up to
`(d - 2·t_GaAs - lam)·a`, `d` the diagonal entry of the new site and `a` the duplicated
entry. -/
theorem widen_rows_at (p : Params ℝ) (kc lam : ℝ) (hW : 0 ≤ p.width_AlGaAs)
    (hw : 1 ≤ p.width_GaAs) (z : Fin (siteCount p).toNat → ℝ)
    (heig : (Hmat p kc).mulVec z = lam • z)
    (n₁ n₂ : Fin (siteCount (widenWell p)).toNat)
    (h₁ : ((n₁ : Nat) : Int) = p.width_AlGaAs) (h₂ : ((n₂ : Nat) : Int) = p.width_AlGaAs + 1) :
    ((Hmat (widenWell p) kc).mulVec (fun n : Fin (siteCount (widenWell p)).toNat =>
          duplicateSite p.width_AlGaAs (extendZero z) ((n : Nat) : Int)) n₁
        - lam * extendZero z p.width_AlGaAs)
      + ((Hmat (widenWell p) kc).mulVec (fun n : Fin (siteCount (widenWell p)).toNat =>
          duplicateSite p.width_AlGaAs (extendZero z) ((n : Nat) : Int)) n₂
        - lam * extendZero z p.width_AlGaAs)
      = (diagonalValue p kc (siteClass (widenWell p) (p.width_AlGaAs + 1))
          - 2 * t_GaAs p - lam) * extendZero z p.width_AlGaAs := by
  rw [widen_row p kc hW hw, widen_row p kc hW hw, h₁, h₂]
  have hN : siteCount p = 2 * p.width_AlGaAs + p.width_GaAs := rfl
  have he := eigen_row p kc lam z heig p.width_AlGaAs hW (by omega)
  rw [show p.width_AlGaAs + 1 - 1 = p.width_AlGaAs by ring,
    widen_siteClass_le p hw _ le_rfl,
    widen_offDiagonalValue_lt p (p.width_AlGaAs - 1) (by omega),
    widen_offDiagonalValue_at p hw, widen_offDiagonalValue_ge p (p.width_AlGaAs + 1) (by omega),
    duplicateSite_le _ _ p.width_AlGaAs le_rfl, duplicateSite_le _ _ (p.width_AlGaAs - 1)
      (by omega),
    duplicateSite_gt _ _ (p.width_AlGaAs + 1) (by omega),
    duplicateSite_gt _ _ (p.width_AlGaAs + 1 + 1) (by omega)]
  rw [show p.width_AlGaAs + 1 - 1 = p.width_AlGaAs by ring,
    show p.width_AlGaAs + 1 + 1 - 1 = p.width_AlGaAs + 1 by ring]
  linear_combination he


/-- Quadratic form of the widened matrix at the duplicated eigenvector. -/
theorem widen_quadratic_form (p : Params ℝ) (kc lam : ℝ) (hW : 0 ≤ p.width_AlGaAs)
    (hw : 1 ≤ p.width_GaAs) (z : Fin (siteCount p).toNat → ℝ)
    (heig : (Hmat p kc).mulVec z = lam • z) :
    Matrix.dotProduct
        (fun n : Fin (siteCount (widenWell p)).toNat =>
          duplicateSite p.width_AlGaAs (extendZero z) ((n : Nat) : Int))
        ((Hmat (widenWell p) kc).mulVec (fun n : Fin (siteCount (widenWell p)).toNat =>
          duplicateSite p.width_AlGaAs (extendZero z) ((n : Nat) : Int)))
      - lam * Matrix.dotProduct
        (fun n : Fin (siteCount (widenWell p)).toNat =>
          duplicateSite p.width_AlGaAs (extendZero z) ((n : Nat) : Int))
        (fun n : Fin (siteCount (widenWell p)).toNat =>
          duplicateSite p.width_AlGaAs (extendZero z) ((n : Nat) : Int))
      = (diagonalValue p kc (siteClass (widenWell p) (p.width_AlGaAs + 1))
          - 2 * t_GaAs p - lam) * (extendZero z p.width_AlGaAs) ^ 2 := by
  have hc := widen_siteCount p
  have hN : siteCount p = 2 * p.width_AlGaAs + p.width_GaAs := rfl
  have hi₁ : p.width_AlGaAs.toNat < (siteCount (widenWell p)).toNat := by omega
  have hi₂ : p.width_AlGaAs.toNat + 1 < (siteCount (widenWell p)).toNat := by omega
  set ξ : Fin (siteCount (widenWell p)).toNat → ℝ :=
    fun n => duplicateSite p.width_AlGaAs (extendZero z) ((n : Nat) : Int) with hξ
  have hv₁ : ((p.width_AlGaAs.toNat : Nat) : Int) = p.width_AlGaAs := Int.toNat_of_nonneg hW
  have hv₂ : ((p.width_AlGaAs.toNat + 1 : Nat) : Int) = p.width_AlGaAs + 1 := by
    push_cast
    rw [hv₁]
  have hξ₁ : ξ ⟨p.width_AlGaAs.toNat, hi₁⟩ = extendZero z p.width_AlGaAs := by
    simp only [hξ, hv₁]
    exact duplicateSite_le _ _ _ le_rfl
  have hξ₂ : ξ ⟨p.width_AlGaAs.toNat + 1, hi₂⟩ = extendZero z p.width_AlGaAs := by
    simp only [hξ, hv₂]
    rw [duplicateSite_gt _ _ _ (by omega), show p.width_AlGaAs + 1 - 1 = p.width_AlGaAs by ring]
  have hsum : Matrix.dotProduct ξ ((Hmat (widenWell p) kc).mulVec ξ)
      - lam * Matrix.dotProduct ξ ξ
      = ∑ n, ξ n * ((Hmat (widenWell p) kc).mulVec ξ n - lam * ξ n) := by
    simp only [Matrix.dotProduct]
    rw [Finset.mul_sum, ← Finset.sum_sub_distrib]
    apply Finset.sum_congr rfl
    intro n _
    ring
  rw [hsum, Finset.sum_eq_add_of_mem (⟨p.width_AlGaAs.toNat, hi₁⟩ :
      Fin (siteCount (widenWell p)).toNat) ⟨p.width_AlGaAs.toNat + 1, hi₂⟩
      (Finset.mem_univ _) (Finset.mem_univ _)
      (by
        intro h
        have := congrArg Fin.val h
        simp only at this
        omega)]
  · have h := widen_rows_at p kc lam hW hw z heig ⟨p.width_AlGaAs.toNat, hi₁⟩
      ⟨p.width_AlGaAs.toNat + 1, hi₂⟩ hv₁ hv₂
    rw [hξ₁, hξ₂]
    rw [← hξ] at h
    linear_combination (extendZero z p.width_AlGaAs) * h
  · intro c _ hcne
    have hcv : ((c : Nat) : Int) < p.width_AlGaAs ∨ p.width_AlGaAs + 2 ≤ ((c : Nat) : Int) := by
      have h1 : (c : Nat) ≠ p.width_AlGaAs.toNat := fun h => hcne.1 (Fin.ext h)
      have h2 : (c : Nat) ≠ p.width_AlGaAs.toNat + 1 := fun h => hcne.2 (Fin.ext h)
      omega
    have h := widen_row_away p kc lam hW hw z heig c hcv
    rw [← hξ] at h
    rw [h]
    simp only [hξ]
    ring

/-- With a single well site the smallest eigenvalue exceeds `E_AlGaAs/2 + t_AlGaAs - t_GaAs`. -/
theorem single_well_site_bound (p : Params ℝ) (hw : p.width_GaAs = 1) (hEG : p.E_GaAs = 0)
    (hEA : 0 ≤ p.E_AlGaAs) (htA : 0 < t_AlGaAs p) (htAG : t_AlGaAs p < t_GaAs p) (lam : ℝ)
    (v : Fin (siteCount p).toNat → ℝ) (hv : v ≠ 0) (heig : (Hmat p 0).mulVec v = lam • v) :
    p.E_AlGaAs / 2 + t_AlGaAs p - t_GaAs p < lam := by
  have hoff := offDiagonalValue_neg p htA htAG.le
  obtain ⟨n, hn⟩ := exists_row_le_of_eigenvector (Hmat p 0)
    (Hmat_offdiag_nonpos p 0 (fun m => (hoff m).le)) (fun _ => (1 : ℝ)) (fun _ => one_pos)
    lam v hv heig
  rw [Hmat_mulVec] at hn
  have h1 : extendZero (fun _ : Fin (siteCount p).toNat => (1 : ℝ)) (((n : Nat) : Int) - 1)
      ≤ 1 := by
    unfold extendZero
    split_ifs <;> norm_num
  have h2 : extendZero (fun _ : Fin (siteCount p).toNat => (1 : ℝ)) (((n : Nat) : Int) + 1)
      ≤ 1 := by
    unfold extendZero
    split_ifs <;> norm_num
  have a1 := mul_le_mul_of_nonpos_left h1 (hoff (((n : Nat) : Int) - 1)).le
  have a2 := mul_le_mul_of_nonpos_left h2 (hoff ((n : Nat) : Int)).le
  have hrow : p.E_AlGaAs / 2 + t_AlGaAs p - t_GaAs p
      < diagonalValue p 0 (siteClass p ((n : Nat) : Int))
        + (offDiagonalValue p (((n : Nat) : Int) - 1) + offDiagonalValue p ((n : Nat) : Int)) := by
    unfold siteClass offDiagonalValue bondIsAlGaAs
    simp only [decide_eq_true_eq, hw]
    split_ifs <;> simp only [diagonalValue, hEG] <;> first | omega | nlinarith
  linarith


theorem tp_AlGaAs_nonneg (p : Params ℝ) (htA : 0 < t_AlGaAs p) : 0 ≤ tp_AlGaAs p := by
  have ha : p.a ≠ 0 := by
    intro h
    unfold t_AlGaAs at htA
    rw [h] at htA
    simp at htA
  have : tp_AlGaAs p = t_AlGaAs p * (p.a * p.a) := by
    unfold tp_AlGaAs t_AlGaAs
    by_cases hm : p.m_AlGaAs = 0
    · simp [hm]
    · field_simp
      ring
  rw [this]
  exact mul_nonneg htA.le (mul_self_nonneg _)

theorem tp_GaAs_nonneg (p : Params ℝ) (htG : 0 < t_GaAs p) : 0 ≤ tp_GaAs p := by
  have ha : p.a ≠ 0 := by
    intro h
    unfold t_GaAs at htG
    rw [h] at htG
    simp at htG
  have : tp_GaAs p = t_GaAs p * (p.a * p.a) := by
    unfold tp_GaAs t_GaAs
    by_cases hm : p.m_GaAs = 0
    · simp [hm]
    · field_simp
      ring
  rw [this]
  exact mul_nonneg htG.le (mul_self_nonneg _)

/-- Widening the well by one site, from at least one site, strictly lowers the smallest
eigenvalue at `k = 0`. -/
theorem widen_lowers_smallest (p : Params ℝ) (hW : 0 ≤ p.width_AlGaAs)
    (hw : 1 ≤ p.width_GaAs) (hEG : p.E_GaAs = 0) (hEA : 0 ≤ p.E_AlGaAs)
    (htA : 0 < t_AlGaAs p) (htAG : t_AlGaAs p < t_GaAs p) (ev ev' : Nat → ℝ)
    (hs : IsAscendingEigenvalues (Hmat p 0) ev)
    (hs' : IsAscendingEigenvalues (Hmat (widenWell p) 0) ev') : ev' 0 < ev 0 := by
  have hN : siteCount p = 2 * p.width_AlGaAs + p.width_GaAs := rfl
  have hc := widen_siteCount p
  have hNpos : 0 < (siteCount p).toNat := by omega
  have hoff := offDiagonalValue_neg p htA htAG.le
  obtain ⟨z, hzpos, hz⟩ := exists_positive_ground_state p 0 hoff ev hs hNpos
  have hzne : z ≠ 0 := by
    intro h
    have := hzpos ⟨0, hNpos⟩
    rw [h] at this
    simp at this
  have hlam : 0 < ev 0 :=
    smallest_eigenvalue_pos p 0 (by rw [hEG]) hEA htA htAG.le
      (tp_AlGaAs_nonneg p htA) (tp_GaAs_nonneg p (htA.trans htAG)) ev hs hNpos
  -- the duplicated entry is positive
  have hiW : p.width_AlGaAs.toNat < (siteCount p).toNat := by omega
  have ha : 0 < extendZero z p.width_AlGaAs := by
    have h1 := extendZero_coe z ⟨p.width_AlGaAs.toNat, hiW⟩
    simp only [Int.toNat_of_nonneg hW] at h1
    rw [h1]
    exact hzpos _
  -- the coefficient of the quadratic form is negative
  have hcoef : diagonalValue p 0 (siteClass (widenWell p) (p.width_AlGaAs + 1))
      - 2 * t_GaAs p - ev 0 < 0 := by
    by_cases h1 : p.width_GaAs = 1
    · rw [widen_siteClass_new_one p h1]
      have := single_well_site_bound p h1 hEG hEA htA htAG (ev 0) z hzne hz
      simp only [diagonalValue, hEG]
      nlinarith
    · rw [widen_siteClass_new p (by omega)]
      simp only [diagonalValue, hEG]
      nlinarith
  have hq := widen_quadratic_form p 0 (ev 0) hW hw z hz
  set ξ : Fin (siteCount (widenWell p)).toNat → ℝ :=
    fun n => duplicateSite p.width_AlGaAs (extendZero z) ((n : Nat) : Int) with hξ
  have hneg : Matrix.dotProduct ξ ((Hmat (widenWell p) 0).mulVec ξ)
      - ev 0 * Matrix.dotProduct ξ ξ < 0 := by
    rw [hq]
    exact mul_neg_of_neg_of_pos hcoef (pow_pos ha 2)
  have hlow := lowest_le_quadratic_form (Hmat (widenWell p) 0) ev' hs' ξ
  have hpos : 0 < Matrix.dotProduct ξ ξ := by
    have h2 : 0 ≤ Matrix.dotProduct ξ ξ := by
      unfold Matrix.dotProduct
      exact Finset.sum_nonneg (fun i _ => mul_self_nonneg _)
    refine lt_of_le_of_ne h2 (fun h => ?_)
    have hz0 := Matrix.dotProduct_self_eq_zero.1 h.symm
    rw [hz0] at hneg
    simp at hneg
  have : ev' 0 * Matrix.dotProduct ξ ξ < ev 0 * Matrix.dotProduct ξ ξ := by linarith
  exact lt_of_mul_lt_mul_right this hpos.le

theorem smallest_unique {N : Nat} (M : Matrix (Fin N) (Fin N) ℝ) (l l' : ℝ)
    (h : IsSmallestEigenvalue M l) (h' : IsSmallestEigenvalue M l') : l = l' := by
  obtain ⟨⟨v, hv, hMv⟩, hmin⟩ := h
  obtain ⟨⟨v', hv', hMv'⟩, hmin'⟩ := h'
  exact le_antisymm (hmin l' v' hv' hMv') (hmin' l v hv hMv)

end Widen

section Monotone

theorem heterostructure_t_AlGaAs (hbar m_e : ℝ) (W_A W_G : Int) :
    t_AlGaAs (heterostructure hbar m_e W_A W_G) = hbar ^ 2 / m_e * (500 / 846) :=
  mainParams_t_AlGaAs hbar m_e

theorem heterostructure_t_GaAs (hbar m_e : ℝ) (W_A W_G : Int) :
    t_GaAs (heterostructure hbar m_e W_A W_G) = hbar ^ 2 / m_e * (50 / 63) :=
  mainParams_t_GaAs hbar m_e

theorem heterostructure_E_AlGaAs (hbar m_e : ℝ) (W_A W_G : Int) :
    (heterostructure hbar m_e W_A W_G).E_AlGaAs = 3 / 8 :=
  mainParams_E_AlGaAs hbar m_e

theorem heterostructure_t_pos (hbar m_e : ℝ) (hh : hbar ≠ 0) (hm : 0 < m_e) (W_A W_G : Int) :
    0 < t_AlGaAs (heterostructure hbar m_e W_A W_G) ∧
      t_AlGaAs (heterostructure hbar m_e W_A W_G)
        < t_GaAs (heterostructure hbar m_e W_A W_G) := by
  rw [heterostructure_t_AlGaAs, heterostructure_t_GaAs]
  have h : 0 < hbar ^ 2 / m_e := div_pos (by positivity) hm
  constructor
  · positivity
  · nlinarith

/-- One more well site, for the structure of `main`. -/
theorem heterostructure_step (hbar m_e : ℝ) (hh : hbar ≠ 0) (hm : 0 < m_e) (W_A w w' : Int)
    (hW : 0 ≤ W_A) (hw : 1 ≤ w) (hw' : w' = w + 1) (ev ev' : Nat → ℝ)
    (hs : IsAscendingEigenvalues (Hmat (heterostructure hbar m_e W_A w) 0) ev)
    (hs' : IsAscendingEigenvalues (Hmat (heterostructure hbar m_e W_A w') 0) ev') :
    ev' 0 < ev 0 := by
  subst hw'
  have ht := heterostructure_t_pos hbar m_e hh hm W_A w
  exact widen_lowers_smallest (heterostructure hbar m_e W_A w) hW hw rfl
    (by rw [heterostructure_E_AlGaAs]; norm_num) ht.1 ht.2 ev ev' hs hs'

/-- Any number of additional well sites, for the structure of `main`. -/
theorem heterostructure_chain (hbar m_e : ℝ) (hh : hbar ≠ 0) (hm : 0 < m_e) (W_A w : Int)
    (hW : 0 ≤ W_A) (hw : 1 ≤ w) (ev : Nat → ℝ)
    (hs : IsAscendingEigenvalues (Hmat (heterostructure hbar m_e W_A w) 0) ev) (j : Nat) :
    ∀ (w' : Int), w' = w + j + 1 → ∀ ev' : Nat → ℝ,
      IsAscendingEigenvalues (Hmat (heterostructure hbar m_e W_A w') 0) ev' → ev' 0 < ev 0 := by
  induction j with
  | zero =>
    intro w' hw' ev' hs'
    exact heterostructure_step hbar m_e hh hm W_A w w' hW hw (by simpa using hw') ev ev' hs hs'
  | succ j ih =>
    intro w' hw' ev' hs'
    obtain ⟨ev'', hs''⟩ := exists_ascending_eigenvalues
      (Hmat (heterostructure hbar m_e W_A (w + j + 1)) 0) (Hmat_symm _ _)
    have h1 := ih (w + j + 1) rfl ev'' hs''
    have h2 := heterostructure_step hbar m_e hh hm W_A (w + j + 1) w' hW (by omega)
      (by rw [hw']; push_cast; ring) ev'' ev' hs'' hs'
    exact h2.trans h1

/-- From one well site on, for the structure of `main` with any barrier width `W_A ≥ 0`,
`hbar ≠ 0` and `m_e > 0`, the smallest eigenvalue of the matrix assembled at `k = 0` is strictly
decreasing in the well site count: `λ_min(H(W_A, w')) < λ_min(H(W_A, w))` for all
`1 ≤ w < w'`. -/
theorem decreases_from_one_well_site (hbar m_e : ℝ) (hh : hbar ≠ 0)
    (hm : 0 < m_e) (W_A w w' : Int) (hW : 0 ≤ W_A) (hw : 1 ≤ w) (hww : w < w') (l l' : ℝ)
    (hl : IsSmallestEigenvalue (Hmat (heterostructure hbar m_e W_A w) 0) l)
    (hl' : IsSmallestEigenvalue (Hmat (heterostructure hbar m_e W_A w') 0) l') : l' < l := by
  obtain ⟨ev, hs⟩ := exists_ascending_eigenvalues
    (Hmat (heterostructure hbar m_e W_A w) 0) (Hmat_symm _ _)
  obtain ⟨ev', hs'⟩ := exists_ascending_eigenvalues
    (Hmat (heterostructure hbar m_e W_A w') 0) (Hmat_symm _ _)
  have hN : siteCount (heterostructure hbar m_e W_A w) = 2 * W_A + w := rfl
  have hN' : siteCount (heterostructure hbar m_e W_A w') = 2 * W_A + w' := rfl
  have e1 := smallest_unique _ l (ev 0) hl (ascending_zero_isSmallest _ ev hs (by omega))
  have e2 := smallest_unique _ l' (ev' 0) hl' (ascending_zero_isSmallest _ ev' hs' (by omega))
  rw [e1, e2]
  exact heterostructure_chain hbar m_e hh hm W_A w hW hw ev hs (w' - w - 1).toNat w'
    (by omega) ev' hs'

/-- Every assembled matrix with at least one site has a smallest eigenvalue. -/
theorem exists_smallest_eigenvalue (p : Params ℝ) (kc : ℝ) (hN : 0 < (siteCount p).toNat) :
    ∃ l : ℝ, IsSmallestEigenvalue (Hmat p kc) l := by
  obtain ⟨ev, hs⟩ := exists_ascending_eigenvalues (Hmat p kc) (Hmat_symm _ _)
  exact ⟨ev 0, ascending_zero_isSmallest _ ev hs hN⟩

end Monotone

section Counterexample

theorem centerProfile_left (m : Int) (h : m ≤ 99) :
    (centerProfile m : ℝ) = ((m : ℝ) + 1) * (177 - (m : ℝ)) := by
  unfold centerProfile
  rw [if_pos h]

theorem centerProfile_mid : (centerProfile 100 : ℝ) = 7000 := by
  unfold centerProfile
  rw [if_neg (by omega), if_pos rfl]

theorem centerProfile_right (m : Int) (h : 101 ≤ m) :
    (centerProfile m : ℝ) = (201 - (m : ℝ)) * ((m : ℝ) - 23) := by
  unfold centerProfile
  rw [if_neg (by omega), if_neg (by omega)]

theorem centerProfile_pos (m : Int) (h0 : 0 ≤ m) (h1 : m ≤ 200) :
    0 < (centerProfile m : ℝ) := by
  have a0 : (0 : ℝ) ≤ (m : ℝ) := by exact_mod_cast h0
  have a1 : (m : ℝ) ≤ 200 := by exact_mod_cast h1
  rcases (show m ≤ 99 ∨ m = 100 ∨ 101 ≤ m by omega) with h | h | h
  · have a2 : (m : ℝ) ≤ 99 := by exact_mod_cast h
    rw [centerProfile_left m h]
    exact mul_pos (by linarith) (by linarith)
  · subst h
    rw [centerProfile_mid]
    norm_num
  · have a2 : (101 : ℝ) ≤ (m : ℝ) := by exact_mod_cast h
    rw [centerProfile_right m h]
    exact mul_pos (by linarith) (by linarith)

theorem extendZero_centerProfile {N : Nat} (hN : (N : Int) = 201) (m : Int) (h0 : -1 ≤ m)
    (h1 : m ≤ 201) :
    extendZero (fun n : Fin N => (centerProfile ((n : Nat) : Int) : ℝ)) m
      = centerProfile m := by
  by_cases h : 0 ≤ m ∧ m < (N : Int)
  · exact extendZero_fun N _ m h.1 h.2
  · rw [extendZero, dif_neg h]
    rcases (show m = -1 ∨ m = 201 by omega) with h2 | h2
    · subst h2
      rw [centerProfile_left (-1) (by omega)]
      norm_num
    · subst h2
      rw [centerProfile_right 201 (by omega)]
      norm_num


theorem heterostructure_diagonalValue (hbar m_e : ℝ) (W_A W_G : Int) (kc : ℝ) (c : SiteClass) :
    diagonalValue (heterostructure hbar m_e W_A W_G) kc c
      = diagonalValue (mainParams hbar m_e) kc c := by
  cases c <;> rfl

theorem single_site_siteClass (hbar m_e : ℝ) (n : Int) :
    siteClass (heterostructure hbar m_e 100 1) n
      = if n = 100 then SiteClass.boundary else SiteClass.AlGaAs := by
  unfold siteClass heterostructure
  simp only
  split_ifs <;> first | rfl | omega

theorem single_site_offDiagonalValue (hbar m_e : ℝ) (n : Int) :
    offDiagonalValue (heterostructure hbar m_e 100 1) n = -t_AlGaAs (mainParams hbar m_e) := by
  unfold offDiagonalValue bondIsAlGaAs heterostructure
  simp only [decide_eq_true_eq]
  split_ifs <;> first | rfl | omega

/-- With barriers of 100 sites and a single well site, every eigenvalue at `k = 0` is at least
`3/8 + t_AlGaAs/4000`, when `hbar² / m_e ≥ 3`. -/
theorem single_site_eigenvalue_ge (hbar m_e : ℝ) (hh : hbar ≠ 0) (hm : 0 < m_e)
    (hr : 3 * m_e ≤ hbar ^ 2) (lam : ℝ)
    (v : Fin (siteCount (heterostructure hbar m_e 100 1)).toNat → ℝ) (hv : v ≠ 0)
    (heig : (Hmat (heterostructure hbar m_e 100 1) 0).mulVec v = lam • v) :
    3 / 8 + t_AlGaAs (mainParams hbar m_e) / 4000 ≤ lam := by
  have hA := main_t_AlGaAs_pos hbar m_e hh hm
  have hG := main_t_GaAs_pos hbar m_e hh hm
  have hAe := mainParams_t_AlGaAs hbar m_e
  have hGe := mainParams_t_GaAs hbar m_e
  have hratio : 3 ≤ hbar ^ 2 / m_e := by
    rw [le_div_iff₀ hm]
    exact hr
  set tA := t_AlGaAs (mainParams hbar m_e) with htA
  set tG := t_GaAs (mainParams hbar m_e) with htG
  have hcenter : 1312.5 + 8601.75 * tA ≤ 7000 * tG := by
    rw [hAe, hGe]
    nlinarith
  have hoff : ∀ n : Int, offDiagonalValue (heterostructure hbar m_e 100 1) n ≤ 0 := by
    intro n
    rw [single_site_offDiagonalValue]
    linarith
  have hN : (((siteCount (heterostructure hbar m_e 100 1)).toNat : Nat) : Int) = 201 := rfl
  obtain ⟨n, hn⟩ := exists_row_le_of_eigenvector (Hmat (heterostructure hbar m_e 100 1) 0)
    (Hmat_offdiag_nonpos _ 0 hoff)
    (fun n => (centerProfile ((n : Nat) : Int) : ℝ))
    (fun n => centerProfile_pos _ (by omega) (by have := n.2; omega))
    lam v hv heig
  have hnN : ((n : Nat) : Int) ≤ 200 := by
    have := n.2
    omega
  have hn0 : (0 : Int) ≤ ((n : Nat) : Int) := by omega
  have hypos := centerProfile_pos ((n : Nat) : Int) hn0 hnN
  suffices h : (3 / 8 + tA / 4000) * (centerProfile ((n : Nat) : Int) : ℝ)
      ≤ (Hmat (heterostructure hbar m_e 100 1) 0).mulVec
        (fun n => (centerProfile ((n : Nat) : Int) : ℝ)) n by
    exact le_of_mul_le_mul_right (h.trans hn) hypos
  rw [Hmat_mulVec, extendZero_centerProfile hN _ (by omega) (by omega),
    extendZero_centerProfile hN _ (by omega) (by omega), single_site_siteClass,
    single_site_offDiagonalValue, single_site_offDiagonalValue, heterostructure_diagonalValue,
    ← htA]
  generalize ((n : Nat) : Int) = m at hnN hn0 hypos ⊢
  have hm1 : (((m - 1 : Int)) : ℝ) = (m : ℝ) - 1 := by push_cast; ring
  have hp1 : (((m + 1 : Int)) : ℝ) = (m : ℝ) + 1 := by push_cast; ring
  have a0 : (0 : ℝ) ≤ (m : ℝ) := by exact_mod_cast hn0
  have a1 : (m : ℝ) ≤ 200 := by exact_mod_cast hnN
  rcases (show m ≤ 98 ∨ m = 99 ∨ m = 100 ∨ m = 101 ∨ 102 ≤ m by omega) with h | h | h | h | h
  · rw [if_neg (by omega), main_diagonalValue_zero, ← htA, centerProfile_left m (by omega),
      centerProfile_left (m - 1) (by omega), centerProfile_left (m + 1) (by omega), hm1, hp1]
    simp only
    have hy : ((m : ℝ) + 1) * (177 - (m : ℝ)) ≤ 8000 := by nlinarith [sq_nonneg ((m : ℝ) - 88)]
    nlinarith
  · subst h
    rw [if_neg (by omega), main_diagonalValue_zero, ← htA, centerProfile_left 99 (by omega),
      centerProfile_left (99 - 1) (by omega), show (99 : Int) + 1 = 100 by rfl,
      centerProfile_mid]
    simp only
    push_cast
    nlinarith
  · subst h
    rw [if_pos rfl, main_diagonalValue_zero, ← htA, ← htG, centerProfile_mid,
      centerProfile_left (100 - 1) (by omega), centerProfile_right (100 + 1) (by omega)]
    simp only
    push_cast
    nlinarith
  · subst h
    rw [if_neg (by omega), main_diagonalValue_zero, ← htA, centerProfile_right 101 (by omega),
      show (101 : Int) - 1 = 100 by rfl, centerProfile_mid,
      centerProfile_right (101 + 1) (by omega)]
    simp only
    push_cast
    nlinarith
  · have a2 : (102 : ℝ) ≤ (m : ℝ) := by exact_mod_cast h
    rw [if_neg (by omega), main_diagonalValue_zero, ← htA, centerProfile_right m (by omega),
      centerProfile_right (m - 1) (by omega), centerProfile_right (m + 1) (by omega), hm1, hp1]
    simp only
    have hy : (201 - (m : ℝ)) * ((m : ℝ) - 23) ≤ 8000 := by
      nlinarith [sq_nonneg ((m : ℝ) - 112)]
    nlinarith


theorem no_well_siteClass (hbar m_e : ℝ) (n : Int) :
    siteClass (heterostructure hbar m_e 100 0) n = SiteClass.AlGaAs := by
  unfold siteClass heterostructure
  simp only
  split_ifs <;> first | rfl | omega

theorem no_well_offDiagonalValue (hbar m_e : ℝ) (n : Int) :
    offDiagonalValue (heterostructure hbar m_e 100 0) n = -t_AlGaAs (mainParams hbar m_e) := by
  unfold offDiagonalValue bondIsAlGaAs heterostructure
  simp only [decide_eq_true_eq]
  split_ifs <;> first | rfl | omega

/-- With barriers of 100 sites and no well site, the matrix at `k = 0` has an eigenvalue below
`3/8 + t_AlGaAs/4000`. -/
theorem no_well_eigenvalue_lt (hbar m_e : ℝ) (hh : hbar ≠ 0) (hm : 0 < m_e) :
    ∃ (lam : ℝ) (v : Fin (siteCount (heterostructure hbar m_e 100 0)).toNat → ℝ),
      v ≠ 0 ∧ (Hmat (heterostructure hbar m_e 100 0) 0).mulVec v = lam • v ∧
      lam < 3 / 8 + t_AlGaAs (mainParams hbar m_e) / 4000 := by
  have hA := main_t_AlGaAs_pos hbar m_e hh hm
  have hN : (siteCount (heterostructure hbar m_e 100 0)).toNat = 200 := rfl
  have heig := toeplitz_sin_eigen (heterostructure hbar m_e 100 0) 0 (3 / 8)
    (t_AlGaAs (mainParams hbar m_e))
    (fun n => by
      rw [no_well_siteClass, heterostructure_diagonalValue, main_diagonalValue_zero])
    (no_well_offDiagonalValue hbar m_e) 1
  refine ⟨_, _, sin_vector_ne_zero _ 1 le_rfl (by rw [hN]; norm_num), heig, ?_⟩
  rw [hN]
  push_cast
  set θ : ℝ := Real.pi * 1 / (200 + 1) with hθ
  have hcos := Real.one_sub_sq_div_two_le_cos (x := θ)
  have hpi := Real.pi_lt_d2
  have hpi0 := Real.pi_pos
  have hθ2 : θ ^ 2 < 1 / 4040 := by
    rw [hθ]
    have : Real.pi * 1 / (200 + 1) = Real.pi / 201 := by norm_num
    rw [this, div_pow]
    rw [div_lt_iff₀ (by norm_num)]
    have : Real.pi ^ 2 < 3.15 ^ 2 := by nlinarith
    norm_num at this ⊢
    linarith
  nlinarith

theorem hbarN_sq_ge : 3 * m_eN ℝ ≤ hbarN ℝ ^ 2 := by
  unfold hbarN m_eN
  norm_num

/-- With barriers of 100 sites the smallest eigenvalue at `k = 0` rises when the first well site
is inserted, when `hbar² / m_e ≥ 3`. -/
theorem ground_state_rises_at_first_well_site (hbar m_e : ℝ) (hh : hbar ≠ 0) (hm : 0 < m_e)
    (hr : 3 * m_e ≤ hbar ^ 2) (l l' : ℝ)
    (hl : IsSmallestEigenvalue (Hmat (heterostructure hbar m_e 100 0) 0) l)
    (hl' : IsSmallestEigenvalue (Hmat (heterostructure hbar m_e 100 1) 0) l') : l < l' := by
  obtain ⟨lam, v, hv, hMv, hlt⟩ := no_well_eigenvalue_lt hbar m_e hh hm
  obtain ⟨⟨v', hv', hMv'⟩, _⟩ := hl'
  have h1 := hl.2 lam v hv hMv
  have h2 := single_site_eigenvalue_ge hbar m_e hh hm hr l' v' hv' hMv'
  linarith

/-- C9 (as stated) fails at the physical constants, barrier width 100, well widths `w = 0` and
`w' = 1`: the smallest eigenvalue at `k = 0` does not decrease. -/
theorem C9_fails_from_zero_to_one_well_site :
    ¬ (∀ l l' : ℝ,
      IsSmallestEigenvalue (Hmat (heterostructure (hbarN ℝ) (m_eN ℝ) 100 0) 0) l →
      IsSmallestEigenvalue (Hmat (heterostructure (hbarN ℝ) (m_eN ℝ) 100 1) 0) l' →
      l' < l) := by
  intro h
  obtain ⟨l, hl⟩ := exists_smallest_eigenvalue (heterostructure (hbarN ℝ) (m_eN ℝ) 100 0) 0
    (by decide)
  obtain ⟨l', hl'⟩ := exists_smallest_eigenvalue (heterostructure (hbarN ℝ) (m_eN ℝ) 100 1) 0
    (by decide)
  have h1 := h l l' hl hl'
  have h2 := ground_state_rises_at_first_well_site (hbarN ℝ) (m_eN ℝ) hbarN_pos.ne' m_eN_pos
    hbarN_sq_ge l l' hl hl'
  linarith

end Counterexample

section Structure

variable {F : Type} [LinearOrderedField F]

theorem t_AlGaAs_pos_of (p : Params F) (hh : 0 < p.hbar) (ha : 0 < p.a) (hm : 0 < p.m_AlGaAs) :
    0 < t_AlGaAs p := by
  unfold t_AlGaAs
  positivity

theorem t_GaAs_pos_of (p : Params F) (hh : 0 < p.hbar) (ha : 0 < p.a) (hm : 0 < p.m_GaAs) :
    0 < t_GaAs p := by
  unfold t_GaAs
  positivity

/-- C12: the assembled matrix is an unreduced tridiagonal matrix: `H[i][j] = 0` whenever
`|i - j| > 1`, and for `hbar > 0`, `a > 0` and positive masses (as for `m_e > 0`) both entries
of every bond `n` in `[0, N-1)`, the entries with `|i - j| = 1`, are real and strictly
negative. -/
theorem C12_matrix_is_unreduced_tridiagonal (p : Params F) (kc : F) (hh : 0 < p.hbar)
    (ha : 0 < p.a) (hG : 0 < p.m_GaAs) (hA : 0 < p.m_AlGaAs) :
    (∀ i j : Int, 1 < |i - j| → H p kc i j = 0) ∧
    ∀ n : Int, 0 ≤ n → n < siteCount p - 1 →
      (H p kc (n + 1) n = ofReal (offDiagonalValue p n) ∧
        H p kc n (n + 1) = ofReal (offDiagonalValue p n) ∧
        offDiagonalValue p n < 0 ∧ (H p kc (n + 1) n).1 < 0 ∧ (H p kc n (n + 1)).1 < 0) := by
  have htA := t_AlGaAs_pos_of p hh ha hA
  have htG := t_GaAs_pos_of p hh ha hG
  have hneg : ∀ n : Int, offDiagonalValue p n < 0 := by
    intro n
    unfold offDiagonalValue
    split_ifs <;> linarith
  refine ⟨fun i j hij => ?_, fun n h0 h1 => ?_⟩
  · apply H_far
    · intro h
      rw [h, sub_self, abs_zero] at hij
      omega
    · intro h
      rw [h, add_sub_cancel_left, abs_one] at hij
      omega
    · intro h
      rw [h, sub_add_cancel_left, abs_neg, abs_one] at hij
      omega
  · refine ⟨H_lower p kc n h0 h1, H_upper p kc n h0 h1, hneg n, ?_, ?_⟩
    · rw [H_lower p kc n h0 h1]
      exact hneg n
    · rw [H_upper p kc n h0 h1]
      exact hneg n

/-- C12 at the run's configuration and the physical constants. -/
theorem C12_matrix_is_unreduced_tridiagonal_witness :
    H (mainParams (hbarN ℚ) (m_eN ℚ)) 0 0 5 = 0 ∧
      (H (mainParams (hbarN ℚ) (m_eN ℚ)) 0 (100 + 1) 100).1 < 0 ∧
      (H (mainParams (hbarN ℚ) (m_eN ℚ)) 0 100 (100 + 1)).1 < 0 := by
  have h := C12_matrix_is_unreduced_tridiagonal (mainParams (hbarN ℚ) (m_eN ℚ)) 0
    (by simp only [mainParams, hbarN]; norm_num) (by simp only [mainParams]; norm_num)
    (by simp only [mainParams, m_eN]; norm_num) (by simp only [mainParams, m_eN]; norm_num)
  have h2 := h.2 100 (by decide) (by rw [mainParams_siteCount]; decide)
  exact ⟨h.1 0 5 (by decide), h2.2.2.2.1, h2.2.2.2.2⟩

end Structure

section Mirror

theorem siteClass_mirror {F : Type} (p : Params F) (n : Int) :
    siteClass p (siteCount p - 1 - n) = siteClass p n := by
  unfold siteClass siteCount
  split_ifs <;> first | rfl | omega

variable {F : Type} [Field F]

theorem offDiagonalValue_mirror (p : Params F) (n : Int) :
    offDiagonalValue p (siteCount p - 2 - n) = offDiagonalValue p n := by
  unfold offDiagonalValue bondIsAlGaAs siteCount
  simp only [decide_eq_true_eq]
  split_ifs <;> first | rfl | omega

/-- C15: the assembled matrix is mirror-symmetric about its centre,
`H[i][j] = H[N-1-i][N-1-j]` for all `i`, `j` in `[0, N)` (and for all other integer indices,
where both sides are zero), for all widths and every `k`: the diagonal test `n ≥ W_A + W_G`
mirrors `n < W_A` for sites and the off-diagonal test `n ≥ W_A + W_G - 1` mirrors it for
bonds. -/
theorem C15_matrix_is_mirror_symmetric (p : Params F) (kc : F) (i j : Int) :
    H p kc i j = H p kc (siteCount p - 1 - i) (siteCount p - 1 - j) ∧
    (∀ n : Int, siteClass p (siteCount p - 1 - n) = siteClass p n) ∧
    (∀ n : Int, bondIsAlGaAs p (siteCount p - 2 - n) = bondIsAlGaAs p n) := by
  refine ⟨?_, siteClass_mirror p, fun n => ?_⟩
  · rw [H_eq, H_eq p kc (siteCount p - 1 - i) (siteCount p - 1 - j)]
    simp only [conj_ofReal]
    have t1 : (if i = j ∧ 0 ≤ i ∧ i < siteCount p then
          ofReal (diagonalValue p kc (siteClass p i)) else 0)
        = (if siteCount p - 1 - i = siteCount p - 1 - j ∧ 0 ≤ siteCount p - 1 - i
            ∧ siteCount p - 1 - i < siteCount p then
          ofReal (diagonalValue p kc (siteClass p (siteCount p - 1 - i))) else 0) := by
      by_cases h : i = j ∧ 0 ≤ i ∧ i < siteCount p
      · have h' : siteCount p - 1 - i = siteCount p - 1 - j ∧ 0 ≤ siteCount p - 1 - i
            ∧ siteCount p - 1 - i < siteCount p := by omega
        rw [if_pos h, if_pos h', siteClass_mirror]
      · have h' : ¬ (siteCount p - 1 - i = siteCount p - 1 - j ∧ 0 ≤ siteCount p - 1 - i
            ∧ siteCount p - 1 - i < siteCount p) := by omega
        rw [if_neg h, if_neg h']
    have t2 : (if i = j + 1 ∧ 0 ≤ j ∧ j < siteCount p - 1 then
          ofReal (offDiagonalValue p j) else 0)
        = (if siteCount p - 1 - j = siteCount p - 1 - i + 1 ∧ 0 ≤ siteCount p - 1 - i
            ∧ siteCount p - 1 - i < siteCount p - 1 then
          ofReal (offDiagonalValue p (siteCount p - 1 - i)) else 0) := by
      by_cases h : i = j + 1 ∧ 0 ≤ j ∧ j < siteCount p - 1
      · have h' : siteCount p - 1 - j = siteCount p - 1 - i + 1 ∧ 0 ≤ siteCount p - 1 - i
            ∧ siteCount p - 1 - i < siteCount p - 1 := by omega
        have e : siteCount p - 1 - i = siteCount p - 2 - j := by omega
        rw [if_pos h, if_pos h', e, offDiagonalValue_mirror]
      · have h' : ¬ (siteCount p - 1 - j = siteCount p - 1 - i + 1 ∧ 0 ≤ siteCount p - 1 - i
            ∧ siteCount p - 1 - i < siteCount p - 1) := by omega
        rw [if_neg h, if_neg h']
    have t3 : (if j = i + 1 ∧ 0 ≤ i ∧ i < siteCount p - 1 then
          ofReal (offDiagonalValue p i) else 0)
        = (if siteCount p - 1 - i = siteCount p - 1 - j + 1 ∧ 0 ≤ siteCount p - 1 - j
            ∧ siteCount p - 1 - j < siteCount p - 1 then
          ofReal (offDiagonalValue p (siteCount p - 1 - j)) else 0) := by
      by_cases h : j = i + 1 ∧ 0 ≤ i ∧ i < siteCount p - 1
      · have h' : siteCount p - 1 - i = siteCount p - 1 - j + 1 ∧ 0 ≤ siteCount p - 1 - j
            ∧ siteCount p - 1 - j < siteCount p - 1 := by omega
        have e : siteCount p - 1 - j = siteCount p - 2 - i := by omega
        rw [if_pos h, if_pos h', e, offDiagonalValue_mirror]
      · have h' : ¬ (siteCount p - 1 - i = siteCount p - 1 - j + 1 ∧ 0 ≤ siteCount p - 1 - j
            ∧ siteCount p - 1 - j < siteCount p - 1) := by omega
        rw [if_neg h, if_neg h']
    rw [t1, t2, t3, add_comm (ite _ _ _) (ite _ _ _)]
  · unfold bondIsAlGaAs siteCount
    rw [decide_eq_decide]
    omega

end Mirror

section Kinetic

variable {F : Type} [Field F]

theorem ofReal_sub (x y : F) : ofReal x - ofReal y = ofReal (x - y) := by
  simp [ofReal]

theorem ofReal_add (x y : F) : ofReal x + ofReal y = ofReal (x + y) := by
  simp [ofReal]

theorem ofReal_neg (x : F) : -ofReal x = ofReal (-x) := by
  simp [ofReal]

/-- The kinetic part of a diagonal entry at `k = 0` against the two hopping amplitudes next to
it, for a well of at least two sites. -/
theorem kinetic_balance (p : Params F) (hG : 2 ≤ p.width_GaAs) (n : Int) :
    diagonalValue p 0 (siteClass p n) - offsetEnergy p (siteClass p n)
      = -(offDiagonalValue p (n - 1) + offDiagonalValue p n) := by
  unfold siteClass offDiagonalValue bondIsAlGaAs
  simp only [decide_eq_true_eq]
  split_ifs <;> simp only [diagonalValue, offsetEnergy] <;> first | omega | ring

/-- C16: for `W_G ≥ 2` (and every `W_A`, in particular `W_A ≥ 0`), at `k = 0`, at every site `n` with `0 < n < N - 1` the
diagonal entry minus the offset energy of the site equals the sum of the two hopping magnitudes
attached to it, `H[n][n] - E(n) = -(H[n][n-1] + H[n][n+1])`; for `W_A ≥ 1`, at the two end sites
`n = 0` and `n = N - 1` it exceeds the single attached hopping magnitude by exactly
`t_AlGaAs`. -/
theorem C16_kinetic_part_balances_hoppings (p : Params F) (hG : 2 ≤ p.width_GaAs) :
    (∀ n : Int, 0 < n → n < siteCount p - 1 →
      H p 0 n n - ofReal (offsetEnergy p (siteClass p n))
        = -(H p 0 n (n - 1) + H p 0 n (n + 1))) ∧
    (1 ≤ p.width_AlGaAs →
      H p 0 0 0 - ofReal (offsetEnergy p (siteClass p 0))
          = -(H p 0 0 1) + ofReal (t_AlGaAs p) ∧
        H p 0 (siteCount p - 1) (siteCount p - 1)
            - ofReal (offsetEnergy p (siteClass p (siteCount p - 1)))
          = -(H p 0 (siteCount p - 1) (siteCount p - 2)) + ofReal (t_AlGaAs p)) := by
  have hN : siteCount p = 2 * p.width_AlGaAs + p.width_GaAs := rfl
  refine ⟨fun n h0 h1 => ?_, fun hA1 => ⟨?_, ?_⟩⟩
  · have hl : H p 0 n (n - 1) = ofReal (offDiagonalValue p (n - 1)) := by
      have := H_lower p 0 (n - 1) (by omega) (by omega)
      rwa [sub_add_cancel] at this
    rw [H_diag p 0 n (by omega) (by omega), hl, H_upper p 0 n (by omega) h1, ofReal_sub,
      ofReal_add, ofReal_neg, kinetic_balance p hG]
  · have hu : H p 0 0 1 = ofReal (offDiagonalValue p 0) := by
      have := H_upper p 0 0 le_rfl (by omega)
      rwa [zero_add] at this
    rw [H_diag p 0 0 le_rfl (by omega), hu, ofReal_sub, ofReal_neg, ofReal_add]
    congr 1
    unfold siteClass offDiagonalValue bondIsAlGaAs
    simp only [decide_eq_true_eq]
    split_ifs <;> simp only [diagonalValue, offsetEnergy] <;> first | omega | ring
  · have hl : H p 0 (siteCount p - 1) (siteCount p - 2)
        = ofReal (offDiagonalValue p (siteCount p - 2)) := by
      have := H_lower p 0 (siteCount p - 2) (by omega) (by omega)
      rwa [show siteCount p - 2 + 1 = siteCount p - 1 by ring] at this
    rw [H_diag p 0 _ (by omega) (by omega), hl, ofReal_sub, ofReal_neg, ofReal_add]
    congr 1
    unfold siteClass offDiagonalValue bondIsAlGaAs
    simp only [decide_eq_true_eq]
    split_ifs <;> simp only [diagonalValue, offsetEnergy] <;> first | omega | ring

/-- C16 at the run's configuration and the physical constants: the first well site and the
first site. -/
theorem C16_kinetic_part_balances_hoppings_witness :
    H (mainParams (hbarN ℚ) (m_eN ℚ)) 0 100 100
        - ofReal (offsetEnergy (mainParams (hbarN ℚ) (m_eN ℚ))
            (siteClass (mainParams (hbarN ℚ) (m_eN ℚ)) 100))
      = -(H (mainParams (hbarN ℚ) (m_eN ℚ)) 0 100 (100 - 1)
          + H (mainParams (hbarN ℚ) (m_eN ℚ)) 0 100 (100 + 1)) ∧
    H (mainParams (hbarN ℚ) (m_eN ℚ)) 0 0 0
        - ofReal (offsetEnergy (mainParams (hbarN ℚ) (m_eN ℚ))
            (siteClass (mainParams (hbarN ℚ) (m_eN ℚ)) 0))
      = -(H (mainParams (hbarN ℚ) (m_eN ℚ)) 0 0 1)
        + ofReal (t_AlGaAs (mainParams (hbarN ℚ) (m_eN ℚ))) := by
  have h := C16_kinetic_part_balances_hoppings (mainParams (hbarN ℚ) (m_eN ℚ))
    (by rw [mainParams_width_GaAs]; decide)
  exact ⟨h.1 100 (by decide) (by rw [mainParams_siteCount]; decide),
    (h.2 (by rw [mainParams_width_AlGaAs]; decide)).1⟩

end Kinetic

section Classification

theorem siteClass_eq_AlGaAs_iff {F : Type} (p : Params F) (n : Int) :
    siteClass p n = SiteClass.AlGaAs
      ↔ (n < p.width_AlGaAs ∨ n ≥ p.width_AlGaAs + p.width_GaAs) := by
  unfold siteClass
  split_ifs with h1 h2
  · exact ⟨fun _ => h1, fun _ => rfl⟩
  · exact ⟨fun h => (by cases h), fun h => absurd h h1⟩
  · exact ⟨fun h => (by cases h), fun h => absurd h h1⟩

theorem siteClass_eq_GaAs_iff {F : Type} (p : Params F) (n : Int) :
    siteClass p n = SiteClass.GaAs
      ↔ (p.width_AlGaAs < n ∧ n < p.width_AlGaAs + p.width_GaAs - 1) := by
  unfold siteClass
  split_ifs with h1 h2
  · exact ⟨fun h => (by cases h), fun h => by omega⟩
  · exact ⟨fun h => (by cases h), fun h => by omega⟩
  · exact ⟨fun _ => (by omega), fun _ => rfl⟩

theorem siteClass_eq_boundary_iff {F : Type} (p : Params F) (hG : 1 ≤ p.width_GaAs) (n : Int) :
    siteClass p n = SiteClass.boundary
      ↔ (n = p.width_AlGaAs ∨ n = p.width_AlGaAs + p.width_GaAs - 1) := by
  unfold siteClass
  split_ifs with h1 h2
  · exact ⟨fun h => (by cases h), fun h => by omega⟩
  · exact ⟨fun _ => h2, fun _ => rfl⟩
  · exact ⟨fun h => (by cases h), fun h => absurd h h2⟩

theorem classCount_boundary {F : Type} (p : Params F) (hA : 0 ≤ p.width_AlGaAs)
    (hG : 2 ≤ p.width_GaAs) : classCount p SiteClass.boundary = 2 := by
  unfold classCount
  have hN : siteCount p = 2 * p.width_AlGaAs + p.width_GaAs := rfl
  have hset : (Finset.range (siteCount p).toNat).filter
      (fun n : Nat => siteClass p (n : Int) = SiteClass.boundary)
      = {p.width_AlGaAs.toNat, (p.width_AlGaAs + p.width_GaAs - 1).toNat} := by
    ext n
    simp only [Finset.mem_filter, Finset.mem_range, Finset.mem_insert, Finset.mem_singleton,
      siteClass_eq_boundary_iff p (by omega)]
    omega
  rw [hset, Finset.card_pair (by omega)]

theorem classCount_GaAs {F : Type} (p : Params F) (hA : 0 ≤ p.width_AlGaAs)
    (hG : 1 ≤ p.width_GaAs) :
    (classCount p SiteClass.GaAs : Int) = p.width_GaAs - 2 + (if p.width_GaAs = 1 then 1 else 0)
      := by
  unfold classCount
  have hN : siteCount p = 2 * p.width_AlGaAs + p.width_GaAs := rfl
  have hset : (Finset.range (siteCount p).toNat).filter
      (fun n : Nat => siteClass p (n : Int) = SiteClass.GaAs)
      = Finset.Ioo p.width_AlGaAs.toNat (p.width_AlGaAs + p.width_GaAs - 1).toNat := by
    ext n
    simp only [Finset.mem_filter, Finset.mem_range, Finset.mem_Ioo, siteClass_eq_GaAs_iff]
    omega
  rw [hset, Nat.card_Ioo]
  split_ifs <;> omega

theorem classCount_AlGaAs {F : Type} (p : Params F) (hA : 0 ≤ p.width_AlGaAs)
    (hG : 0 ≤ p.width_GaAs) : (classCount p SiteClass.AlGaAs : Int) = 2 * p.width_AlGaAs := by
  unfold classCount
  have hN : siteCount p = 2 * p.width_AlGaAs + p.width_GaAs := rfl
  have hset : (Finset.range (siteCount p).toNat).filter
      (fun n : Nat => siteClass p (n : Int) = SiteClass.AlGaAs)
      = Finset.range p.width_AlGaAs.toNat
        ∪ Finset.Ico (p.width_AlGaAs + p.width_GaAs).toNat (siteCount p).toNat := by
    ext n
    simp only [Finset.mem_filter, Finset.mem_range, Finset.mem_union, Finset.mem_Ico,
      siteClass_eq_AlGaAs_iff]
    omega
  have hdis : Disjoint (Finset.range p.width_AlGaAs.toNat)
      (Finset.Ico (p.width_AlGaAs + p.width_GaAs).toNat (siteCount p).toNat) := by
    rw [Finset.disjoint_left]
    intro n h1 h2
    simp only [Finset.mem_range, Finset.mem_Ico] at h1 h2
    omega
  rw [hset, Finset.card_union_of_disjoint hdis, Finset.card_range, Nat.card_Ico]
  omega

theorem classCount_boundary_one {F : Type} (p : Params F) (hA : 0 ≤ p.width_AlGaAs)
    (hG : p.width_GaAs = 1) : classCount p SiteClass.boundary = 1 := by
  unfold classCount
  have hN : siteCount p = 2 * p.width_AlGaAs + p.width_GaAs := rfl
  have hset : (Finset.range (siteCount p).toNat).filter
      (fun n : Nat => siteClass p (n : Int) = SiteClass.boundary)
      = {p.width_AlGaAs.toNat} := by
    ext n
    simp only [Finset.mem_filter, Finset.mem_range, Finset.mem_singleton,
      siteClass_eq_boundary_iff p (by omega)]
    omega
  rw [hset, Finset.card_singleton]

/-- C13: the three-way branch of the diagonal loop puts every site in exactly one class
(`siteClass` is a function): barrier iff `n < W_A ∨ n ≥ W_A + W_G`, interior well iff
`W_A < n < W_A + W_G - 1`, boundary otherwise. For `W_A ≥ 0` and `W_G ≥ 2` the boundary sites
are `n = W_A` and `n = W_A + W_G - 1` and the classes have `2·W_A`, `2` and `W_G - 2` sites in
`[0, N)`, each boundary site next to a barrier site when `W_A ≥ 1`; for `W_G = 1` the single
boundary site is `n = W_A`; for `W_G = 0` every site is a barrier site; the run has
`200 / 2 / 21`. -/
theorem C13_site_classification_sizes {F : Type} [LinearOrderedField F] [FloorRing F]
    (p : Params F) (hA : 0 ≤ p.width_AlGaAs) (hbar m_e : F) :
    (∀ n : Int, siteClass p n = SiteClass.AlGaAs
      ↔ (n < p.width_AlGaAs ∨ n ≥ p.width_AlGaAs + p.width_GaAs)) ∧
    (∀ n : Int, siteClass p n = SiteClass.GaAs
      ↔ (p.width_AlGaAs < n ∧ n < p.width_AlGaAs + p.width_GaAs - 1)) ∧
    (2 ≤ p.width_GaAs →
      (∀ n : Int, siteClass p n = SiteClass.boundary
        ↔ (n = p.width_AlGaAs ∨ n = p.width_AlGaAs + p.width_GaAs - 1)) ∧
      (classCount p SiteClass.AlGaAs : Int) = 2 * p.width_AlGaAs ∧
      classCount p SiteClass.boundary = 2 ∧
      (classCount p SiteClass.GaAs : Int) = p.width_GaAs - 2 ∧
      (1 ≤ p.width_AlGaAs →
        siteClass p (p.width_AlGaAs - 1) = SiteClass.AlGaAs ∧
        siteClass p (p.width_AlGaAs + p.width_GaAs) = SiteClass.AlGaAs)) ∧
    (p.width_GaAs = 1 →
      (∀ n : Int, siteClass p n = SiteClass.boundary ↔ n = p.width_AlGaAs) ∧
      (classCount p SiteClass.AlGaAs : Int) = 2 * p.width_AlGaAs ∧
      classCount p SiteClass.boundary = 1 ∧
      classCount p SiteClass.GaAs = 0) ∧
    (p.width_GaAs = 0 → ∀ n : Int, siteClass p n = SiteClass.AlGaAs) ∧
    (classCount (mainParams hbar m_e) SiteClass.AlGaAs = 200 ∧
      classCount (mainParams hbar m_e) SiteClass.boundary = 2 ∧
      classCount (mainParams hbar m_e) SiteClass.GaAs = 21) := by
  refine ⟨siteClass_eq_AlGaAs_iff p, siteClass_eq_GaAs_iff p, fun hG => ?_, fun hG => ?_,
    fun hG n => ?_, ?_⟩
  · refine ⟨siteClass_eq_boundary_iff p (by omega), classCount_AlGaAs p hA (by omega),
      classCount_boundary p hA hG, ?_, fun hA1 => ⟨?_, ?_⟩⟩
    · rw [classCount_GaAs p hA (by omega), if_neg (by omega), add_zero]
    · rw [siteClass_eq_AlGaAs_iff]
      omega
    · rw [siteClass_eq_AlGaAs_iff]
      omega
  · refine ⟨fun n => ?_, classCount_AlGaAs p hA (by omega), classCount_boundary_one p hA hG, ?_⟩
    · rw [siteClass_eq_boundary_iff p (by omega)]
      omega
    · have h := classCount_GaAs p hA (by omega)
      rw [if_pos hG, hG] at h
      omega
  · rw [siteClass_eq_AlGaAs_iff]
    omega
  · have hWA := mainParams_width_AlGaAs hbar m_e
    have hWG := mainParams_width_GaAs hbar m_e
    have h1 := classCount_AlGaAs (mainParams hbar m_e) (by omega) (by omega)
    have h2 := classCount_boundary (mainParams hbar m_e) (by omega) (by omega)
    have h3 := classCount_GaAs (mainParams hbar m_e) (by omega) (by omega)
    rw [if_neg (by omega)] at h3
    refine ⟨by omega, h2, by omega⟩

/-- C13 for barriers of two sites around a well of three sites. -/
theorem C13_site_classification_sizes_witness :
    (classCount (heterostructure (1 : ℚ) 1 2 3) SiteClass.AlGaAs : Int) = 2 * 2 ∧
      classCount (heterostructure (1 : ℚ) 1 2 3) SiteClass.boundary = 2 ∧
      (classCount (heterostructure (1 : ℚ) 1 2 3) SiteClass.GaAs : Int) = 3 - 2 := by
  have h := (C13_site_classification_sizes (heterostructure (1 : ℚ) 1 2 3) (by decide)
    1 1).2.2.1 (by decide)
  exact ⟨h.2.1, h.2.2.1, h.2.2.2.1⟩

end Classification

section PositiveDefinite

theorem dotProduct_self_pos {N : Nat} (x : Fin N → ℝ) (hx : x ≠ 0) :
    0 < Matrix.dotProduct x x := by
  have h2 : 0 ≤ Matrix.dotProduct x x := by
    unfold Matrix.dotProduct
    exact Finset.sum_nonneg (fun i _ => mul_self_nonneg _)
  exact lt_of_le_of_ne h2 (fun h => hx (Matrix.dotProduct_self_eq_zero.1 h.symm))

theorem quadratic_form_double_sum {N : Nat} (M : Matrix (Fin N) (Fin N) ℝ) (x : Fin N → ℝ) :
    ∑ i, ∑ j, x i * M i j * x j = Matrix.dotProduct x (M.mulVec x) := by
  simp only [Matrix.dotProduct, Matrix.mulVec, Finset.mul_sum]
  apply Finset.sum_congr rfl
  intro i _
  apply Finset.sum_congr rfl
  intro j _
  ring

/-- C14: with the material parameters of `main`, `hbar ≠ 0` and `m_e > 0`, for all widths with
`N ≥ 1` (in particular `W_A ≥ 0`, `W_G ≥ 0`) and every real `k` the assembled matrix is positive
definite: the quadratic form `∑ x_i·H[i][j]·x_j` is strictly positive at every non-zero real
vector, and every eigenvalue is strictly positive. -/
theorem C14_matrix_is_positive_definite (hbar m_e : ℝ) (hh : hbar ≠ 0) (hm : 0 < m_e)
    (W_A W_G : Int) (hN : 1 ≤ siteCount (heterostructure hbar m_e W_A W_G)) (kc : ℝ) :
    (∀ x : Fin (siteCount (heterostructure hbar m_e W_A W_G)).toNat → ℝ, x ≠ 0 →
      0 < ∑ i, ∑ j, x i * Hmat (heterostructure hbar m_e W_A W_G) kc i j * x j) ∧
    (∀ (μ : ℝ) (v : Fin (siteCount (heterostructure hbar m_e W_A W_G)).toNat → ℝ), v ≠ 0 →
      (Hmat (heterostructure hbar m_e W_A W_G) kc).mulVec v = μ • v → 0 < μ) := by
  have ht := heterostructure_t_pos hbar m_e hh hm W_A W_G
  obtain ⟨ev, hs⟩ := exists_ascending_eigenvalues
    (Hmat (heterostructure hbar m_e W_A W_G) kc) (Hmat_symm _ _)
  have hev : 0 < ev 0 :=
    smallest_eigenvalue_pos (heterostructure hbar m_e W_A W_G) kc (le_of_eq rfl)
      (by rw [heterostructure_E_AlGaAs]; norm_num) ht.1 ht.2.le
      (tp_AlGaAs_nonneg _ ht.1) (tp_GaAs_nonneg _ (ht.1.trans ht.2)) ev hs (by omega)
  have hpd : ∀ x : Fin (siteCount (heterostructure hbar m_e W_A W_G)).toNat → ℝ, x ≠ 0 →
      0 < Matrix.dotProduct x ((Hmat (heterostructure hbar m_e W_A W_G) kc).mulVec x) := by
    intro x hx
    have h1 := lowest_le_quadratic_form _ ev hs x
    have h2 := mul_pos hev (dotProduct_self_pos x hx)
    linarith
  refine ⟨fun x hx => ?_, fun μ v hv hμ => ?_⟩
  · rw [quadratic_form_double_sum]
    exact hpd x hx
  · have h1 := hpd v hv
    rw [hμ, Matrix.dotProduct_smul, smul_eq_mul] at h1
    have h2 := dotProduct_self_pos v hv
    by_contra hcon
    have := mul_nonpos_of_nonpos_of_nonneg (not_lt.1 hcon) h2.le
    linarith

/-- C14 at the physical constants, the run's widths and the last sample `k[99]`, for the vector
with every component `1`. -/
theorem C14_matrix_is_positive_definite_witness :
    hbarN ℝ ≠ 0 ∧ 0 < m_eN ℝ ∧
      1 ≤ siteCount (heterostructure (hbarN ℝ) (m_eN ℝ) 100 23) ∧
      0 < ∑ i, ∑ j, (1 : ℝ) * Hmat (heterostructure (hbarN ℝ) (m_eN ℝ) 100 23) (k 99) i j
        * (1 : ℝ) :=
  ⟨hbarN_pos.ne', m_eN_pos, by decide,
    (C14_matrix_is_positive_definite (hbarN ℝ) (m_eN ℝ) hbarN_pos.ne' m_eN_pos 100 23
      (by decide) (k 99)).1 (fun _ => (1 : ℝ))
      (fun h => one_ne_zero (congrFun h ⟨0, by decide⟩))⟩

end PositiveDefinite

section NegativeWidth

theorem length_foldl_append {α β : Type} (g : β → List α) (c : Nat)
    (hg : ∀ b, (g b).length = c) (l : List β) (init : List α) :
    (l.foldl (fun s n => s ++ g n) init).length = init.length + c * l.length := by
  induction l generalizing init with
  | nil => simp
  | cons x xs ih =>
    simp only [List.foldl_cons, List.length_cons]
    rw [ih, List.length_append, hg]
    ring

variable {F : Type} [Field F]

/-- The number of hopping amplitudes streamed into the model: one per site and two per
bond. -/
theorem buildModel_length (p : Params F) (kc : F) :
    (buildModel p kc).length = (siteCount p).toNat + 2 * (siteCount p - 1).toNat := by
  have h := congrArg List.length (buildModel_indices p kc)
  rw [List.length_map] at h
  rw [h, length_foldl_append (fun n : Nat => [((n : Int) + 1, (n : Int)), ((n : Int), (n : Int) + 1)])
      2 (fun _ => rfl),
    length_foldl_append (fun n : Nat => [((n : Int), (n : Int))]) 1 (fun _ => rfl)]
  simp

theorem truncToInt_69_div_neg_3 {F : Type} [LinearOrderedField F] [FloorRing F] :
    truncToInt ((69 : F) / (-3)) = -23 := by
  have h : ((69 : F) / (-3)) = ((-23 : Int) : F) := by norm_num
  unfold truncToInt
  rw [h, if_neg (by norm_num), Int.ceil_intCast]

/-- C11 (amended): when the well site count is negative the code raises no error and the build
ends with the assembled model, the negative width used as is: every site takes the AlGaAs
branch of the diagonal loop and every bond the AlGaAs branch of the off-diagonal loop, the
model holds one amplitude per site and two per bond of a rod of `2·W_A + W_G` sites, and it is
empty when `2·W_A + W_G ≤ 0`. -/
theorem C11_negative_width_builds_uniform_rod (p : Params F) (kc : F)
    (hneg : p.width_GaAs < 0) :
    build p kc = BuildOutcome.assembled (buildModel p kc) ∧
    (∀ n : Int, siteClass p n = SiteClass.AlGaAs) ∧
    (∀ n : Int, bondIsAlGaAs p n = true) ∧
    (∀ n : Int, 0 ≤ n → n < siteCount p →
      H p kc n n = ofReal (p.E_AlGaAs + 2 * t_AlGaAs p + tp_AlGaAs p * kc ^ 2)) ∧
    (∀ n : Int, 0 ≤ n → n < siteCount p - 1 →
      H p kc (n + 1) n = ofReal (-t_AlGaAs p) ∧ H p kc n (n + 1) = ofReal (-t_AlGaAs p)) ∧
    (buildModel p kc).length = (siteCount p).toNat + 2 * (siteCount p - 1).toNat ∧
    (siteCount p ≤ 0 → buildModel p kc = []) := by
  have hc : ∀ n : Int, siteClass p n = SiteClass.AlGaAs := by
    intro n
    rw [siteClass_eq_AlGaAs_iff]
    omega
  have hb : ∀ n : Int, bondIsAlGaAs p n = true := by
    intro n
    unfold bondIsAlGaAs
    rw [decide_eq_true_eq]
    omega
  have ho : ∀ n : Int, offDiagonalValue p n = -t_AlGaAs p := by
    intro n
    unfold offDiagonalValue
    rw [if_pos (hb n)]
  refine ⟨rfl, hc, hb, fun n h0 h1 => ?_, fun n h0 h1 => ⟨?_, ?_⟩, buildModel_length p kc,
    fun hN => ?_⟩
  · rw [H_diag p kc n h0 h1, hc]
    rfl
  · rw [H_lower p kc n h0 h1, ho]
  · rw [H_upper p kc n h0 h1, ho]
  · apply List.eq_nil_of_length_eq_zero
    rw [buildModel_length]
    omega

/-- C11 (amended) with the lattice spacing `a = -3`: the well site count is `-23`, the build
assembles the model of a rod of `177` sites. -/
theorem C11_negative_width_builds_uniform_rod_witness :
    (mainParamsAt (-3 : ℚ) (hbarN ℚ) (m_eN ℚ)).width_GaAs = -23 ∧
      build (mainParamsAt (-3 : ℚ) (hbarN ℚ) (m_eN ℚ)) 0
        = BuildOutcome.assembled (buildModel (mainParamsAt (-3 : ℚ) (hbarN ℚ) (m_eN ℚ)) 0) ∧
      ∀ n : Int, siteClass (mainParamsAt (-3 : ℚ) (hbarN ℚ) (m_eN ℚ)) n = SiteClass.AlGaAs := by
  have hw : (mainParamsAt (-3 : ℚ) (hbarN ℚ) (m_eN ℚ)).width_GaAs = -23 :=
    truncToInt_69_div_neg_3
  have h := C11_negative_width_builds_uniform_rod (mainParamsAt (-3 : ℚ) (hbarN ℚ) (m_eN ℚ)) 0
    (by rw [hw]; decide)
  exact ⟨hw, h.1, h.2.1⟩

/-- C11 (as stated) fails with the lattice spacing `a = -3`: the well site count `69/a` is
`-23 < 0`, yet the build does not end with a `ConfigurationError`; it assembles a model of
`177 + 2·176` hopping amplitudes. -/
theorem C11_no_configuration_error_on_negative_width :
    (mainParamsAt (-3 : ℚ) (hbarN ℚ) (m_eN ℚ)).width_GaAs < 0 ∧
      build (mainParamsAt (-3 : ℚ) (hbarN ℚ) (m_eN ℚ)) 0 ≠ BuildOutcome.configurationError ∧
      (buildModel (mainParamsAt (-3 : ℚ) (hbarN ℚ) (m_eN ℚ)) 0).length = 177 + 2 * 176 := by
  have hw : (mainParamsAt (-3 : ℚ) (hbarN ℚ) (m_eN ℚ)).width_GaAs = -23 :=
    truncToInt_69_div_neg_3
  have hN : siteCount (mainParamsAt (-3 : ℚ) (hbarN ℚ) (m_eN ℚ)) = 177 := by
    unfold siteCount
    rw [hw]
    rfl
  refine ⟨by rw [hw]; decide, ?_, ?_⟩
  · intro h
    cases h
  · rw [buildModel_length, hN]
    rfl

end NegativeWidth

section FirstWellSites

/-- A vector given by a function that vanishes outside the rod is continued by that function. -/
theorem extendZero_support (N : Nat) (f : Int → ℝ)
    (hf : ∀ m : Int, m < 0 ∨ (N : Int) ≤ m → f m = 0) (m : Int) :
    extendZero (fun n : Fin N => f ((n : Nat) : Int)) m = f m := by
  by_cases h : 0 ≤ m ∧ m < (N : Int)
  · exact extendZero_fun N f m h.1 h.2
  · rw [extendZero, dif_neg h, hf m (by omega)]

/-- The quadratic form of `H - lam` at a vector that vanishes outside the rod, row by row. -/
theorem residual_form (q : Params ℝ) (kc lam : ℝ) (f : Int → ℝ)
    (hf : ∀ m : Int, m < 0 ∨ (((siteCount q).toNat : Nat) : Int) ≤ m → f m = 0) :
    Matrix.dotProduct (fun n : Fin (siteCount q).toNat => f ((n : Nat) : Int))
        ((Hmat q kc).mulVec (fun n : Fin (siteCount q).toNat => f ((n : Nat) : Int)))
      - lam * Matrix.dotProduct (fun n : Fin (siteCount q).toNat => f ((n : Nat) : Int))
        (fun n : Fin (siteCount q).toNat => f ((n : Nat) : Int))
      = ∑ n : Fin (siteCount q).toNat, f ((n : Nat) : Int) *
          (diagonalValue q kc (siteClass q ((n : Nat) : Int)) * f ((n : Nat) : Int)
            + (offDiagonalValue q (((n : Nat) : Int) - 1) * f (((n : Nat) : Int) - 1)
              + offDiagonalValue q ((n : Nat) : Int) * f (((n : Nat) : Int) + 1))
            - lam * f ((n : Nat) : Int)) := by
  simp only [Matrix.dotProduct]
  rw [Finset.mul_sum, ← Finset.sum_sub_distrib]
  apply Finset.sum_congr rfl
  intro n _
  rw [Hmat_mulVec, extendZero_support _ f hf, extendZero_support _ f hf]
  ring

/-- A vector whose quadratic form lies below `lam` times its square norm shows that the
smallest eigenvalue lies below `lam`. -/
theorem lowest_lt_of_quadratic_form_lt {N : Nat} (M : Matrix (Fin N) (Fin N) ℝ) (ev : Nat → ℝ)
    (hs : IsAscendingEigenvalues M ev) (ξ : Fin N → ℝ) (lam : ℝ)
    (h : Matrix.dotProduct ξ (M.mulVec ξ) - lam * Matrix.dotProduct ξ ξ < 0) : ev 0 < lam := by
  have hlow := lowest_le_quadratic_form M ev hs ξ
  have h2 : 0 ≤ Matrix.dotProduct ξ ξ := by
    unfold Matrix.dotProduct
    exact Finset.sum_nonneg (fun i _ => mul_self_nonneg _)
  have hpos : 0 < Matrix.dotProduct ξ ξ := by
    refine lt_of_le_of_ne h2 (fun h0 => ?_)
    have hz0 := Matrix.dotProduct_self_eq_zero.1 h0.symm
    rw [hz0] at h
    simp at h
  have : ev 0 * Matrix.dotProduct ξ ξ < lam * Matrix.dotProduct ξ ξ := by linarith
  exact lt_of_mul_lt_mul_right this hpos.le

theorem sum_fin_single (N : Nat) (k : Int) (h0 : 0 ≤ k) (h1 : k < (N : Int)) (A : ℝ) :
    ∑ n : Fin N, (if ((n : Nat) : Int) = k then A else 0) = A := by
  rw [Finset.sum_eq_single (⟨k.toNat, by omega⟩ : Fin N)]
  · rw [if_pos (by simp only; omega)]
  · intro b _ hb
    rw [if_neg]
    intro h
    apply hb
    apply Fin.ext
    simp only
    omega
  · intro h
    exact absurd (Finset.mem_univ _) h

theorem triplicateSite_le (W : Int) (Z : Int → ℝ) (m : Int) (h : m ≤ W) :
    triplicateSite W Z m = Z m := by
  unfold triplicateSite
  rw [if_pos h]

theorem triplicateSite_mid (W : Int) (Z : Int → ℝ) (m : Int) (h0 : W < m) (h1 : m ≤ W + 2) :
    triplicateSite W Z m = Z W := by
  unfold triplicateSite
  rw [if_neg (by omega), if_pos h1]

theorem triplicateSite_ge (W : Int) (Z : Int → ℝ) (m : Int) (h : W + 2 ≤ m) :
    triplicateSite W Z m = Z (m - 2) := by
  unfold triplicateSite
  rw [if_neg (by omega)]
  split_ifs with h1
  · congr 1
    omega
  · rfl

theorem zero_well_siteClass (hbar m_e : ℝ) (W_A : Int) (n : Int) :
    siteClass (heterostructure hbar m_e W_A 0) n = SiteClass.AlGaAs := by
  unfold siteClass heterostructure
  simp only
  split_ifs <;> first | rfl | omega

theorem zero_well_offDiagonalValue (hbar m_e : ℝ) (W_A : Int) (n : Int) :
    offDiagonalValue (heterostructure hbar m_e W_A 0) n = -t_AlGaAs (mainParams hbar m_e) := by
  unfold offDiagonalValue bondIsAlGaAs heterostructure
  simp only [decide_eq_true_eq]
  split_ifs <;> first | rfl | omega

theorem one_well_siteClass (hbar m_e : ℝ) (W_A : Int) (n : Int) :
    siteClass (heterostructure hbar m_e W_A 1) n
      = if n = W_A then SiteClass.boundary else SiteClass.AlGaAs := by
  unfold siteClass heterostructure
  simp only
  split_ifs <;> first | rfl | omega

theorem one_well_offDiagonalValue (hbar m_e : ℝ) (W_A : Int) (n : Int) :
    offDiagonalValue (heterostructure hbar m_e W_A 1) n = -t_AlGaAs (mainParams hbar m_e) := by
  unfold offDiagonalValue bondIsAlGaAs heterostructure
  simp only [decide_eq_true_eq]
  split_ifs with h
  · rfl
  · omega

theorem two_well_siteClass_barrier (hbar m_e : ℝ) (W_A : Int) (n : Int)
    (h : n < W_A ∨ W_A + 2 ≤ n) :
    siteClass (heterostructure hbar m_e W_A 2) n = SiteClass.AlGaAs := by
  unfold siteClass heterostructure
  simp only
  split_ifs <;> rfl

theorem two_well_siteClass_boundary (hbar m_e : ℝ) (W_A : Int) (n : Int)
    (h : n = W_A ∨ n = W_A + 1) :
    siteClass (heterostructure hbar m_e W_A 2) n = SiteClass.boundary := by
  unfold siteClass heterostructure
  simp only
  split_ifs <;> first | rfl | omega

theorem two_well_offDiagonalValue_barrier (hbar m_e : ℝ) (W_A : Int) (n : Int)
    (h : n ≠ W_A) :
    offDiagonalValue (heterostructure hbar m_e W_A 2) n = -t_AlGaAs (mainParams hbar m_e) := by
  unfold offDiagonalValue bondIsAlGaAs heterostructure
  simp only [decide_eq_true_eq]
  split_ifs <;> first | rfl | omega

theorem two_well_offDiagonalValue_well (hbar m_e : ℝ) (W_A : Int) :
    offDiagonalValue (heterostructure hbar m_e W_A 2) W_A = -t_GaAs (mainParams hbar m_e) := by
  unfold offDiagonalValue bondIsAlGaAs heterostructure
  simp only [decide_eq_true_eq]
  split_ifs <;> first | rfl | omega

/-- Without a well site every eigenvalue at `k = 0` is at least the barrier offset `3/8`. -/
theorem zero_well_eigenvalue_ge (hbar m_e : ℝ) (hh : hbar ≠ 0) (hm : 0 < m_e) (W_A : Int)
    (lam : ℝ) (v : Fin (siteCount (heterostructure hbar m_e W_A 0)).toNat → ℝ) (hv : v ≠ 0)
    (heig : (Hmat (heterostructure hbar m_e W_A 0) 0).mulVec v = lam • v) : 3 / 8 ≤ lam := by
  have hA := main_t_AlGaAs_pos hbar m_e hh hm
  have hoff : ∀ n : Int, offDiagonalValue (heterostructure hbar m_e W_A 0) n ≤ 0 := by
    intro n
    rw [zero_well_offDiagonalValue]
    linarith
  obtain ⟨n, hn⟩ := exists_row_le_of_eigenvector (Hmat (heterostructure hbar m_e W_A 0) 0)
    (Hmat_offdiag_nonpos _ 0 hoff) (fun _ => (1 : ℝ)) (fun _ => one_pos) lam v hv heig
  rw [Hmat_mulVec, zero_well_siteClass, zero_well_offDiagonalValue, zero_well_offDiagonalValue,
    heterostructure_diagonalValue, main_diagonalValue_zero] at hn
  simp only at hn
  have h1 : extendZero (fun _ : Fin (siteCount (heterostructure hbar m_e W_A 0)).toNat =>
      (1 : ℝ)) (((n : Nat) : Int) - 1) ≤ 1 := by
    unfold extendZero
    split_ifs <;> norm_num
  have h2 : extendZero (fun _ : Fin (siteCount (heterostructure hbar m_e W_A 0)).toNat =>
      (1 : ℝ)) (((n : Nat) : Int) + 1) ≤ 1 := by
    unfold extendZero
    split_ifs <;> norm_num
  nlinarith

/-- The first two well sites: the smallest eigenvalue at `k = 0` with two well sites lies
below the one without a well site (the ground state without a well, with the entry of the last
site of the left barrier repeated at the two well sites, has the lower Rayleigh quotient). -/
theorem two_well_sites_lower (hbar m_e : ℝ) (hh : hbar ≠ 0) (hm : 0 < m_e) (W_A : Int)
    (hW : 1 ≤ W_A) (ev ev' : Nat → ℝ)
    (hs : IsAscendingEigenvalues (Hmat (heterostructure hbar m_e W_A 0) 0) ev)
    (hs' : IsAscendingEigenvalues (Hmat (heterostructure hbar m_e W_A 2) 0) ev') :
    ev' 0 < ev 0 := by
  have hA := main_t_AlGaAs_pos hbar m_e hh hm
  have hN0 : siteCount (heterostructure hbar m_e W_A 0) = 2 * W_A + 0 := rfl
  have hN2 : siteCount (heterostructure hbar m_e W_A 2) = 2 * W_A + 2 := rfl
  have hNpos : 0 < (siteCount (heterostructure hbar m_e W_A 0)).toNat := by omega
  have hoff : ∀ n : Int, offDiagonalValue (heterostructure hbar m_e W_A 0) n < 0 := by
    intro n
    rw [zero_well_offDiagonalValue]
    linarith
  obtain ⟨z, hzpos, hz⟩ := exists_positive_ground_state (heterostructure hbar m_e W_A 0) 0 hoff
    ev hs hNpos
  have hzne : z ≠ 0 := by
    intro h
    have := hzpos ⟨0, hNpos⟩
    rw [h] at this
    simp at this
  have hlam := zero_well_eigenvalue_ge hbar m_e hh hm W_A (ev 0) z hzne hz
  -- the repeated entry is positive
  have hiW : (W_A - 1).toNat < (siteCount (heterostructure hbar m_e W_A 0)).toNat := by omega
  have hb : 0 < extendZero z (W_A - 1) := by
    have h1 := extendZero_coe z ⟨(W_A - 1).toNat, hiW⟩
    simp only [Int.toNat_of_nonneg (show 0 ≤ W_A - 1 by omega)] at h1
    rw [h1]
    exact hzpos _
  -- rows of the matrix without a well
  have hrow : ∀ m : Int, 0 ≤ m → m < 2 * W_A →
      (3 / 8 + 2 * t_AlGaAs (mainParams hbar m_e)) * extendZero z m
        + (-t_AlGaAs (mainParams hbar m_e) * extendZero z (m - 1)
          + -t_AlGaAs (mainParams hbar m_e) * extendZero z (m + 1))
      = ev 0 * extendZero z m := by
    intro m h0 h1
    have h := eigen_row (heterostructure hbar m_e W_A 0) 0 (ev 0) z hz m h0 (by omega)
    rw [zero_well_siteClass, zero_well_offDiagonalValue, zero_well_offDiagonalValue,
      heterostructure_diagonalValue, main_diagonalValue_zero] at h
    exact h
  have hsupp : ∀ m : Int,
      m < 0 ∨ (((siteCount (heterostructure hbar m_e W_A 2)).toNat : Nat) : Int) ≤ m →
      triplicateSite (W_A - 1) (extendZero z) m = 0 := by
    intro m hm'
    rcases hm' with h | h
    · rw [triplicateSite_le _ _ m (by omega), extendZero_of_neg z m h]
    · rw [triplicateSite_ge _ _ m (by omega), extendZero_of_ge z (m - 2) (by omega)]
  have hq := residual_form (heterostructure hbar m_e W_A 2) 0 (ev 0)
    (triplicateSite (W_A - 1) (extendZero z)) hsupp
  apply lowest_lt_of_quadratic_form_lt (Hmat (heterostructure hbar m_e W_A 2) 0) ev' hs'
    (fun n => triplicateSite (W_A - 1) (extendZero z) ((n : Nat) : Int)) (ev 0)
  rw [hq]
  set tA := t_AlGaAs (mainParams hbar m_e) with htA
  set tG := t_GaAs (mainParams hbar m_e) with htG
  set Z := extendZero z with hZ
  set b := Z (W_A - 1) with hbdef
  have hterm : ∀ n : Fin (siteCount (heterostructure hbar m_e W_A 2)).toNat,
      triplicateSite (W_A - 1) Z ((n : Nat) : Int) *
          (diagonalValue (heterostructure hbar m_e W_A 2) 0
              (siteClass (heterostructure hbar m_e W_A 2) ((n : Nat) : Int))
              * triplicateSite (W_A - 1) Z ((n : Nat) : Int)
            + (offDiagonalValue (heterostructure hbar m_e W_A 2) (((n : Nat) : Int) - 1)
                * triplicateSite (W_A - 1) Z (((n : Nat) : Int) - 1)
              + offDiagonalValue (heterostructure hbar m_e W_A 2) ((n : Nat) : Int)
                * triplicateSite (W_A - 1) Z (((n : Nat) : Int) + 1))
            - ev 0 * triplicateSite (W_A - 1) Z ((n : Nat) : Int))
        = (if ((n : Nat) : Int) = W_A - 1 then b * (tA * (Z W_A - b)) else 0)
          + ((if ((n : Nat) : Int) = W_A then b * ((3 / 16 - ev 0) * b) else 0)
            + (if ((n : Nat) : Int) = W_A + 1 then
                b * ((3 / 16 + tA - ev 0) * b - tA * Z W_A) else 0)) := by
    intro n
    have hnN := n.2
    have hn0 : (0 : Int) ≤ ((n : Nat) : Int) := by omega
    have hnlt : ((n : Nat) : Int) < 2 * W_A + 2 := by omega
    generalize ((n : Nat) : Int) = m at hn0 hnlt ⊢
    rw [heterostructure_diagonalValue, main_diagonalValue_zero]
    rcases (show m ≤ W_A - 2 ∨ m = W_A - 1 ∨ m = W_A ∨ m = W_A + 1 ∨ W_A + 2 ≤ m by omega)
      with h | h | h | h | h
    · rw [if_neg (show ¬ m = W_A - 1 by omega), if_neg (show ¬ m = W_A by omega),
        if_neg (show ¬ m = W_A + 1 by omega),
        two_well_siteClass_barrier hbar m_e W_A m (by omega),
        two_well_offDiagonalValue_barrier hbar m_e W_A (m - 1) (by omega),
        two_well_offDiagonalValue_barrier hbar m_e W_A m (by omega),
        triplicateSite_le _ _ m (by omega), triplicateSite_le _ _ (m - 1) (by omega),
        triplicateSite_le _ _ (m + 1) (by omega)]
      simp only
      have h2 := hrow m hn0 (by omega)
      linear_combination (Z m) * h2
    · subst h
      rw [if_pos rfl, if_neg (show ¬ W_A - 1 = W_A by omega),
        if_neg (show ¬ W_A - 1 = W_A + 1 by omega),
        two_well_siteClass_barrier hbar m_e W_A (W_A - 1) (by omega),
        two_well_offDiagonalValue_barrier hbar m_e W_A (W_A - 1 - 1) (by omega),
        two_well_offDiagonalValue_barrier hbar m_e W_A (W_A - 1) (by omega),
        triplicateSite_le _ _ (W_A - 1) le_rfl, triplicateSite_le _ _ (W_A - 1 - 1) (by omega),
        triplicateSite_mid _ _ (W_A - 1 + 1) (by omega) (by omega)]
      simp only
      have h2 := hrow (W_A - 1) (by omega) (by omega)
      rw [show W_A - 1 + 1 = W_A by ring] at h2
      linear_combination b * h2
    · subst h
      rw [if_neg (show ¬ m = m - 1 by omega), if_pos rfl, if_neg (show ¬ m = m + 1 by omega),
        two_well_siteClass_boundary hbar m_e m m (Or.inl rfl),
        two_well_offDiagonalValue_barrier hbar m_e m (m - 1) (by omega),
        two_well_offDiagonalValue_well hbar m_e m,
        triplicateSite_mid _ _ m (by omega) (by omega),
        triplicateSite_le _ _ (m - 1) le_rfl,
        triplicateSite_mid _ _ (m + 1) (by omega) (by omega)]
      simp only
      ring
    · subst h
      rw [if_neg (show ¬ W_A + 1 = W_A - 1 by omega), if_neg (show ¬ W_A + 1 = W_A by omega),
        if_pos rfl,
        two_well_siteClass_boundary hbar m_e W_A (W_A + 1) (Or.inr rfl),
        show W_A + 1 - 1 = W_A by ring,
        two_well_offDiagonalValue_well hbar m_e W_A,
        two_well_offDiagonalValue_barrier hbar m_e W_A (W_A + 1) (by omega),
        triplicateSite_mid _ _ (W_A + 1) (by omega) (by omega),
        triplicateSite_mid _ _ W_A (by omega) (by omega),
        triplicateSite_ge _ _ (W_A + 1 + 1) (by omega),
        show W_A + 1 + 1 - 2 = W_A by ring]
      simp only
      ring
    · rw [if_neg (show ¬ m = W_A - 1 by omega), if_neg (show ¬ m = W_A by omega),
        if_neg (show ¬ m = W_A + 1 by omega),
        two_well_siteClass_barrier hbar m_e W_A m (by omega),
        two_well_offDiagonalValue_barrier hbar m_e W_A (m - 1) (by omega),
        two_well_offDiagonalValue_barrier hbar m_e W_A m (by omega),
        triplicateSite_ge _ _ m (by omega), triplicateSite_ge _ _ (m - 1) (by omega),
        triplicateSite_ge _ _ (m + 1) (by omega)]
      simp only
      have h2 := hrow (m - 2) (by omega) (by omega)
      rw [show m - 2 - 1 = m - 1 - 2 by ring, show m - 2 + 1 = m + 1 - 2 by ring] at h2
      linear_combination (Z (m - 2)) * h2
  rw [Finset.sum_congr rfl (fun n _ => hterm n), Finset.sum_add_distrib, Finset.sum_add_distrib,
    sum_fin_single _ (W_A - 1) (by omega) (by omega),
    sum_fin_single _ W_A (by omega) (by omega),
    sum_fin_single _ (W_A + 1) (by omega) (by omega)]
  have hb2 : 0 < b ^ 2 := pow_pos hb 2
  nlinarith

/-- With barriers of two sites and no well site, every eigenvalue at `k = 0` is at least
`3/8 + (8/21)·t_AlGaAs`. -/
theorem four_sites_eigenvalue_ge (hbar m_e : ℝ) (hh : hbar ≠ 0) (hm : 0 < m_e) (lam : ℝ)
    (v : Fin (siteCount (heterostructure hbar m_e 2 0)).toNat → ℝ) (hv : v ≠ 0)
    (heig : (Hmat (heterostructure hbar m_e 2 0) 0).mulVec v = lam • v) :
    3 / 8 + 8 / 21 * t_AlGaAs (mainParams hbar m_e) ≤ lam := by
  have hA := main_t_AlGaAs_pos hbar m_e hh hm
  have hoff : ∀ n : Int, offDiagonalValue (heterostructure hbar m_e 2 0) n ≤ 0 := by
    intro n
    rw [zero_well_offDiagonalValue]
    linarith
  have hN : (((siteCount (heterostructure hbar m_e 2 0)).toNat : Nat) : Int) = 4 := rfl
  have hsupp : ∀ m : Int,
      m < 0 ∨ (((siteCount (heterostructure hbar m_e 2 0)).toNat : Nat) : Int) ≤ m →
      edgeProfile 4 (13 : ℝ) 21 m = 0 := by
    intro m hm'
    unfold edgeProfile
    rw [if_pos (by omega)]
  obtain ⟨n, hn⟩ := exists_row_le_of_eigenvector (Hmat (heterostructure hbar m_e 2 0) 0)
    (Hmat_offdiag_nonpos _ 0 hoff)
    (fun n => edgeProfile 4 (13 : ℝ) 21 ((n : Nat) : Int))
    (fun n => by
      have := n.2
      simp only [edgeProfile]
      rw [if_neg (by omega)]
      split_ifs <;> norm_num)
    lam v hv heig
  rw [Hmat_mulVec, extendZero_support _ _ hsupp, extendZero_support _ _ hsupp,
    zero_well_siteClass, zero_well_offDiagonalValue, zero_well_offDiagonalValue,
    heterostructure_diagonalValue, main_diagonalValue_zero] at hn
  simp only at hn
  have hnN := n.2
  have hn0 : (0 : Int) ≤ ((n : Nat) : Int) := by omega
  have hnlt : ((n : Nat) : Int) < 4 := by omega
  generalize ((n : Nat) : Int) = m at hn hn0 hnlt
  rcases (show m = 0 ∨ m = 1 ∨ m = 2 ∨ m = 3 by omega) with h | h | h | h <;> subst h <;>
    norm_num [edgeProfile] at hn <;> linarith

/-- With barriers of two sites and one well site, the smallest eigenvalue at `k = 0` lies below
`3/8 + (8/21)·t_AlGaAs`. -/
theorem five_sites_lowest_lt (hbar m_e : ℝ) (hh : hbar ≠ 0) (hm : 0 < m_e) (ev : Nat → ℝ)
    (hs : IsAscendingEigenvalues (Hmat (heterostructure hbar m_e 2 1) 0) ev) :
    ev 0 < 3 / 8 + 8 / 21 * t_AlGaAs (mainParams hbar m_e) := by
  have hs0 : 0 < hbar ^ 2 / m_e := div_pos (by positivity) hm
  have hAe := mainParams_t_AlGaAs hbar m_e
  have hGe := mainParams_t_GaAs hbar m_e
  have hN : (siteCount (heterostructure hbar m_e 2 1)).toNat = 5 := rfl
  have hsupp : ∀ m : Int,
      m < 0 ∨ (((siteCount (heterostructure hbar m_e 2 1)).toNat : Nat) : Int) ≤ m →
      edgeProfile 5 (3 : ℝ) 5 m = 0 := by
    intro m hm'
    unfold edgeProfile
    rw [if_pos (by omega)]
  apply lowest_lt_of_quadratic_form_lt (Hmat (heterostructure hbar m_e 2 1) 0) ev hs
    (fun n => edgeProfile 5 (3 : ℝ) 5 ((n : Nat) : Int))
  rw [residual_form (heterostructure hbar m_e 2 1) 0 _ (edgeProfile 5 (3 : ℝ) 5) hsupp]
  simp only [one_well_siteClass, one_well_offDiagonalValue, heterostructure_diagonalValue]
  rw [Fin.sum_univ_eq_sum_range (fun i : Nat => edgeProfile 5 (3 : ℝ) 5 (i : Int) *
      (diagonalValue (mainParams hbar m_e) 0
          (if (i : Int) = 2 then SiteClass.boundary else SiteClass.AlGaAs)
          * edgeProfile 5 (3 : ℝ) 5 (i : Int)
        + (-t_AlGaAs (mainParams hbar m_e) * edgeProfile 5 (3 : ℝ) 5 ((i : Int) - 1)
          + -t_AlGaAs (mainParams hbar m_e) * edgeProfile 5 (3 : ℝ) 5 ((i : Int) + 1))
        - (3 / 8 + 8 / 21 * t_AlGaAs (mainParams hbar m_e)) * edgeProfile 5 (3 : ℝ) 5 (i : Int))),
    hN]
  norm_num [Finset.sum_range_succ, edgeProfile, main_diagonalValue_zero]
  rw [hAe, hGe]
  linarith

/-- With barriers of one site and no well site, every eigenvalue at `k = 0` is at least
`3/8 + t_AlGaAs`. -/
theorem two_sites_eigenvalue_ge (hbar m_e : ℝ) (hh : hbar ≠ 0) (hm : 0 < m_e) (lam : ℝ)
    (v : Fin (siteCount (heterostructure hbar m_e 1 0)).toNat → ℝ) (hv : v ≠ 0)
    (heig : (Hmat (heterostructure hbar m_e 1 0) 0).mulVec v = lam • v) :
    3 / 8 + t_AlGaAs (mainParams hbar m_e) ≤ lam := by
  have hA := main_t_AlGaAs_pos hbar m_e hh hm
  have hoff : ∀ n : Int, offDiagonalValue (heterostructure hbar m_e 1 0) n ≤ 0 := by
    intro n
    rw [zero_well_offDiagonalValue]
    linarith
  have hN : (((siteCount (heterostructure hbar m_e 1 0)).toNat : Nat) : Int) = 2 := rfl
  have hsupp : ∀ m : Int,
      m < 0 ∨ (((siteCount (heterostructure hbar m_e 1 0)).toNat : Nat) : Int) ≤ m →
      edgeProfile 2 (1 : ℝ) 1 m = 0 := by
    intro m hm'
    unfold edgeProfile
    rw [if_pos (by omega)]
  obtain ⟨n, hn⟩ := exists_row_le_of_eigenvector (Hmat (heterostructure hbar m_e 1 0) 0)
    (Hmat_offdiag_nonpos _ 0 hoff)
    (fun n => edgeProfile 2 (1 : ℝ) 1 ((n : Nat) : Int))
    (fun n => by
      have := n.2
      simp only [edgeProfile]
      rw [if_neg (by omega)]
      split_ifs <;> norm_num)
    lam v hv heig
  rw [Hmat_mulVec, extendZero_support _ _ hsupp, extendZero_support _ _ hsupp,
    zero_well_siteClass, zero_well_offDiagonalValue, zero_well_offDiagonalValue,
    heterostructure_diagonalValue, main_diagonalValue_zero] at hn
  simp only at hn
  have hnN := n.2
  have hn0 : (0 : Int) ≤ ((n : Nat) : Int) := by omega
  have hnlt : ((n : Nat) : Int) < 2 := by omega
  generalize ((n : Nat) : Int) = m at hn hn0 hnlt
  rcases (show m = 0 ∨ m = 1 by omega) with h | h <;> subst h <;>
    norm_num [edgeProfile] at hn <;> linarith

/-- With barriers of one site and one well site, the smallest eigenvalue at `k = 0` lies below
`3/8 + t_AlGaAs`. -/
theorem three_sites_lowest_lt (hbar m_e : ℝ) (hh : hbar ≠ 0) (hm : 0 < m_e) (ev : Nat → ℝ)
    (hs : IsAscendingEigenvalues (Hmat (heterostructure hbar m_e 1 1) 0) ev) :
    ev 0 < 3 / 8 + t_AlGaAs (mainParams hbar m_e) := by
  have hs0 : 0 < hbar ^ 2 / m_e := div_pos (by positivity) hm
  have hAe := mainParams_t_AlGaAs hbar m_e
  have hGe := mainParams_t_GaAs hbar m_e
  have hN : (siteCount (heterostructure hbar m_e 1 1)).toNat = 3 := rfl
  have hsupp : ∀ m : Int,
      m < 0 ∨ (((siteCount (heterostructure hbar m_e 1 1)).toNat : Nat) : Int) ≤ m →
      edgeProfile 3 (1 : ℝ) 1 m = 0 := by
    intro m hm'
    unfold edgeProfile
    rw [if_pos (by omega)]
  apply lowest_lt_of_quadratic_form_lt (Hmat (heterostructure hbar m_e 1 1) 0) ev hs
    (fun n => edgeProfile 3 (1 : ℝ) 1 ((n : Nat) : Int))
  rw [residual_form (heterostructure hbar m_e 1 1) 0 _ (edgeProfile 3 (1 : ℝ) 1) hsupp]
  simp only [one_well_siteClass, one_well_offDiagonalValue, heterostructure_diagonalValue]
  rw [Fin.sum_univ_eq_sum_range (fun i : Nat => edgeProfile 3 (1 : ℝ) 1 (i : Int) *
      (diagonalValue (mainParams hbar m_e) 0
          (if (i : Int) = 1 then SiteClass.boundary else SiteClass.AlGaAs)
          * edgeProfile 3 (1 : ℝ) 1 (i : Int)
        + (-t_AlGaAs (mainParams hbar m_e) * edgeProfile 3 (1 : ℝ) 1 ((i : Int) - 1)
          + -t_AlGaAs (mainParams hbar m_e) * edgeProfile 3 (1 : ℝ) 1 ((i : Int) + 1))
        - (3 / 8 + t_AlGaAs (mainParams hbar m_e)) * edgeProfile 3 (1 : ℝ) 1 (i : Int))),
    hN]
  norm_num [Finset.sum_range_succ, edgeProfile, main_diagonalValue_zero]
  rw [hAe, hGe]
  linarith

/-- The first well site between barriers of one or two sites lowers the smallest eigenvalue at
`k = 0`. -/
theorem first_well_site_lowers_narrow (hbar m_e : ℝ) (hh : hbar ≠ 0) (hm : 0 < m_e)
    (W_A : Int) (h1 : 1 ≤ W_A) (h2 : W_A ≤ 2) (l l' : ℝ)
    (hl : IsSmallestEigenvalue (Hmat (heterostructure hbar m_e W_A 0) 0) l)
    (hl' : IsSmallestEigenvalue (Hmat (heterostructure hbar m_e W_A 1) 0) l') : l' < l := by
  obtain ⟨ev', hs'⟩ := exists_ascending_eigenvalues
    (Hmat (heterostructure hbar m_e W_A 1) 0) (Hmat_symm _ _)
  have hN' : siteCount (heterostructure hbar m_e W_A 1) = 2 * W_A + 1 := rfl
  have e2 := smallest_unique _ l' (ev' 0) hl' (ascending_zero_isSmallest _ ev' hs' (by omega))
  obtain ⟨⟨v, hv, hMv⟩, _⟩ := hl
  rw [e2]
  rcases (show W_A = 1 ∨ W_A = 2 by omega) with h | h
  · subst h
    have a1 := two_sites_eigenvalue_ge hbar m_e hh hm l v hv hMv
    have a2 := three_sites_lowest_lt hbar m_e hh hm ev' hs'
    linarith
  · subst h
    have a1 := four_sites_eigenvalue_ge hbar m_e hh hm l v hv hMv
    have a2 := five_sites_lowest_lt hbar m_e hh hm ev' hs'
    linarith

/-- From no well site to two or more well sites the smallest eigenvalue at `k = 0` falls. -/
theorem decreases_from_no_well_site (hbar m_e : ℝ) (hh : hbar ≠ 0) (hm : 0 < m_e)
    (W_A w' : Int) (hW : 1 ≤ W_A) (hw' : 2 ≤ w') (l l' : ℝ)
    (hl : IsSmallestEigenvalue (Hmat (heterostructure hbar m_e W_A 0) 0) l)
    (hl' : IsSmallestEigenvalue (Hmat (heterostructure hbar m_e W_A w') 0) l') : l' < l := by
  obtain ⟨ev, hs⟩ := exists_ascending_eigenvalues
    (Hmat (heterostructure hbar m_e W_A 0) 0) (Hmat_symm _ _)
  obtain ⟨ev₂, hs₂⟩ := exists_ascending_eigenvalues
    (Hmat (heterostructure hbar m_e W_A 2) 0) (Hmat_symm _ _)
  have hN : siteCount (heterostructure hbar m_e W_A 0) = 2 * W_A + 0 := rfl
  have hN₂ : siteCount (heterostructure hbar m_e W_A 2) = 2 * W_A + 2 := rfl
  have e1 := smallest_unique _ l (ev 0) hl (ascending_zero_isSmallest _ ev hs (by omega))
  have hl₂ := ascending_zero_isSmallest _ ev₂ hs₂ (show 0 <
    (siteCount (heterostructure hbar m_e W_A 2)).toNat by omega)
  have h02 := two_well_sites_lower hbar m_e hh hm W_A hW ev ev₂ hs hs₂
  rw [e1]
  rcases (show w' = 2 ∨ 2 < w' by omega) with h | h
  · subst h
    rw [smallest_unique _ l' (ev₂ 0) hl' hl₂]
    exact h02
  · exact (decreases_from_one_well_site hbar m_e hh hm W_A 2 w' (by omega) (by omega) h
      (ev₂ 0) l' hl₂ hl').trans h02

/-- A vector given by a function that vanishes at the two positions next to the rod is
continued by that function there. -/
theorem extendZero_edge (N : Nat) (f : Int → ℝ) (h0 : f (-1) = 0) (hN : f (N : Int) = 0)
    (m : Int) (hm0 : -1 ≤ m) (hm1 : m ≤ (N : Int)) :
    extendZero (fun n : Fin N => f ((n : Nat) : Int)) m = f m := by
  by_cases h : 0 ≤ m ∧ m < (N : Int)
  · exact extendZero_fun N f m h.1 h.2
  · rw [extendZero, dif_neg h]
    rcases (show m = -1 ∨ m = (N : Int) by omega) with h2 | h2
    · rw [h2, h0]
    · rw [h2, hN]

/-- The kinetic energy of the ground state of a rod of six or more barrier sites stays below
the bump of the single well site, when `hbar² / m_e ≥ 3`. -/
theorem bump_ge_kinetic (hbar m_e : ℝ) (hm : 0 < m_e)
    (hr : 3 * m_e ≤ hbar ^ 2) (θ : ℝ) (h0 : 0 ≤ θ) (h1 : θ ≤ Real.pi / 7) :
    3 / 8 + 2 * t_AlGaAs (mainParams hbar m_e)
        - 2 * t_AlGaAs (mainParams hbar m_e) * Real.cos θ
      ≤ 3 / 16 + t_GaAs (mainParams hbar m_e) - t_AlGaAs (mainParams hbar m_e) := by
  have hratio : 3 ≤ hbar ^ 2 / m_e := by
    rw [le_div_iff₀ hm]
    exact hr
  rw [mainParams_t_AlGaAs, mainParams_t_GaAs]
  have hcos := Real.one_sub_sq_div_two_le_cos (x := θ)
  have hpi := Real.pi_lt_d2
  have hpi0 := Real.pi_pos
  have hθ2 : θ ^ 2 ≤ 2025 / 10000 := by
    have : θ ≤ 45 / 100 := by linarith
    nlinarith
  nlinarith

/-- With barriers of three or more sites and a single well site, every eigenvalue at `k = 0` is
at least the smallest eigenvalue of the rod without the well site, when `hbar² / m_e ≥ 3`. -/
theorem wide_single_site_eigenvalue_ge (hbar m_e : ℝ) (hh : hbar ≠ 0) (hm : 0 < m_e)
    (hr : 3 * m_e ≤ hbar ^ 2) (W_A : Int) (hW : 3 ≤ W_A) (lam : ℝ)
    (v : Fin (siteCount (heterostructure hbar m_e W_A 1)).toNat → ℝ) (hv : v ≠ 0)
    (heig : (Hmat (heterostructure hbar m_e W_A 1) 0).mulVec v = lam • v) :
    3 / 8 + 2 * t_AlGaAs (mainParams hbar m_e)
        - 2 * t_AlGaAs (mainParams hbar m_e) * Real.cos (Real.pi / (2 * (W_A : ℝ) + 1))
      ≤ lam := by
  have hA := main_t_AlGaAs_pos hbar m_e hh hm
  have hWr : (3 : ℝ) ≤ (W_A : ℝ) := by exact_mod_cast hW
  have hden : (0 : ℝ) < 2 * (W_A : ℝ) + 1 := by linarith
  set θ : ℝ := Real.pi / (2 * (W_A : ℝ) + 1) with hθ
  have hpi0 := Real.pi_pos
  have hθ0 : 0 < θ := div_pos hpi0 hden
  have hθ7 : θ ≤ Real.pi / 7 := by
    rw [hθ]
    exact div_le_div_of_nonneg_left hpi0.le (by norm_num) (by linarith)
  have hθπ : (2 * (W_A : ℝ) + 1) * θ = Real.pi := by
    rw [hθ]
    field_simp
  have hbump := bump_ge_kinetic hbar m_e hm hr θ hθ0.le hθ7
  have hN : siteCount (heterostructure hbar m_e W_A 1) = 2 * W_A + 1 := rfl
  have hNc : (((siteCount (heterostructure hbar m_e W_A 1)).toNat : Nat) : Int)
      = 2 * W_A + 1 := by omega
  set Y : Int → ℝ := fun m =>
    if m < W_A then Real.sin (((m : ℝ) + 1) * θ) else Real.sin ((m : ℝ) * θ) with hY
  have hYlt : ∀ m : Int, m < W_A → Y m = Real.sin (((m : ℝ) + 1) * θ) := by
    intro m h
    simp only [hY]
    rw [if_pos h]
  have hYge : ∀ m : Int, W_A ≤ m → Y m = Real.sin ((m : ℝ) * θ) := by
    intro m h
    simp only [hY]
    rw [if_neg (by omega)]
  have hYpos : ∀ m : Int, 0 ≤ m → m ≤ 2 * W_A → 0 < Y m := by
    intro m h0 h1
    have a0 : (0 : ℝ) ≤ (m : ℝ) := by exact_mod_cast h0
    have a1 : (m : ℝ) ≤ 2 * (W_A : ℝ) := by exact_mod_cast h1
    by_cases h : m < W_A
    · rw [hYlt m h]
      have a2 : (m : ℝ) + 1 ≤ (W_A : ℝ) := by exact_mod_cast (show m + 1 ≤ W_A by omega)
      apply Real.sin_pos_of_pos_of_lt_pi
      · exact mul_pos (by linarith) hθ0
      · rw [← hθπ]
        exact mul_lt_mul_of_pos_right (by linarith) hθ0
    · rw [hYge m (by omega)]
      have a2 : (W_A : ℝ) ≤ (m : ℝ) := by exact_mod_cast (show W_A ≤ m by omega)
      apply Real.sin_pos_of_pos_of_lt_pi
      · exact mul_pos (by linarith) hθ0
      · rw [← hθπ]
        exact mul_lt_mul_of_pos_right (by linarith) hθ0
  have hYm1 : Y (-1) = 0 := by
    rw [hYlt (-1) (by omega)]
    simp
  have hYN : Y (((siteCount (heterostructure hbar m_e W_A 1)).toNat : Nat) : Int) = 0 := by
    rw [hNc, hYge _ (by omega)]
    push_cast
    rw [hθπ, Real.sin_pi]
  -- the two sites next to the middle carry the same value
  have hsym : Real.sin (((W_A : ℝ) + 1) * θ) = Real.sin ((W_A : ℝ) * θ) := by
    have : ((W_A : ℝ) + 1) * θ = Real.pi - (W_A : ℝ) * θ := by
      rw [← hθπ]
      ring
    rw [this, Real.sin_pi_sub]
  have htrig : ∀ a : ℝ, Real.sin (a - θ) + Real.sin (a + θ) = 2 * Real.sin a * Real.cos θ := by
    intro a
    rw [Real.sin_sub, Real.sin_add]
    ring
  have hoff : ∀ n : Int, offDiagonalValue (heterostructure hbar m_e W_A 1) n ≤ 0 := by
    intro n
    rw [one_well_offDiagonalValue]
    linarith
  obtain ⟨n, hn⟩ := exists_row_le_of_eigenvector (Hmat (heterostructure hbar m_e W_A 1) 0)
    (Hmat_offdiag_nonpos _ 0 hoff) (fun n => Y ((n : Nat) : Int))
    (fun n => hYpos _ (by omega) (by have := n.2; omega)) lam v hv heig
  have hnN := n.2
  have hn0 : (0 : Int) ≤ ((n : Nat) : Int) := by omega
  have hnlt : ((n : Nat) : Int) ≤ 2 * W_A := by omega
  have hypos := hYpos ((n : Nat) : Int) hn0 hnlt
  suffices h : (3 / 8 + 2 * t_AlGaAs (mainParams hbar m_e)
        - 2 * t_AlGaAs (mainParams hbar m_e) * Real.cos θ) * Y ((n : Nat) : Int)
      ≤ (Hmat (heterostructure hbar m_e W_A 1) 0).mulVec (fun n => Y ((n : Nat) : Int)) n by
    exact le_of_mul_le_mul_right (h.trans hn) hypos
  rw [Hmat_mulVec, extendZero_edge _ Y hYm1 hYN _ (by omega) (by omega),
    extendZero_edge _ Y hYm1 hYN _ (by omega) (by omega), one_well_siteClass,
    one_well_offDiagonalValue, one_well_offDiagonalValue, heterostructure_diagonalValue]
  set tA := t_AlGaAs (mainParams hbar m_e) with htA
  set tG := t_GaAs (mainParams hbar m_e) with htG
  generalize ((n : Nat) : Int) = m at hn0 hnlt hypos ⊢
  have hm1 : (((m - 1 : Int)) : ℝ) = (m : ℝ) - 1 := by push_cast; ring
  have hp1 : (((m + 1 : Int)) : ℝ) = (m : ℝ) + 1 := by push_cast; ring
  rcases (show m ≤ W_A - 2 ∨ m = W_A - 1 ∨ m = W_A ∨ W_A + 1 ≤ m by omega) with h | h | h | h
  · rw [if_neg (show ¬ m = W_A by omega), main_diagonalValue_zero, ← htA,
      hYlt m (by omega), hYlt (m - 1) (by omega), hYlt (m + 1) (by omega), hm1, hp1]
    simp only
    have e := htrig (((m : ℝ) + 1) * θ)
    rw [show ((m : ℝ) + 1) * θ - θ = ((m : ℝ) - 1 + 1) * θ by ring,
      show ((m : ℝ) + 1) * θ + θ = ((m : ℝ) + 1 + 1) * θ by ring] at e
    nlinarith
  · subst h
    rw [if_neg (show ¬ W_A - 1 = W_A by omega), main_diagonalValue_zero, ← htA,
      hYlt (W_A - 1) (by omega), hYlt (W_A - 1 - 1) (by omega),
      hYge (W_A - 1 + 1) (by omega)]
    simp only
    push_cast
    have e := htrig ((W_A : ℝ) * θ)
    rw [show (W_A : ℝ) * θ + θ = ((W_A : ℝ) + 1) * θ by ring, hsym] at e
    rw [show ((W_A : ℝ) - 1 + 1) * θ = (W_A : ℝ) * θ by ring,
      show ((W_A : ℝ) - 1 - 1 + 1) * θ = (W_A : ℝ) * θ - θ by ring]
    nlinarith
  · subst h
    rw [if_pos rfl, main_diagonalValue_zero, ← htA, ← htG,
      hYge m le_rfl, hYlt (m - 1) (by omega), hYge (m + 1) (by omega), hm1, hp1]
    simp only
    rw [show ((m : ℝ) - 1 + 1) * θ = (m : ℝ) * θ by ring, hsym]
    have hs : 0 < Real.sin ((m : ℝ) * θ) := by
      rw [← hYge m le_rfl]
      exact hypos
    nlinarith
  · rw [if_neg (show ¬ m = W_A by omega), main_diagonalValue_zero, ← htA,
      hYge m (by omega), hYge (m - 1) (by omega), hYge (m + 1) (by omega), hm1, hp1]
    simp only
    have e := htrig ((m : ℝ) * θ)
    rw [show (m : ℝ) * θ - θ = ((m : ℝ) - 1) * θ by ring,
      show (m : ℝ) * θ + θ = ((m : ℝ) + 1) * θ by ring] at e
    nlinarith

/-- The first well site between barriers of three or more sites does not lower the smallest
eigenvalue at `k = 0`, when `hbar² / m_e ≥ 3`. -/
theorem first_well_site_raises_wide (hbar m_e : ℝ) (hh : hbar ≠ 0) (hm : 0 < m_e)
    (hr : 3 * m_e ≤ hbar ^ 2) (W_A : Int) (hW : 3 ≤ W_A) (l l' : ℝ)
    (hl : IsSmallestEigenvalue (Hmat (heterostructure hbar m_e W_A 0) 0) l)
    (hl' : IsSmallestEigenvalue (Hmat (heterostructure hbar m_e W_A 1) 0) l') : l ≤ l' := by
  have hN : siteCount (heterostructure hbar m_e W_A 0) = 2 * W_A + 0 := rfl
  have hNc : (((siteCount (heterostructure hbar m_e W_A 0)).toNat : Nat) : Int) = 2 * W_A := by
    omega
  have hNr : (((siteCount (heterostructure hbar m_e W_A 0)).toNat : Nat) : ℝ)
      = 2 * (W_A : ℝ) := by
    exact_mod_cast hNc
  have heig := toeplitz_sin_eigen (heterostructure hbar m_e W_A 0) 0 (3 / 8)
    (t_AlGaAs (mainParams hbar m_e))
    (fun n => by
      rw [zero_well_siteClass, heterostructure_diagonalValue, main_diagonalValue_zero])
    (zero_well_offDiagonalValue hbar m_e W_A) 1
  have h1 := hl.2 _ _ (sin_vector_ne_zero _ 1 le_rfl (by omega)) heig
  obtain ⟨⟨v', hv', hMv'⟩, _⟩ := hl'
  have h2 := wide_single_site_eigenvalue_ge hbar m_e hh hm hr W_A hW l' v' hv' hMv'
  rw [hNr] at h1
  have e : Real.pi * ((1 : Nat) : ℝ) / (2 * (W_A : ℝ) + 1) = Real.pi / (2 * (W_A : ℝ) + 1) := by
    push_cast
    ring
  rw [e] at h1
  linarith

/-- C9 (amended): for the structure of `main` with any barrier width `W_A ≥ 0`, `hbar ≠ 0` and
`m_e > 0`, the smallest eigenvalue of the matrix assembled at `k = 0` is strictly decreasing in
the well site count, `λ_min(H(W_A, w')) < λ_min(H(W_A, w))`, for all well widths `0 ≤ w < w'`
other than the step from `w = 0` to `w' = 1` between barriers of `W_A ≥ 3` sites (that is,
whenever `w' ≥ 2` or `W_A ≤ 2`); at that step it does not decrease when `hbar² / m_e ≥ 3`, as
for the physical constants. -/
theorem C9_ground_state_decreases_except_first_site (hbar m_e : ℝ) (hh : hbar ≠ 0)
    (hm : 0 < m_e) (W_A w w' : Int) (hW : 0 ≤ W_A) (hw : 0 ≤ w) (hww : w < w') (l l' : ℝ)
    (hl : IsSmallestEigenvalue (Hmat (heterostructure hbar m_e W_A w) 0) l)
    (hl' : IsSmallestEigenvalue (Hmat (heterostructure hbar m_e W_A w') 0) l') :
    ((2 ≤ w' ∨ W_A ≤ 2) → l' < l) ∧
    (3 * m_e ≤ hbar ^ 2 → w' = 1 → 3 ≤ W_A → l ≤ l') := by
  constructor
  · intro hstep
    rcases (show 1 ≤ w ∨ w = 0 by omega) with h | h
    · exact decreases_from_one_well_site hbar m_e hh hm W_A w w' hW h hww l l' hl hl'
    · subst h
      have hWpos : 1 ≤ W_A := by
        by_contra hcon
        have hWz : W_A = 0 := by omega
        subst hWz
        obtain ⟨⟨v, hv, _⟩, _⟩ := hl
        apply hv
        funext n
        exact absurd n.2 (by
          have : (siteCount (heterostructure hbar m_e 0 0)).toNat = 0 := rfl
          omega)
      rcases (show 2 ≤ w' ∨ (w' = 1 ∧ W_A ≤ 2) by omega) with h2 | ⟨h1, h2⟩
      · exact decreases_from_no_well_site hbar m_e hh hm W_A w' hWpos h2 l l' hl hl'
      · subst h1
        exact first_well_site_lowers_narrow hbar m_e hh hm W_A hWpos h2 l l' hl hl'
  · intro hr h1 h3
    subst h1
    have hw0 : w = 0 := by omega
    subst hw0
    exact first_well_site_raises_wide hbar m_e hh hm hr W_A h3 l l' hl hl'

/-- C9 (amended) at the physical constants and the run's barrier width 100: the run's well of
23 sites lowers the smallest eigenvalue below that of the rod without a well, a single well
site does not. -/
theorem C9_ground_state_decreases_except_first_site_witness :
    ∃ l l₁ l₂₃ : ℝ,
      IsSmallestEigenvalue (Hmat (heterostructure (hbarN ℝ) (m_eN ℝ) 100 0) 0) l ∧
      IsSmallestEigenvalue (Hmat (heterostructure (hbarN ℝ) (m_eN ℝ) 100 1) 0) l₁ ∧
      IsSmallestEigenvalue (Hmat (heterostructure (hbarN ℝ) (m_eN ℝ) 100 23) 0) l₂₃ ∧
      l₂₃ < l ∧ l ≤ l₁ := by
  obtain ⟨l, hl⟩ := exists_smallest_eigenvalue (heterostructure (hbarN ℝ) (m_eN ℝ) 100 0) 0
    (by decide)
  obtain ⟨l₁, hl₁⟩ := exists_smallest_eigenvalue (heterostructure (hbarN ℝ) (m_eN ℝ) 100 1) 0
    (by decide)
  obtain ⟨l₂₃, hl₂₃⟩ := exists_smallest_eigenvalue
    (heterostructure (hbarN ℝ) (m_eN ℝ) 100 23) 0 (by decide)
  exact ⟨l, l₁, l₂₃, hl, hl₁, hl₂₃,
    (C9_ground_state_decreases_except_first_site (hbarN ℝ) (m_eN ℝ) hbarN_pos.ne' m_eN_pos
      100 0 23 (by decide) (by decide) (by decide) l l₂₃ hl hl₂₃).1 (Or.inl (by decide)),
    (C9_ground_state_decreases_except_first_site (hbarN ℝ) (m_eN ℝ) hbarN_pos.ne' m_eN_pos
      100 0 1 (by decide) (by decide) (by decide) l l₁ hl hl₁).2 hbarN_sq_ge rfl (by decide)⟩

end FirstWellSites

end E_7_1_c
